import Mathlib

/-!
Verification of the Townscaper lattice pipeline
(`TownscaperLattice.ts`, `TownscaperClustering.ts`, `TownscaperPairing.ts`).

The TypeScript sources are shallowly embedded: JavaScript numbers are
modelled as rationals, the seeded random generator `() => number` is
modelled as a stream `ℕ → ℚ` together with an explicit call counter,
JavaScript arrays become lists (push = append at the end), and the two
`Map`s become insertion-ordered association lists.  The external
collaborator `isPointInBoundary(point, border)` (out of scope per the
spec) is abstracted as the predicate `inBoundary : Vec2 → Bool`, i.e. the
partial application of the external test to the supplied border.
-/

namespace Townscaper

/-- Model of the 2-d float pair `Vec2`. -/
abbrev Vec2 := ℚ × ℚ

/-- Model of the random source: the n-th call to `random()` returns `g n`. -/
abbrev Rng := ℕ → ℚ

/-- Embedding of `TRIANGULAR_VERTICAL_RATIO = Math.sin(Math.PI / 3)`; the
double value is modelled by its shortest decimal form.  No claim depends on
the exact value, only on its positivity. -/
def sin60 : ℚ := 8660254037844386 / 10000000000000000

/-- Embedding of `TownscaperLatticeVertex`. -/
structure LatticeVertex where
  id : ℕ
  row : ℕ
  column : ℕ
  position : Vec2
  insideBoundary : Bool
deriving Repr, DecidableEq, Inhabited

/-- Embedding of `TownscaperLatticeEdge`. -/
structure LatticeEdge where
  id : ℕ
  vertices : ℕ × ℕ
  triangles : List ℕ
  touchesBoundary : Bool
deriving Repr, DecidableEq, Inhabited

/-- Embedding of `TownscaperLatticeTriangle`. -/
structure LatticeTriangle where
  id : ℕ
  vertices : ℕ × ℕ × ℕ
  centroid : Vec2
  neighbors : List ℕ
  insideBoundary : Bool
deriving Repr, DecidableEq, Inhabited

/-- Embedding of `TownscaperLattice`. -/
structure Lattice where
  vertices : List LatticeVertex
  edges : List LatticeEdge
  triangles : List LatticeTriangle
  horizontalSpacing : ℚ
  verticalSpacing : ℚ
  rowCount : ℤ
  columnCount : ℤ
deriving Repr, DecidableEq, Inhabited

/-- Embedding of `TownscaperLatticeOptions`; `border` together with the
external `isPointInBoundary` is abstracted into `inBoundary`. -/
structure LatticeOptions where
  width : ℚ
  height : ℚ
  pieceSize : ℚ
  inBoundary : Vec2 → Bool
  random : Rng

/-- Embedding of `createEdgeKey`: the string key `"min:max"` is modelled as
the ordered pair (min, max). -/
def createEdgeKey (a b : ℕ) : ℕ × ℕ := if a < b then (a, b) else (b, a)

/-- Embedding of the internal `EdgeRecord`. -/
structure EdgeRecord where
  vertices : ℕ × ℕ
  triangles : List ℕ
deriving Repr, DecidableEq, Inhabited

/-- State of the vertex-construction loop: the growing `vertices` array and
the `indexByCoord` map (insertion-ordered association list). -/
structure VertexState where
  vertices : List LatticeVertex
  indexByCoord : List ((ℕ × ℕ) × ℕ)
deriving Repr, DecidableEq, Inhabited

/-- One iteration of the vertex double loop in `createTownscaperLattice`. -/
def pushVertex (inB : Vec2 → Bool) (hs vs startX startY : ℚ)
    (s : VertexState) (rowIndex columnIndex : ℕ) : VertexState :=
  let y := startY + (rowIndex : ℚ) * vs
  let offsetX : ℚ := if rowIndex % 2 = 0 then 0 else hs / 2
  let x := startX + (columnIndex : ℚ) * hs
  let basePoint : Vec2 := (x + offsetX, y)
  let vertexIndex := s.vertices.length
  let v : LatticeVertex := { id := vertexIndex, row := rowIndex, column := columnIndex,
                             position := basePoint, insideBoundary := inB basePoint }
  { vertices := s.vertices ++ [v],
    indexByCoord := s.indexByCoord ++ [((rowIndex, columnIndex), vertexIndex)] }

/-- The vertex double loop (`rowIndex` in `0..=rowLimit`, `columnIndex` in
`0..=columnLimit`); `rowTotal`/`colTotal` are the iteration counts. -/
def buildVertexState (inB : Vec2 → Bool) (hs vs startX startY : ℚ)
    (rowTotal colTotal : ℕ) : VertexState :=
  (List.range rowTotal).foldl (fun s r =>
    (List.range colTotal).foldl (fun s c => pushVertex inB hs vs startX startY s r c) s)
    ⟨[], []⟩

/-- State of the triangle-construction loop. -/
structure TriState where
  triangles : List LatticeTriangle
  edgeRecords : List ((ℕ × ℕ) × EdgeRecord)
deriving Repr, DecidableEq, Inhabited

/-- Embedding of the edge bookkeeping inside `addTriangle`: register one
`edgePairs` entry under its canonical key (mutating an existing record in
place preserves the map's insertion order). -/
def insertEdgeRef (recs : List ((ℕ × ℕ) × EdgeRecord)) (pair : ℕ × ℕ)
    (triangleId : ℕ) : List ((ℕ × ℕ) × EdgeRecord) :=
  let key := createEdgeKey pair.1 pair.2
  match recs.lookup key with
  | some _ => recs.map (fun e =>
      if e.1 = key then (e.1, ⟨e.2.vertices, e.2.triangles ++ [triangleId]⟩) else e)
  | none => recs ++ [(key, ⟨pair, [triangleId]⟩)]

/-- Coordinate triple of one `addTriangle` call. -/
abbrev TriOp := (ℕ × ℕ) × (ℕ × ℕ) × (ℕ × ℕ)

/-- Embedding of `addTriangle`. -/
def addTriangle (inB : Vec2 → Bool) (verts : List LatticeVertex)
    (ixc : List ((ℕ × ℕ) × ℕ)) (s : TriState) (op : TriOp) : TriState :=
  match ixc.lookup op.1, ixc.lookup op.2.1, ixc.lookup op.2.2 with
  | some aIndex, some bIndex, some cIndex =>
    let a := (verts.getD aIndex default).position
    let b := (verts.getD bIndex default).position
    let c := (verts.getD cIndex default).position
    let centroid : Vec2 := ((a.1 + b.1 + c.1) / 3, (a.2 + b.2 + c.2) / 3)
    let triangleId := s.triangles.length
    let t : LatticeTriangle := { id := triangleId,
                                 vertices := (aIndex, bIndex, cIndex), centroid := centroid,
                                 neighbors := [], insideBoundary := inB centroid }
    let triangles' := s.triangles ++ [t]
    let recs1 := insertEdgeRef s.edgeRecords (aIndex, bIndex) triangleId
    let recs2 := insertEdgeRef recs1 (bIndex, cIndex) triangleId
    let recs3 := insertEdgeRef recs2 (cIndex, aIndex) triangleId
    ⟨triangles', recs3⟩
  | _, _, _ => s

/-- The two `addTriangle` calls made for the cell at (`row`, `column`),
depending on row parity. -/
def cellTriangles (row column : ℕ) : List TriOp :=
  if row % 2 = 0 then
    [((row, column), (row, column + 1), (row + 1, column)),
     ((row, column + 1), (row + 1, column + 1), (row + 1, column))]
  else
    [((row, column), (row + 1, column + 1), (row + 1, column)),
     ((row, column), (row, column + 1), (row + 1, column + 1))]

/-- All `addTriangle` calls of the triangle double loop (`row` in
`0..<rowLimit`, `column` in `0..<columnLimit`), in program order. -/
def triangleOps (rl cl : ℕ) : List TriOp :=
  (List.range rl).flatMap (fun row =>
    (List.range cl).flatMap (fun column => cellTriangles row column))

/-- Construction of one final `TownscaperLatticeEdge` from an `EdgeRecord`
(the `edgeRecords.forEach` body). -/
def mkLatticeEdge (tris : List LatticeTriangle) (edgeId : ℕ) (rec : EdgeRecord) :
    LatticeEdge :=
  { id := edgeId, vertices := rec.vertices, triangles := rec.triangles,
    touchesBoundary := decide (rec.triangles.length < 2)
      || rec.triangles.any (fun tid => !(tris.getD tid default).insideBoundary) }

/-- The `edgeRecords.forEach` loop: records are enumerated in insertion
order, each getting `edges.length` at push time as its id. -/
def buildEdges (tris : List LatticeTriangle)
    (recs : List ((ℕ × ℕ) × EdgeRecord)) : List LatticeEdge :=
  (List.range recs.length).map (fun i => mkLatticeEdge tris i (recs.getD i default).2)

/-- First-occurrence deduplication, modelling iteration over a JavaScript
`Set` built by successive `add` calls. -/
def dedupFirst {α : Type} [DecidableEq α] (seen : List α) : List α → List α
  | [] => []
  | a :: rest =>
    if a ∈ seen then dedupFirst seen rest else a :: dedupFirst (a :: seen) rest

/-- Embedding of the neighbor-population loop body for one triangle:
collect, over the triangle's three edges, all other triangles referencing
that edge, deduplicate (`Set`) and sort ascending. -/
def neighborsOf (recs : List ((ℕ × ℕ) × EdgeRecord)) (t : LatticeTriangle) :
    List ℕ :=
  let vertexPairs := [(t.vertices.1, t.vertices.2.1),
    (t.vertices.2.1, t.vertices.2.2), (t.vertices.2.2, t.vertices.1)]
  let collected := vertexPairs.flatMap (fun p =>
    match recs.lookup (createEdgeKey p.1 p.2) with
    | some rec => rec.triangles.filter (fun tid => tid ≠ t.id)
    | none => [])
  (dedupFirst [] collected).insertionSort (· ≤ ·)

/-- The `spacing = Math.max(pieceSize, 4)` clamp of `createTownscaperLattice`. -/
def spacingOf (o : LatticeOptions) : ℚ := max o.pieceSize 4

/-- `horizontalSpacing` of `createTownscaperLattice`. -/
def horizontalSpacingOf (o : LatticeOptions) : ℚ := spacingOf o

/-- `verticalSpacing = spacing * TRIANGULAR_VERTICAL_RATIO`. -/
def verticalSpacingOf (o : LatticeOptions) : ℚ := spacingOf o * sin60

/-- `columnLimit = Math.ceil((width + overscanX * 2) / horizontalSpacing)`
with `overscanX = horizontalSpacing`. -/
def columnLimitOf (o : LatticeOptions) : ℤ :=
  ⌈(o.width + horizontalSpacingOf o * 2) / horizontalSpacingOf o⌉

/-- `rowLimit = Math.ceil((height + overscanY * 2) / verticalSpacing)` with
`overscanY = verticalSpacing`. -/
def rowLimitOf (o : LatticeOptions) : ℤ :=
  ⌈(o.height + verticalSpacingOf o * 2) / verticalSpacingOf o⌉

/-- Number of iterations of the vertex row loop (`0..=rowLimit`). -/
def rowTotalOf (o : LatticeOptions) : ℕ := (rowLimitOf o + 1).toNat

/-- Number of iterations of the vertex column loop (`0..=columnLimit`). -/
def colTotalOf (o : LatticeOptions) : ℕ := (columnLimitOf o + 1).toNat

/-- The vertex phase of `createTownscaperLattice`
(`startX = -overscanX`, `startY = -overscanY`). -/
def vertexStateOf (o : LatticeOptions) : VertexState :=
  buildVertexState o.inBoundary (horizontalSpacingOf o) (verticalSpacingOf o)
    (-(horizontalSpacingOf o)) (-(verticalSpacingOf o)) (rowTotalOf o) (colTotalOf o)

/-- The triangle phase of `createTownscaperLattice`: fold the `addTriangle`
calls of the double loop over the empty initial state. -/
def triStateOf (o : LatticeOptions) : TriState :=
  (triangleOps (rowLimitOf o).toNat (columnLimitOf o).toNat).foldl
    (addTriangle o.inBoundary (vertexStateOf o).vertices (vertexStateOf o).indexByCoord)
    ⟨[], []⟩

/-- Embedding of `createTownscaperLattice`.  The `random` option is
accepted but never consulted, exactly as in the source. -/
def createTownscaperLattice (o : LatticeOptions) : Lattice :=
  let vsState := vertexStateOf o
  let ts := triStateOf o
  let edges := buildEdges ts.triangles ts.edgeRecords
  let triangles := ts.triangles.map (fun t =>
    { t with neighbors := neighborsOf ts.edgeRecords t })
  { vertices := vsState.vertices, edges := edges, triangles := triangles,
    horizontalSpacing := horizontalSpacingOf o, verticalSpacing := verticalSpacingOf o,
    rowCount := rowLimitOf o + 1, columnCount := columnLimitOf o + 1 }

/-! ### Clustering (`TownscaperClustering.ts`) -/

/-- Embedding of `TownscaperClusteringOptions`. -/
structure ClusteringOptions where
  lattice : Lattice
  mergeChance : ℚ
  random : Rng

/-- Embedding of `TownscaperCluster`. -/
structure TownscaperCluster where
  id : ℕ
  triangleIds : List ℕ
  edgeIds : List ℕ
deriving Repr, DecidableEq, Inhabited

/-- Embedding of `TownscaperClusteringResult`.  Assignment entries are
integers so the sentinel `-1` is representable. -/
structure ClusteringResult where
  clusters : List TownscaperCluster
  triangleToCluster : List ℤ
  edgeToClusters : List (List ℤ)
deriving Repr, DecidableEq, Inhabited

/-- Embedding of `clamp01`.  The `NaN` / non-finite guard of the source has
no rational counterpart and is dropped. -/
def clamp01 (value : ℚ) : ℚ :=
  if value ≤ 0 then 0 else if 1 ≤ value then 1 else value

/-- Swap of two positions of a JavaScript array (both indices are in bounds
whenever the random draws lie in `[0, 1)`). -/
def listSwap (l : List ℕ) (i j : ℕ) : List ℕ :=
  (l.set i (l.getD j 0)).set j (l.getD i 0)

/-- The descending loop of `shuffleInPlace`; the argument is the current
loop `index`, counting down to 1. -/
def shuffleGo (g : Rng) : List ℕ → ℕ → ℕ → List ℕ × ℕ
  | vals, k, 0 => (vals, k)
  | vals, k, i + 1 =>
    let swapIndex := (⌊g k * ((i + 2 : ℕ) : ℚ)⌋).toNat
    shuffleGo g (listSwap vals (i + 1) swapIndex) (k + 1) i

/-- Embedding of `shuffleInPlace` (Fisher–Yates, one draw per remaining
element), threading the random-call counter. -/
def shuffleInPlace (g : Rng) (vals : List ℕ) (k : ℕ) : List ℕ × ℕ :=
  shuffleGo g vals k (vals.length - 1)

/-- Value of `lattice.triangles[i]?.insideBoundary` coerced to a boolean
(`undefined` is falsy). -/
def triInsideAt (tris : List LatticeTriangle) (i : ℕ) : Bool :=
  match tris[i]? with
  | some t => t.insideBoundary
  | none => false

/-- Embedding of the `for (const neighborId of neighborIds)` body of the
flood fill: skip already-assigned (or out-of-range) neighbors, otherwise
draw once and merge when the draw is at most `mergeChance`.  The stack is
modelled with its top at the list head. -/
def processNeighbors (g : Rng) (mergeChance : ℚ) (cid : ℕ) :
    List ℕ → List ℤ → List ℕ → ℕ → List ℤ × List ℕ × ℕ
  | [], asg, stack, k => (asg, stack, k)
  | n :: rest, asg, stack, k =>
    match asg[n]? with
    | none => processNeighbors g mergeChance cid rest asg stack k
    | some v =>
      if v ≠ -1 then processNeighbors g mergeChance cid rest asg stack k
      else if g k ≤ mergeChance then
        processNeighbors g mergeChance cid rest (asg.set n (cid : ℤ)) (n :: stack) (k + 1)
      else processNeighbors g mergeChance cid rest asg stack (k + 1)

/-- Embedding of the `while (stack.length > 0)` flood-fill loop.  The loop
terminates because every iteration either pops the stack or turns an
unassigned entry into an assigned one; `fuel ≥ 2·#unassigned + stack length`
makes the fuel-exhaustion branch unreachable (`dfsLoop_comp` below). -/
def dfsLoop (tris : List LatticeTriangle) (g : Rng) (mergeChance : ℚ) (cid : ℕ) :
    ℕ → List ℤ → List ℕ → List ℕ → ℕ → List ℤ × List ℕ × ℕ
  | _, asg, [], members, k => (asg, members, k)
  | 0, asg, _, members, k => (asg, members, k)
  | fuel + 1, asg, current :: stackRest, members, k =>
    let members' := members ++ [current]
    let neighborIds := (tris.getD current default).neighbors.filter
      (fun nid => triInsideAt tris nid)
    let shuffled := shuffleInPlace g neighborIds k
    let step := processNeighbors g mergeChance cid shuffled.1 asg stackRest shuffled.2
    dfsLoop tris g mergeChance cid fuel step.1 step.2.1 members' step.2.2

/-- State threaded through the outer `for (const triangle of ...)` loop of
`clusterTownscaperLattice`. -/
structure ClusterState where
  asg : List ℤ
  clusterMembers : List (List ℕ)
  k : ℕ
deriving Repr, DecidableEq, Inhabited

/-- One iteration of the outer clustering loop: skip out-of-boundary or
already-assigned triangles, otherwise flood-fill a fresh cluster. -/
def clusterStep (tris : List LatticeTriangle) (g : Rng) (mergeChance : ℚ)
    (s : ClusterState) (triangle : LatticeTriangle) : ClusterState :=
  if triangle.insideBoundary = false then s
  else
    match s.asg[triangle.id]? with
    | none => s
    | some v =>
      if v ≠ -1 then s
      else
        let cid := s.clusterMembers.length
        let asg0 := s.asg.set triangle.id (cid : ℤ)
        let res := dfsLoop tris g mergeChance cid (2 * tris.length + 2) asg0
          [triangle.id] [] s.k
        { asg := res.1, clusterMembers := s.clusterMembers ++
            [res.2.1.insertionSort (· ≤ ·)], k := res.2.2 }

/-- The per-edge pass of `clusterTownscaperLattice`: compute the sorted
deduplicated cluster list of the edge, record it in `edgeToClusters`, and
push the edge id onto each listed cluster. -/
def clusterEdgeStep (asg : List ℤ)
    (st : List TownscaperCluster × List (List ℤ)) (edge : LatticeEdge) :
    List TownscaperCluster × List (List ℤ) :=
  let collected := edge.triangles.filterMap (fun tid =>
    match asg[tid]? with
    | some c => if c ≠ -1 then some c else none
    | none => none)
  let clusterList := (dedupFirst [] collected).insertionSort (· ≤ ·)
  let e2c := st.2.set edge.id clusterList
  let clusters := clusterList.foldl (fun cs cid =>
    if cid < 0 then cs
    else cs.modify (fun cl => { cl with edgeIds := cl.edgeIds ++ [edge.id] }) cid.toNat)
    st.1
  (clusters, e2c)

/-- The outer flood-fill loop of `clusterTownscaperLattice`: fold over all
triangles starting from the all-`-1` assignment array and zero random
calls, with the clamped merge probability. -/
def clusterStateOf (o : ClusteringOptions) : ClusterState :=
  o.lattice.triangles.foldl
    (clusterStep o.lattice.triangles o.random (clamp01 o.mergeChance))
    ⟨List.replicate o.lattice.triangles.length (-1), [], 0⟩

/-- The `clusters` array as first materialized from `clusterMembers`
(`edgeIds` still empty). -/
def clustersInit (o : ClusteringOptions) : List TownscaperCluster :=
  (List.range (clusterStateOf o).clusterMembers.length).map
    (fun cid => ⟨cid, (clusterStateOf o).clusterMembers.getD cid [], []⟩)

/-- Embedding of `clusterTownscaperLattice`. -/
def clusterTownscaperLattice (o : ClusteringOptions) : ClusteringResult :=
  let st := clusterStateOf o
  let final := o.lattice.edges.foldl (clusterEdgeStep st.asg)
    (clustersInit o, o.lattice.edges.map (fun _ => ([] : List ℤ)))
  ⟨final.1, st.asg, final.2⟩

/-! ### Pairing (`TownscaperPairing.ts`) -/

/-- Embedding of `TownscaperPairingOptions`. -/
structure PairingOptions where
  lattice : Lattice
  random : Rng

/-- Embedding of `TownscaperPair`; `triangleIds` has one or two entries. -/
structure TownscaperPair where
  id : ℕ
  triangleIds : List ℕ
  sharedEdgeId : Option ℕ
deriving Repr, DecidableEq, Inhabited

/-- Embedding of `TownscaperPairingResult`. -/
structure PairingResult where
  pairs : List TownscaperPair
  triangleToPair : List ℤ
  removedEdgeIds : List ℕ
deriving Repr, DecidableEq, Inhabited

/-- Embedding of `findSharedEdgeId`. -/
def findSharedEdgeId (candidateEdges neighborEdges : List ℕ) : Option ℕ :=
  candidateEdges.find? (fun eid => neighborEdges.contains eid)

/-- Construction of `triangleEdges`: for every edge, push its id onto each
referenced (in-range) triangle's list. -/
def buildTriangleEdges (tris : List LatticeTriangle) (edges : List LatticeEdge) :
    List (List ℕ) :=
  edges.foldl (fun te edge =>
    edge.triangles.foldl (fun te tid =>
      te.modify (fun l => l ++ [edge.id]) tid) te)
    (tris.map (fun _ => []))

/-- State threaded through the main loop of `pairTownscaperTriangles`. -/
structure PairState where
  asg : List ℤ
  pairs : List TownscaperPair
  removedEdgeIds : List ℕ
  k : ℕ
deriving Repr, DecidableEq, Inhabited

/-- `lattice.triangles[triangleId]?.neighbors ?? []`. -/
def neighborIdsOf (tris : List LatticeTriangle) (triangleId : ℕ) : List ℕ :=
  match tris[triangleId]? with
  | some t => t.neighbors
  | none => []

/-- The `availableNeighbors` filter of the pairing loop: in-boundary and
still unassigned. -/
def availableNeighborsOf (tris : List LatticeTriangle) (asg : List ℤ)
    (triangleId : ℕ) : List ℕ :=
  (neighborIdsOf tris triangleId).filter (fun nid =>
    triInsideAt tris nid && (asg[nid]? == some (-1 : ℤ)))

/-- One iteration of the pairing loop over the shuffled eligible ids.  The
pair id is `pairs.length` at push time; a non-null shared edge id is
appended to `removedEdgeIds` (`Option.toList` models the null check). -/
def pairStep (tris : List LatticeTriangle) (te : List (List ℕ)) (g : Rng)
    (s : PairState) (triangleId : ℕ) : PairState :=
  match s.asg[triangleId]? with
  | none => s
  | some v =>
    if v ≠ -1 then s
    else
      match (shuffleInPlace g (availableNeighborsOf tris s.asg triangleId) s.k).1.head? with
      | some partner =>
        { asg := (s.asg.set triangleId (s.pairs.length : ℤ)).set partner (s.pairs.length : ℤ),
          pairs := s.pairs ++ [⟨s.pairs.length,
            (if triangleId < partner then [triangleId, partner] else [partner, triangleId]),
            findSharedEdgeId (te.getD triangleId []) (te.getD partner [])⟩],
          removedEdgeIds := s.removedEdgeIds ++
            (findSharedEdgeId (te.getD triangleId []) (te.getD partner [])).toList,
          k := (shuffleInPlace g (availableNeighborsOf tris s.asg triangleId) s.k).2 }
      | none =>
        { asg := s.asg.set triangleId (s.pairs.length : ℤ),
          pairs := s.pairs ++ [⟨s.pairs.length, [triangleId], none⟩],
          removedEdgeIds := s.removedEdgeIds,
          k := (shuffleInPlace g (availableNeighborsOf tris s.asg triangleId) s.k).2 }

/-- The in-boundary triangle ids eligible for pairing, in lattice order. -/
def eligibleOf (o : PairingOptions) : List ℕ :=
  (o.lattice.triangles.filter (fun t => t.insideBoundary)).map (fun t => t.id)

/-- State after the main pairing loop: shuffle the eligible ids (starting
the random counter at zero) and fold `pairStep` over them. -/
def pairStateOf (o : PairingOptions) : PairState :=
  (shuffleInPlace o.random (eligibleOf o) 0).1.foldl
    (pairStep o.lattice.triangles (buildTriangleEdges o.lattice.triangles o.lattice.edges)
      o.random)
    ⟨List.replicate o.lattice.triangles.length (-1), [], [],
      (shuffleInPlace o.random (eligibleOf o) 0).2⟩

/-- Embedding of `pairTownscaperTriangles`. -/
def pairTownscaperTriangles (o : PairingOptions) : PairingResult :=
  ⟨(pairStateOf o).pairs, (pairStateOf o).asg,
    (pairStateOf o).removedEdgeIds.insertionSort (· ≤ ·)⟩

/-! ### Data-model well-formedness and proof-support definitions -/

/-- Data-model invariant stated in the source interfaces: a triangle's `id`
field is its index within the lattice's `triangles` array. -/
def triangleIdsAligned (tris : List LatticeTriangle) : Bool :=
  (List.range tris.length).all (fun i => (tris.getD i default).id == i)

/-- Data-model invariant: an edge's `id` field is its index within the
lattice's `edges` array. -/
def edgeIdsAligned (edges : List LatticeEdge) : Bool :=
  (List.range edges.length).all (fun i => (edges.getD i default).id == i)

/-- Number of in-boundary triangles of a lattice. -/
def insideCount (tris : List LatticeTriangle) : ℕ :=
  (tris.filter (fun t => t.insideBoundary)).length

/-- Contract of the runtime random source: every draw lies in `[0, 1)`. -/
def ValidRng (g : Rng) : Prop := ∀ n, 0 ≤ g n ∧ g n < 1

/-- The three canonical edge keys registered for a triangle with the given
vertex triple. -/
def keysOfVerts (vs : ℕ × ℕ × ℕ) : List (ℕ × ℕ) :=
  [createEdgeKey vs.1 vs.2.1, createEdgeKey vs.2.1 vs.2.2, createEdgeKey vs.2.2 vs.1]

/-- Flat vertex index of the grid coordinate `x` when each row holds `ct`
vertices (row-major insertion order of the vertex loop). -/
def vidx (ct : ℕ) (x : ℕ × ℕ) : ℕ := x.1 * ct + x.2

/-- Lexicographically ordered unordered pair of grid coordinates, the
coordinate-level counterpart of `createEdgeKey`. -/
def ckey (x y : ℕ × ℕ) : (ℕ × ℕ) × (ℕ × ℕ) :=
  if x.1 < y.1 ∨ (x.1 = y.1 ∧ x.2 < y.2) then (x, y) else (y, x)

/-- The three coordinate-level edge keys of an `addTriangle` call. -/
def coordKeys (op : TriOp) : List ((ℕ × ℕ) × (ℕ × ℕ)) :=
  [ckey op.1 op.2.1, ckey op.2.1 op.2.2, ckey op.2.2 op.1]

/-- Vertex-index triple produced by an `addTriangle` call on a full grid. -/
def triVertsOfOp (ct : ℕ) (op : TriOp) : ℕ × ℕ × ℕ :=
  (vidx ct op.1, vidx ct op.2.1, vidx ct op.2.2)

/-- One row of the closed form of the `indexByCoord` map. -/
def coordRowBlock (ct r m : ℕ) : List ((ℕ × ℕ) × ℕ) :=
  (List.range m).map (fun c => ((r, c), r * ct + c))

/-- Closed form of the `indexByCoord` map after the vertex loops. -/
def coordTable (ct n : ℕ) : List ((ℕ × ℕ) × ℕ) :=
  (List.range n).flatMap (fun r => coordRowBlock ct r ct)

/-- Invariant of the outer flood-fill loop: assignments and cluster-member
lists describe each other, members are in-boundary, and each member list is
sorted and duplicate-free. -/
def ClusterInv (tris : List LatticeTriangle) (s : ClusterState) : Prop :=
  s.asg.length = tris.length ∧
  (∀ j : ℕ, ∀ v : ℤ, s.asg[j]? = some v → v ≠ -1 →
    ∃ c : ℕ, v = (c : ℤ) ∧ c < s.clusterMembers.length ∧ j ∈ s.clusterMembers.getD c []) ∧
  (∀ c : ℕ, c < s.clusterMembers.length →
    (∀ t ∈ s.clusterMembers.getD c [],
      triInsideAt tris t = true ∧ s.asg[t]? = some (c : ℤ)) ∧
    (s.clusterMembers.getD c []).Sorted (· ≤ ·) ∧ (s.clusterMembers.getD c []).Nodup)

/-- Invariant of the pairing loop: assignments and pairs describe each
other, pairs hold one or two in-boundary triangles, and every removed edge
id names the shared edge of a two-triangle pair, present in both triangles'
edge lists. -/
def PairInv (tris : List LatticeTriangle) (te : List (List ℕ)) (s : PairState) : Prop :=
  s.asg.length = tris.length ∧
  (∀ j : ℕ, ∀ v : ℤ, s.asg[j]? = some v → v ≠ -1 →
    ∃ idx : ℕ, v = (idx : ℤ) ∧ idx < s.pairs.length ∧
      j ∈ (s.pairs.getD idx default).triangleIds) ∧
  (∀ idx : ℕ, idx < s.pairs.length →
    (s.pairs.getD idx default).id = idx ∧
    ((s.pairs.getD idx default).triangleIds.length = 1 ∨
      (s.pairs.getD idx default).triangleIds.length = 2) ∧
    (∀ t ∈ (s.pairs.getD idx default).triangleIds,
      triInsideAt tris t = true ∧ s.asg[t]? = some (idx : ℤ))) ∧
  (∀ eid ∈ s.removedEdgeIds, ∃ idx : ℕ, idx < s.pairs.length ∧
    (s.pairs.getD idx default).sharedEdgeId = some eid ∧
    ∃ a b : ℕ, (s.pairs.getD idx default).triangleIds = [a, b] ∧
      eid ∈ te.getD a [] ∧ eid ∈ te.getD b [])

/-- Data-model invariant implicit in the source: a triangle never lists
itself among its neighbors (the neighbor-population loop filters the
triangle's own id out). -/
def noSelfNeighbor (tris : List LatticeTriangle) : Bool :=
  (List.range tris.length).all (fun i => !(decide (i ∈ (tris.getD i default).neighbors)))

/-- Predicate: every coordinate of an `addTriangle` call lies inside the
vertex grid (`n` rows of `ct` columns). -/
def opInRange (n ct : ℕ) (op : TriOp) : Prop :=
  op.1.1 < n ∧ op.1.2 < ct ∧ op.2.1.1 < n ∧ op.2.1.2 < ct ∧ op.2.2.1 < n ∧ op.2.2.2 < ct

/-- The three canonical vertex-index keys registered by an `addTriangle`
call on a full grid, in program order. -/
def opKeys (ct : ℕ) (op : TriOp) : List (ℕ × ℕ) :=
  [createEdgeKey (vidx ct op.1) (vidx ct op.2.1),
   createEdgeKey (vidx ct op.2.1) (vidx ct op.2.2),
   createEdgeKey (vidx ct op.2.2) (vidx ct op.1)]

/-- Number of registrations of key `k` over a list of `addTriangle` calls. -/
def regCount (ct : ℕ) (ops : List TriOp) (k : ℕ × ℕ) : ℕ :=
  (ops.flatMap (opKeys ct)).count k

/-- Coordinate pair mapped to its vertex-index pair. -/
def vmap (ct : ℕ) (K : (ℕ × ℕ) × (ℕ × ℕ)) : ℕ × ℕ := (vidx ct K.1, vidx ct K.2)

/-- A coordinate key lying inside the grid. -/
def keyInRange (n ct : ℕ) (K : (ℕ × ℕ) × (ℕ × ℕ)) : Prop :=
  K.1.1 < n ∧ K.1.2 < ct ∧ K.2.1 < n ∧ K.2.2 < ct

/-- Horizontal lattice edge between columns `c` and `c + 1` of row `r`. -/
def Hk (r c : ℕ) : (ℕ × ℕ) × (ℕ × ℕ) := ((r, c), (r, c + 1))

/-- Vertical-pointing lattice edge between `(r, c)` and `(r + 1, c)`. -/
def Vk (r c : ℕ) : (ℕ × ℕ) × (ℕ × ℕ) := ((r, c), (r + 1, c))

/-- Down-left diagonal edge between `(r, c + 1)` and `(r + 1, c)`. -/
def Dm (r c : ℕ) : (ℕ × ℕ) × (ℕ × ℕ) := ((r, c + 1), (r + 1, c))

/-- Down-right diagonal edge between `(r, c)` and `(r + 1, c + 1)`. -/
def Dp (r c : ℕ) : (ℕ × ℕ) × (ℕ × ℕ) := ((r, c), (r + 1, c + 1))

/-- All coordinate-level keys registered by the two triangles of one cell. -/
def cellKeys (r c : ℕ) : List ((ℕ × ℕ) × (ℕ × ℕ)) :=
  (cellTriangles r c).flatMap coordKeys

/-- Invariant of the triangle-construction fold (over the coordinate table
of a full `n × ct` vertex grid): triangles record the processed calls in
order, record keys are unique and consistent with the stored vertex pair,
and each record's triangle list matches the registrations of its key. -/
def TINV (ct : ℕ) (ops : List TriOp) (s : TriState) : Prop :=
  s.triangles.length = ops.length ∧
  (∀ i : ℕ, i < ops.length → (s.triangles.getD i default).id = i ∧
    (s.triangles.getD i default).vertices = triVertsOfOp ct (ops.getD i default)) ∧
  (s.edgeRecords.map Prod.fst).Nodup ∧
  (∀ kr ∈ s.edgeRecords, createEdgeKey kr.2.vertices.1 kr.2.vertices.2 = kr.1) ∧
  (∀ k : ℕ × ℕ, ∀ rec : EdgeRecord, s.edgeRecords.lookup k = some rec →
    rec.triangles.length = regCount ct ops k ∧ 1 ≤ rec.triangles.length ∧
    ∀ i ∈ rec.triangles, i < ops.length ∧ k ∈ opKeys ct (ops.getD i default)) ∧
  (∀ k : ℕ × ℕ, s.edgeRecords.lookup k = none → regCount ct ops k = 0) ∧
  (∀ i : ℕ, i < ops.length → ∀ k ∈ opKeys ct (ops.getD i default),
    ∃ rec : EdgeRecord, s.edgeRecords.lookup k = some rec ∧ i ∈ rec.triangles)

/-! ### Concrete inputs used by counterexamples and witnesses -/

/-- Lattice options for a 1×1 area with piece size 4 and an
everywhere-true boundary test. -/
def opts114 : LatticeOptions := ⟨1, 1, 4, fun _ => true, fun _ => 0⟩

/-- The lattice built from `opts114` (a 3×3-cell grid of 18 triangles). -/
def lat114 : Lattice := createTownscaperLattice opts114

/-- Centroids of the three pairwise non-adjacent triangles 0, 4 and 17 of
the `opts114` grid. -/
def isoCentroids : List Vec2 :=
  [((-2 : ℚ), -(4330127018922193 / 1875000000000000 : ℚ)),
   ((6 : ℚ), -(4330127018922193 / 1875000000000000 : ℚ)),
   ((8 : ℚ), (4330127018922193 / 750000000000000 : ℚ))]

/-- Boundary test selecting exactly the three `isoCentroids` points (a real
border of three small disjoint patches around those points realizes it). -/
def inBIso (p : Vec2) : Bool := isoCentroids.contains p

/-- Lattice options whose in-boundary triangles are three pairwise
non-adjacent triangles. -/
def optsIso : LatticeOptions := ⟨1, 1, 4, inBIso, fun _ => 0⟩

/-- The lattice built from `optsIso`. -/
def latIso : Lattice := createTownscaperLattice optsIso

/-! ## Theorems -/

attribute [local semireducible] Rat.inv Rat.add Rat.sub Rat.mul

set_option maxRecDepth 200000

/-! ### General list helpers -/

theorem countP_set_flip {l : List ℤ} (p : ℤ → Bool) :
    ∀ {i : ℕ} {x : ℤ}, ∀ h : i < l.length, p l[i] = true → p x = false →
      (l.set i x).countP p + 1 = l.countP p := by
  induction l with
  | nil => intro i x h; simp at h
  | cons a rest ih =>
    intro i x h hold hnew
    cases i with
    | zero =>
      simp only [List.set_cons_zero, List.countP_cons]
      simp only [List.getElem_cons_zero] at hold
      rw [hold, hnew]
      simp
    | succ j =>
      simp only [List.set_cons_succ, List.countP_cons]
      simp only [List.getElem_cons_succ] at hold
      have := ih (Nat.lt_of_succ_lt_succ h) hold hnew
      omega

theorem countP_eq_of_pointwise {α β : Type} (p : α → Bool) (q : β → Bool) :
    ∀ (l1 : List α) (l2 : List β), l1.length = l2.length →
      (∀ j (h1 : j < l1.length) (h2 : j < l2.length), p l1[j] = q l2[j]) →
      l1.countP p = l2.countP q := by
  intro l1
  induction l1 with
  | nil => intro l2 hlen _; cases l2 with
    | nil => rfl
    | cons b t => simp at hlen
  | cons a t ih =>
    intro l2 hlen hpt
    cases l2 with
    | nil => simp at hlen
    | cons b t2 =>
      simp only [List.countP_cons]
      have h0 := hpt 0 (by simp) (by simp)
      simp only [List.getElem_cons_zero] at h0
      have hrec := ih t2 (by simpa using hlen) (fun j h1 h2 => by
        have := hpt (j + 1) (by simpa using Nat.succ_lt_succ h1)
          (by simpa using Nat.succ_lt_succ h2)
        simpa using this)
      rw [h0, hrec]

theorem pairwise_lt_of_sorted_nodup {l : List ℕ} (h1 : l.Sorted (· ≤ ·))
    (h2 : l.Nodup) : l.Pairwise (· < ·) :=
  (h1.and h2).imp (fun h => lt_of_le_of_ne h.1 h.2)

theorem pairwise_lt_of_sorted_nodup_int {l : List ℤ} (h1 : l.Sorted (· ≤ ·))
    (h2 : l.Nodup) : l.Pairwise (· < ·) :=
  (h1.and h2).imp (fun h => lt_of_le_of_ne h.1 h.2)

theorem mem_dedupFirst {α : Type} [DecidableEq α] {l : List α} :
    ∀ {seen : List α} {a : α}, a ∈ dedupFirst seen l ↔ a ∈ l ∧ a ∉ seen := by
  induction l with
  | nil => intro seen a; simp [dedupFirst]
  | cons b rest ih =>
    intro seen a
    by_cases hb : b ∈ seen
    · rw [dedupFirst, if_pos hb, ih]
      constructor
      · rintro ⟨h1, h2⟩; exact ⟨List.mem_cons_of_mem _ h1, h2⟩
      · rintro ⟨h1, h2⟩
        rcases List.mem_cons.mp h1 with rfl | h1
        · exact absurd hb h2
        · exact ⟨h1, h2⟩
    · rw [dedupFirst, if_neg hb]
      constructor
      · intro h
        rcases List.mem_cons.mp h with rfl | h
        · exact ⟨List.mem_cons_self _ _, hb⟩
        · obtain ⟨h1, h2⟩ := ih.mp h
          exact ⟨List.mem_cons_of_mem _ h1, fun hc => h2 (List.mem_cons_of_mem _ hc)⟩
      · rintro ⟨h1, h2⟩
        rcases List.mem_cons.mp h1 with rfl | h1
        · exact List.mem_cons_self _ _
        · by_cases hab : a = b
          · subst hab; exact List.mem_cons_self _ _
          · refine List.mem_cons_of_mem _ (ih.mpr ⟨h1, fun hc => ?_⟩)
            rcases List.mem_cons.mp hc with h | hc
            · exact hab h
            · exact h2 hc

theorem nodup_dedupFirst {α : Type} [DecidableEq α] :
    ∀ (l seen : List α), (dedupFirst seen l).Nodup := by
  intro l
  induction l with
  | nil => intro seen; simp [dedupFirst]
  | cons b rest ih =>
    intro seen
    by_cases hb : b ∈ seen
    · rw [dedupFirst, if_pos hb]; exact ih seen
    · rw [dedupFirst, if_neg hb]
      refine List.Pairwise.cons ?_ (ih (b :: seen))
      intro a ha hab
      have := (mem_dedupFirst (l := rest)).mp ha
      exact this.2 (hab ▸ List.mem_cons_self _ _)

theorem mem_insertionSortNat {l : List ℕ} {a : ℕ} :
    a ∈ l.insertionSort (· ≤ ·) ↔ a ∈ l :=
  (List.perm_insertionSort (· ≤ ·) l).mem_iff

theorem mem_insertionSortInt {l : List ℤ} {a : ℤ} :
    a ∈ l.insertionSort (· ≤ ·) ↔ a ∈ l :=
  (List.perm_insertionSort (· ≤ ·) l).mem_iff

/-! ### Shuffle: Fisher–Yates permutes its input when draws are valid -/

theorem getD_eq_getElem {l : List ℕ} {i : ℕ} (h : i < l.length) :
    l.getD i 0 = l[i] := by
  rw [List.getD_eq_getElem?_getD, List.getElem?_eq_getElem h]
  rfl

theorem listSwap_perm (l : List ℕ) (i j : ℕ) (hi : i < l.length) (hj : j < l.length) :
    (listSwap l i j).Perm l := by
  rw [List.perm_iff_count]
  intro a
  rw [listSwap, getD_eq_getElem hj, getD_eq_getElem hi]
  have hj' : j < (l.set i l[j]).length := by simpa using hj
  have hci : (if (l[i] == a) = true then 1 else 0) ≤ l.count a := by
    by_cases h1 : l[i] = a
    · have : a ∈ l := h1 ▸ List.getElem_mem hi
      have := List.count_pos_iff.mpr this
      simp only [h1, beq_self_eq_true, if_pos]
      omega
    · simp [h1]
  rw [List.count_set _ _ _ _ hj', List.count_set _ _ _ _ hi]
  by_cases hij : i = j
  · subst hij
    rw [List.getElem_set_self (by simpa using hi)]
    omega
  · rw [List.getElem_set_ne hij]
    omega

theorem shuffleGo_perm (g : Rng) (hg : ValidRng g) :
    ∀ (i : ℕ) (vals : List ℕ) (k : ℕ), i < vals.length →
      ((shuffleGo g vals k i).1).Perm vals := by
  intro i
  induction i with
  | zero => intro vals k _; rw [shuffleGo]
  | succ n ih =>
    intro vals k hlt
    rw [shuffleGo]
    have hg0 := hg k
    have hfl : ⌊g k * ((n + 2 : ℕ) : ℚ)⌋ < ((n + 2 : ℕ) : ℤ) := by
      rw [Int.floor_lt]
      push_cast
      have h2 : (0 : ℚ) < (n : ℚ) + 2 := by positivity
      calc g k * ((n : ℚ) + 2) < 1 * ((n : ℚ) + 2) :=
            mul_lt_mul_of_pos_right hg0.2 h2
        _ = (n : ℚ) + 2 := one_mul _
    have hfl0 : 0 ≤ ⌊g k * ((n + 2 : ℕ) : ℚ)⌋ := by
      rw [Int.floor_nonneg]
      have h2 : (0 : ℚ) ≤ ((n + 2 : ℕ) : ℚ) := by positivity
      exact mul_nonneg hg0.1 h2
    have hsw : (⌊g k * ((n + 2 : ℕ) : ℚ)⌋).toNat < vals.length := by
      have : (⌊g k * ((n + 2 : ℕ) : ℚ)⌋).toNat < n + 2 := by
        rw [Int.toNat_lt hfl0]
        exact_mod_cast hfl
      omega
    have hperm1 := listSwap_perm vals (n + 1) (⌊g k * ((n + 2 : ℕ) : ℚ)⌋).toNat hlt hsw
    have hlen : (listSwap vals (n + 1) (⌊g k * ((n + 2 : ℕ) : ℚ)⌋).toNat).length = vals.length :=
      hperm1.length_eq
    have hn : n < (listSwap vals (n + 1) (⌊g k * ((n + 2 : ℕ) : ℚ)⌋).toNat).length := by omega
    exact (ih _ (k + 1) hn).trans hperm1

theorem shuffleInPlace_perm (g : Rng) (hg : ValidRng g) (vals : List ℕ) (k : ℕ) :
    ((shuffleInPlace g vals k).1).Perm vals := by
  rw [shuffleInPlace]
  rcases Nat.eq_zero_or_pos vals.length with h0 | hpos
  · have : vals.length - 1 = 0 := by omega
    rw [this, shuffleGo]
  · exact shuffleGo_perm g hg (vals.length - 1) vals k (by omega)

/-- A position passing the `triangles[i]?.insideBoundary` test is in range. -/
theorem triInsideAt_lt {tris : List LatticeTriangle} {i : ℕ}
    (h : triInsideAt tris i = true) : i < tris.length := by
  rw [triInsideAt] at h
  cases hx : tris[i]? with
  | none => rw [hx] at h; simp at h
  | some t =>
    rcases List.getElem?_eq_some_iff.mp hx with ⟨hlt, _⟩
    exact hlt

theorem triInsideAt_eq {tris : List LatticeTriangle} {i : ℕ} {t : LatticeTriangle}
    (h : tris[i]? = some t) : triInsideAt tris i = t.insideBoundary := by
  rw [triInsideAt, h]

/-! ### Flood fill: `processNeighbors` specification -/

theorem processNeighbors_spec (g : Rng) (p : ℚ) (cid : ℕ) :
    ∀ (ns : List ℕ) (asg : List ℤ) (stack : List ℕ) (k : ℕ),
      ∃ pushed : List ℕ,
        (processNeighbors g p cid ns asg stack k).2.1 = pushed ++ stack ∧
        pushed ⊆ ns ∧
        pushed.Nodup ∧
        (∀ j ∈ pushed, asg[j]? = some (-1)) ∧
        (processNeighbors g p cid ns asg stack k).1.length = asg.length ∧
        (∀ j ∈ pushed, (processNeighbors g p cid ns asg stack k).1[j]? = some (cid : ℤ)) ∧
        (∀ j, j ∉ pushed → (processNeighbors g p cid ns asg stack k).1[j]? = asg[j]?) ∧
        asg.countP (fun v => v == (-1 : ℤ)) =
          (processNeighbors g p cid ns asg stack k).1.countP (fun v => v == (-1 : ℤ)) +
            pushed.length := by
  intro ns
  induction ns with
  | nil =>
    intro asg stack k
    refine ⟨[], ?_⟩
    simp [processNeighbors]
  | cons n rest ih =>
    intro asg stack k
    rw [processNeighbors]
    split
    case h_1 =>
      obtain ⟨pushed, h1, h2, h3, h4, h5, h6, h7, h8⟩ := ih asg stack k
      exact ⟨pushed, h1, fun x hx => List.mem_cons_of_mem _ (h2 hx), h3, h4, h5, h6, h7, h8⟩
    case h_2 v hn =>
      by_cases hv : v ≠ -1
      · rw [if_pos hv]
        obtain ⟨pushed, h1, h2, h3, h4, h5, h6, h7, h8⟩ := ih asg stack k
        exact ⟨pushed, h1, fun x hx => List.mem_cons_of_mem _ (h2 hx), h3, h4, h5, h6, h7, h8⟩
      · rw [if_neg hv]
        push_neg at hv
        subst hv
        by_cases hd : g k ≤ p
        · rw [if_pos hd]
          obtain ⟨pushed, h1, h2, h3, h4, h5, h6, h7, h8⟩ :=
            ih (asg.set n (cid : ℤ)) (n :: stack) (k + 1)
          have hnlen : n < asg.length := (List.getElem?_eq_some_iff.mp hn).1
          have hcidne : ¬ ((cid : ℤ) = -1) := by omega
          have hnmem : n ∉ pushed := by
            intro hmem
            have := h4 n hmem
            rw [List.getElem?_set_self (by simpa using hnlen)] at this
            have : (cid : ℤ) = -1 := by injection this
            exact hcidne this
          refine ⟨pushed ++ [n], ?_, ?_, ?_, ?_, ?_, ?_, ?_, ?_⟩
          · rw [h1]
            simp
          · intro x hx
            rcases List.mem_append.mp hx with hx | hx
            · exact List.mem_cons_of_mem _ (h2 hx)
            · rcases List.mem_singleton.mp hx with rfl
              exact List.mem_cons_self _ _
          · rw [List.nodup_append]
            refine ⟨h3, List.nodup_singleton _, ?_⟩
            intro x hx hx'
            rcases List.mem_singleton.mp hx' with rfl
            exact hnmem hx
          · intro j hj
            rcases List.mem_append.mp hj with hj | hj
            · have := h4 j hj
              have hjn : j ≠ n := fun hh => hnmem (hh ▸ hj)
              rwa [List.getElem?_set_ne (fun hh => hjn hh.symm)] at this
            · rcases List.mem_singleton.mp hj with rfl
              exact hn
          · rw [h5, List.length_set]
          · intro j hj
            rcases List.mem_append.mp hj with hj | hj
            · exact h6 j hj
            · rcases List.mem_singleton.mp hj with rfl
              rw [h7 _ hnmem, List.getElem?_set_self (by simpa using hnlen)]
          · intro j hj
            have hj1 : j ∉ pushed := fun hh => hj (List.mem_append.mpr (Or.inl hh))
            have hj2 : j ≠ n := fun hh =>
              hj (List.mem_append.mpr (Or.inr (List.mem_singleton.mpr hh)))
            rw [h7 j hj1, List.getElem?_set_ne (fun hh => hj2 hh.symm)]
          · have hflip : (asg.set n (cid : ℤ)).countP (fun v => v == (-1 : ℤ)) + 1 =
                asg.countP (fun v => v == (-1 : ℤ)) := by
              refine countP_set_flip _ hnlen ?_ ?_
              · have := (List.getElem?_eq_some_iff.mp hn).2
                simp [this]
              · simp [hcidne]
            rw [List.length_append, List.length_singleton]
            omega
        · rw [if_neg hd]
          obtain ⟨pushed, h1, h2, h3, h4, h5, h6, h7, h8⟩ := ih asg stack (k + 1)
          exact ⟨pushed, h1, fun x hx => List.mem_cons_of_mem _ (h2 hx), h3, h4, h5, h6, h7, h8⟩

/-- Specification of the flood-fill loop: with adequate fuel the loop
returns exactly the triangles assigned to the current cluster as its member
list, only ever turns `-1` entries into `cid`, and keeps members in-boundary
and duplicate-free. -/
theorem dfsLoop_spec (tris : List LatticeTriangle) (g : Rng) (p : ℚ) (cid : ℕ)
    (hg : ValidRng g) :
    ∀ (fuel : ℕ) (asg : List ℤ) (stack members : List ℕ) (k : ℕ),
      asg.length = tris.length →
      (∀ t ∈ stack, triInsideAt tris t = true ∧ asg[t]? = some (cid : ℤ)) →
      stack.Nodup →
      (∀ t ∈ members, triInsideAt tris t = true ∧ asg[t]? = some (cid : ℤ)) →
      members.Nodup →
      (∀ t ∈ stack, t ∉ members) →
      (∀ j : ℕ, asg[j]? = some (cid : ℤ) → j ∈ stack ∨ j ∈ members) →
      2 * asg.countP (fun v => v == (-1 : ℤ)) + stack.length ≤ fuel →
      (dfsLoop tris g p cid fuel asg stack members k).1.length = tris.length ∧
      (∀ j : ℕ, (dfsLoop tris g p cid fuel asg stack members k).1[j]? = asg[j]? ∨
        (asg[j]? = some (-1) ∧
          (dfsLoop tris g p cid fuel asg stack members k).1[j]? = some (cid : ℤ))) ∧
      (∀ t ∈ (dfsLoop tris g p cid fuel asg stack members k).2.1,
        triInsideAt tris t = true ∧
          (dfsLoop tris g p cid fuel asg stack members k).1[t]? = some (cid : ℤ)) ∧
      (∀ j : ℕ, (dfsLoop tris g p cid fuel asg stack members k).1[j]? = some (cid : ℤ) →
        j ∈ (dfsLoop tris g p cid fuel asg stack members k).2.1) ∧
      ((dfsLoop tris g p cid fuel asg stack members k).2.1).Nodup := by
  intro fuel
  induction fuel with
  | zero =>
    intro asg stack members k hlen hstack hstnd hmem hmemnd hdisj hcomp hfuel
    cases stack with
    | nil =>
      rw [dfsLoop]
      refine ⟨hlen, fun j => Or.inl rfl, hmem, ?_, hmemnd⟩
      intro j hj
      rcases hcomp j hj with h | h
      · exact absurd h (List.not_mem_nil _)
      · exact h
    | cons c rest =>
      exfalso
      simp only [List.length_cons] at hfuel
      omega
  | succ fuel ih =>
    intro asg stack members k hlen hstack hstnd hmem hmemnd hdisj hcomp hfuel
    cases stack with
    | nil =>
      rw [dfsLoop]
      refine ⟨hlen, fun j => Or.inl rfl, hmem, ?_, hmemnd⟩
      intro j hj
      rcases hcomp j hj with h | h
      · exact absurd h (List.not_mem_nil _)
      · exact h
    | cons current stackRest =>
      obtain ⟨hcurin, hcurasg⟩ := hstack current (List.mem_cons_self _ _)
      have hstep : dfsLoop tris g p cid (fuel + 1) asg (current :: stackRest) members k =
          dfsLoop tris g p cid fuel
            (processNeighbors g p cid
              (shuffleInPlace g
                ((tris.getD current default).neighbors.filter
                  (fun nid => triInsideAt tris nid)) k).1
              asg stackRest
              (shuffleInPlace g
                ((tris.getD current default).neighbors.filter
                  (fun nid => triInsideAt tris nid)) k).2).1
            (processNeighbors g p cid
              (shuffleInPlace g
                ((tris.getD current default).neighbors.filter
                  (fun nid => triInsideAt tris nid)) k).1
              asg stackRest
              (shuffleInPlace g
                ((tris.getD current default).neighbors.filter
                  (fun nid => triInsideAt tris nid)) k).2).2.1
            (members ++ [current])
            (processNeighbors g p cid
              (shuffleInPlace g
                ((tris.getD current default).neighbors.filter
                  (fun nid => triInsideAt tris nid)) k).1
              asg stackRest
              (shuffleInPlace g
                ((tris.getD current default).neighbors.filter
                  (fun nid => triInsideAt tris nid)) k).2).2.2 := by
        rw [dfsLoop]
      rw [hstep]
      set ns := (shuffleInPlace g
        ((tris.getD current default).neighbors.filter
          (fun nid => triInsideAt tris nid)) k).1 with hns
      set k1 := (shuffleInPlace g
        ((tris.getD current default).neighbors.filter
          (fun nid => triInsideAt tris nid)) k).2
      have hnsmem : ∀ n ∈ ns, triInsideAt tris n = true := by
        intro n hn
        have hperm := shuffleInPlace_perm g hg
          ((tris.getD current default).neighbors.filter (fun nid => triInsideAt tris nid)) k
        have := hperm.mem_iff.mp (hns ▸ hn)
        exact (List.mem_filter.mp this).2
      obtain ⟨pushed, h1, h2, h3, h4, h5, h6, h7, h8⟩ :=
        processNeighbors_spec g p cid ns asg stackRest k1
      set asg1 := (processNeighbors g p cid ns asg stackRest k1).1 with hasg1
      set stack1 := (processNeighbors g p cid ns asg stackRest k1).2.1 with hstack1
      set k2 := (processNeighbors g p cid ns asg stackRest k1).2.2
      have hcidne : ((cid : ℤ)) ≠ (-1 : ℤ) := by omega
      have hpushne : ∀ t, asg[t]? = some (cid : ℤ) → t ∉ pushed := by
        intro t ht hmemp
        have := h4 t hmemp
        rw [ht] at this
        exact hcidne (by injection this)
      -- hypotheses of the inductive step
      have hlen1 : asg1.length = tris.length := by rw [h5, hlen]
      have hstackmem1 : ∀ t ∈ stack1, triInsideAt tris t = true ∧ asg1[t]? = some (cid : ℤ) := by
        intro t ht
        rw [h1] at ht
        rcases List.mem_append.mp ht with ht | ht
        · exact ⟨hnsmem t (h2 ht), h6 t ht⟩
        · obtain ⟨hin, hasg⟩ := hstack t (List.mem_cons_of_mem _ ht)
          have hnp : t ∉ pushed := hpushne t hasg
          exact ⟨hin, by rw [h7 t hnp, hasg]⟩
      have hstnd1 : stack1.Nodup := by
        rw [h1, List.nodup_append]
        refine ⟨h3, (List.nodup_cons.mp hstnd).2, ?_⟩
        intro t ht ht'
        obtain ⟨_, hasg⟩ := hstack t (List.mem_cons_of_mem _ ht')
        exact hpushne t hasg ht
      have hmem1 : ∀ t ∈ members ++ [current],
          triInsideAt tris t = true ∧ asg1[t]? = some (cid : ℤ) := by
        intro t ht
        rcases List.mem_append.mp ht with ht | ht
        · obtain ⟨hin, hasg⟩ := hmem t ht
          exact ⟨hin, by rw [h7 t (hpushne t hasg), hasg]⟩
        · rcases List.mem_singleton.mp ht with rfl
          exact ⟨hcurin, by rw [h7 _ (hpushne _ hcurasg), hcurasg]⟩
      have hmemnd1 : (members ++ [current]).Nodup := by
        rw [List.nodup_append]
        exact ⟨hmemnd, List.nodup_singleton _, fun t ht ht' =>
          (List.mem_singleton.mp ht' ▸ hdisj current (List.mem_cons_self _ _))
            (List.mem_singleton.mp ht' ▸ ht)⟩
      have hdisj1 : ∀ t ∈ stack1, t ∉ members ++ [current] := by
        intro t ht hmem'
        rw [h1] at ht
        have htasg : asg[t]? = some (cid : ℤ) ∨ asg[t]? = some (-1) := by
          rcases List.mem_append.mp ht with ht | ht
          · exact Or.inr (h4 t ht)
          · exact Or.inl (hstack t (List.mem_cons_of_mem _ ht)).2
        rcases List.mem_append.mp hmem' with hm | hm
        · obtain ⟨_, hasg⟩ := hmem t hm
          rcases List.mem_append.mp ht with htp | htr
          · have := h4 t htp
            rw [hasg] at this
            exact hcidne (by injection this)
          · exact hdisj t (List.mem_cons_of_mem _ htr) hm
        · rcases List.mem_singleton.mp hm with rfl
          rcases List.mem_append.mp ht with htp | htr
          · have := h4 t htp
            rw [hcurasg] at this
            exact hcidne (by injection this)
          · exact (List.nodup_cons.mp hstnd).1 htr
      have hcomp1 : ∀ j : ℕ, asg1[j]? = some (cid : ℤ) → j ∈ stack1 ∨ j ∈ members ++ [current] := by
        intro j hj
        by_cases hjp : j ∈ pushed
        · exact Or.inl (h1 ▸ List.mem_append.mpr (Or.inl hjp))
        · rw [h7 j hjp] at hj
          rcases hcomp j hj with hjs | hjm
          · rcases List.mem_cons.mp hjs with rfl | hjs
            · exact Or.inr (List.mem_append.mpr (Or.inr (List.mem_singleton.mpr rfl)))
            · exact Or.inl (h1 ▸ List.mem_append.mpr (Or.inr hjs))
          · exact Or.inr (List.mem_append.mpr (Or.inl hjm))
      have hfuel1 : 2 * asg1.countP (fun v => v == (-1 : ℤ)) + stack1.length ≤ fuel := by
        have hlen1' : stack1.length = pushed.length + stackRest.length := by
          rw [h1, List.length_append]
        simp only [List.length_cons] at hfuel
        omega
      obtain ⟨c1, c2, c3, c4, c5⟩ := ih asg1 stack1 (members ++ [current]) k2
        hlen1 hstackmem1 hstnd1 hmem1 hmemnd1 hdisj1 hcomp1 hfuel1
      refine ⟨c1, ?_, c3, c4, c5⟩
      intro j
      rcases c2 j with hc | hc
      · by_cases hjp : j ∈ pushed
        · refine Or.inr ⟨h4 j hjp, ?_⟩
          rw [hc]
          exact h6 j hjp
        · rw [h7 j hjp] at hc
          exact Or.inl hc
      · by_cases hjp : j ∈ pushed
        · exact Or.inr ⟨h4 j hjp, hc.2⟩
        · rw [h7 j hjp] at hc
          exact Or.inr hc

/-! ### Outer clustering loop -/

theorem getD_append_lt {α : Type} (l1 l2 : List α) (d : α) (c : ℕ) (h : c < l1.length) :
    (l1 ++ l2).getD c d = l1.getD c d := by
  rw [List.getD_eq_getElem?_getD, List.getD_eq_getElem?_getD, List.getElem?_append_left h]

theorem getD_append_self {α : Type} (l : List α) (x d : α) :
    (l ++ [x]).getD l.length d = x := by
  rw [List.getD_eq_getElem?_getD, List.getElem?_concat_length]
  rfl

theorem triangleIdsAligned_getElem {tris : List LatticeTriangle}
    (h : triangleIdsAligned tris = true) :
    ∀ i : ℕ, ∀ hi : i < tris.length, tris[i].id = i := by
  intro i hi
  rw [triangleIdsAligned, List.all_eq_true] at h
  have := h i (List.mem_range.mpr hi)
  rw [List.getD_eq_getElem?_getD, List.getElem?_eq_getElem hi] at this
  simpa using this

theorem triangleIdsAligned_self {tris : List LatticeTriangle}
    (h : triangleIdsAligned tris = true) :
    ∀ t ∈ tris, tris[t.id]? = some t := by
  intro t ht
  obtain ⟨i, hi, rfl⟩ := List.mem_iff_getElem.mp ht
  rw [triangleIdsAligned_getElem h i hi, List.getElem?_eq_getElem hi]

theorem edgeIdsAligned_getElem {edges : List LatticeEdge}
    (h : edgeIdsAligned edges = true) :
    ∀ i : ℕ, ∀ hi : i < edges.length, edges[i].id = i := by
  intro i hi
  rw [edgeIdsAligned, List.all_eq_true] at h
  have := h i (List.mem_range.mpr hi)
  rw [List.getD_eq_getElem?_getD, List.getElem?_eq_getElem hi] at this
  simpa using this

/-- One step of the outer clustering loop preserves the invariant, assigns
the processed triangle when it is in-boundary, and never disturbs existing
assignments or cluster-member lists. -/
theorem clusterStep_spec (tris : List LatticeTriangle) (g : Rng) (p : ℚ) (hg : ValidRng g)
    (s : ClusterState) (triangle : LatticeTriangle)
    (hinv : ClusterInv tris s) (htri : tris[triangle.id]? = some triangle) :
    ClusterInv tris (clusterStep tris g p s triangle) ∧
    (triangle.insideBoundary = true →
      ∃ v : ℤ, (clusterStep tris g p s triangle).asg[triangle.id]? = some v ∧ v ≠ -1) ∧
    (∀ j : ℕ, ∀ v : ℤ, s.asg[j]? = some v → v ≠ -1 →
      (clusterStep tris g p s triangle).asg[j]? = some v) ∧
    s.clusterMembers.length ≤ (clusterStep tris g p s triangle).clusterMembers.length ∧
    (∀ c : ℕ, c < s.clusterMembers.length →
      (clusterStep tris g p s triangle).clusterMembers.getD c [] =
        s.clusterMembers.getD c []) := by
  obtain ⟨o1, o2, o3⟩ := hinv
  have hidlt : triangle.id < s.asg.length := by
    rcases List.getElem?_eq_some_iff.mp htri with ⟨h, _⟩
    omega
  by_cases hin : triangle.insideBoundary = false
  · rw [clusterStep, if_pos hin]
    refine ⟨⟨o1, o2, o3⟩, fun h => ?_, fun j v h1 _ => h1, le_refl _, fun c _ => rfl⟩
    rw [hin] at h
    exact absurd h (by simp)
  · have hin' : triangle.insideBoundary = true := by
      revert hin; cases triangle.insideBoundary <;> simp
    rw [clusterStep, if_neg hin]
    split
    next hnone =>
      exfalso
      have := List.getElem?_eq_none_iff.mp hnone
      omega
    next v hv =>
      by_cases hvne : v ≠ -1
      · rw [if_pos hvne]
        exact ⟨⟨o1, o2, o3⟩, fun _ => ⟨v, hv, hvne⟩, fun j v h1 _ => h1,
          le_refl _, fun c _ => rfl⟩
      · rw [if_neg hvne]
        push_neg at hvne
        subst hvne
        set cid := s.clusterMembers.length with hcid
        set asg0 := s.asg.set triangle.id (cid : ℤ) with hasg0
        have hlen0 : asg0.length = tris.length := by
          rw [hasg0, List.length_set, o1]
        have hstack0 : ∀ t ∈ [triangle.id],
            triInsideAt tris t = true ∧ asg0[t]? = some (cid : ℤ) := by
          intro t ht
          rcases List.mem_singleton.mp ht with rfl
          refine ⟨by rw [triInsideAt_eq htri, hin'], ?_⟩
          rw [hasg0, List.getElem?_set_self (by simpa using hidlt)]
        have hcomp0 : ∀ j : ℕ, asg0[j]? = some (cid : ℤ) → j ∈ [triangle.id] ∨ j ∈ ([] : List ℕ) := by
          intro j hj
          by_cases hji : triangle.id = j
          · exact Or.inl (List.mem_singleton.mpr hji.symm)
          · rw [hasg0, List.getElem?_set_ne hji] at hj
            obtain ⟨c, hc1, hc2, _⟩ := o2 j (cid : ℤ) hj (by omega)
            have : c = cid := by omega
            omega
        have hfuel0 : 2 * asg0.countP (fun v => v == (-1 : ℤ)) + [triangle.id].length ≤
            2 * tris.length + 2 := by
          have := List.countP_le_length (l := asg0) (p := fun v => v == (-1 : ℤ))
          simp only [List.length_singleton]
          omega
        obtain ⟨c1, c2, c3, c4, c5⟩ := dfsLoop_spec tris g p cid hg (2 * tris.length + 2)
          asg0 [triangle.id] [] s.k hlen0 hstack0 (List.nodup_singleton _)
          (fun t ht => absurd ht (List.not_mem_nil _)) List.nodup_nil
          (fun t _ => List.not_mem_nil _) hcomp0 hfuel0
        set res := dfsLoop tris g p cid (2 * tris.length + 2) asg0 [triangle.id] [] s.k with hres
        have hsortmem : ∀ t : ℕ, t ∈ (res.2.1.insertionSort (· ≤ ·)) ↔ t ∈ res.2.1 :=
          fun t => mem_insertionSortNat
        have hpres : ∀ j : ℕ, ∀ w : ℤ, s.asg[j]? = some w → w ≠ -1 → res.1[j]? = some w := by
          intro j w hw hwne
          have hji : triangle.id ≠ j := by
            intro hh
            rw [← hh, hv] at hw
            exact hwne (Option.some.inj hw).symm
          have hasg0j : asg0[j]? = some w := by
            rw [hasg0, List.getElem?_set_ne hji, hw]
          rcases c2 j with hc | hc
          · rw [hc, hasg0j]
          · rw [hasg0j] at hc
            exact absurd (Option.some.inj hc.1) hwne
        have hresid : res.1[triangle.id]? = some (cid : ℤ) := by
          have h0 : asg0[triangle.id]? = some (cid : ℤ) := by
            rw [hasg0, List.getElem?_set_self (by simpa using hidlt)]
          rcases c2 triangle.id with hc | hc
          · rw [hc, h0]
          · rw [h0] at hc
            exact absurd (Option.some.inj hc.1) (by omega)
        refine ⟨⟨c1, ?_, ?_⟩, ?_, ?_, ?_, ?_⟩
        · -- assignment characterization
          intro j w hw hwne
          rcases c2 j with hc | hc
          · rw [hc] at hw
            by_cases hji : triangle.id = j
            · subst hji
              rw [hasg0, List.getElem?_set_self (by simpa using hidlt)] at hw
              have hwcid : w = (cid : ℤ) := (Option.some.inj hw).symm
              refine ⟨cid, hwcid, ?_, ?_⟩
              · simp only [List.length_append, List.length_singleton]
                omega
              · rw [hcid, getD_append_self]
                exact (hsortmem _).mpr (c4 _ hresid)
            · rw [hasg0, List.getElem?_set_ne hji] at hw
              obtain ⟨c, hc1, hc2, hc3⟩ := o2 j w hw hwne
              refine ⟨c, hc1, ?_, ?_⟩
              · simp only [List.length_append, List.length_singleton]
                omega
              · rw [getD_append_lt _ _ _ _ hc2]
                exact hc3
          · have hwcid : w = (cid : ℤ) := by
              rw [hc.2] at hw
              exact (Option.some.inj hw).symm
            refine ⟨cid, hwcid, ?_, ?_⟩
            · simp only [List.length_append, List.length_singleton]
              omega
            · rw [hcid, getD_append_self]
              exact (hsortmem _).mpr (c4 j (hwcid ▸ hw))
        · -- per-cluster member properties
          intro c hc
          simp only [List.length_append, List.length_singleton] at hc
          by_cases hclt : c < s.clusterMembers.length
          · rw [getD_append_lt _ _ _ _ hclt]
            obtain ⟨hmem, hsort, hnd⟩ := o3 c hclt
            refine ⟨?_, hsort, hnd⟩
            intro t ht
            obtain ⟨ht1, ht2⟩ := hmem t ht
            exact ⟨ht1, hpres t (c : ℤ) ht2 (by omega)⟩
          · have hceq : c = s.clusterMembers.length := by omega
            subst hceq
            rw [hcid, getD_append_self]
            refine ⟨?_, List.sorted_insertionSort _ _, ?_⟩
            · intro t ht
              have := c3 t ((hsortmem t).mp ht)
              exact ⟨this.1, this.2⟩
            · exact (List.perm_insertionSort (· ≤ ·) res.2.1).nodup_iff.mpr c5
        · -- processed triangle is assigned
          intro _
          exact ⟨(cid : ℤ), hresid, by omega⟩
        · -- old assignments preserved
          exact hpres
        · simp only [List.length_append, List.length_singleton]
          omega
        · intro c hc
          exact getD_append_lt _ _ _ _ hc

/-- Folding the outer clustering loop over a triangle list preserves the
invariant, assigns every processed in-boundary triangle, and never disturbs
earlier assignments or member lists. -/
theorem clusterFold_spec (tris : List LatticeTriangle) (g : Rng) (p : ℚ) (hg : ValidRng g) :
    ∀ (l : List LatticeTriangle) (s : ClusterState),
      ClusterInv tris s → (∀ t ∈ l, tris[t.id]? = some t) →
      ClusterInv tris (l.foldl (clusterStep tris g p) s) ∧
      (∀ t ∈ l, t.insideBoundary = true →
        ∃ v : ℤ, (l.foldl (clusterStep tris g p) s).asg[t.id]? = some v ∧ v ≠ -1) ∧
      (∀ j : ℕ, ∀ v : ℤ, s.asg[j]? = some v → v ≠ -1 →
        (l.foldl (clusterStep tris g p) s).asg[j]? = some v) ∧
      s.clusterMembers.length ≤ (l.foldl (clusterStep tris g p) s).clusterMembers.length ∧
      (∀ c : ℕ, c < s.clusterMembers.length →
        (l.foldl (clusterStep tris g p) s).clusterMembers.getD c [] =
          s.clusterMembers.getD c []) := by
  intro l
  induction l with
  | nil =>
    intro s hinv _
    exact ⟨hinv, fun t ht => absurd ht (List.not_mem_nil _),
      fun j v h1 _ => h1, le_refl _, fun c _ => rfl⟩
  | cons t rest ih =>
    intro s hinv hall
    obtain ⟨s1, s2, s3, s4, s5⟩ := clusterStep_spec tris g p hg s t hinv
      (hall t (List.mem_cons_self _ _))
    obtain ⟨i1, i2, i3, i4, i5⟩ := ih (clusterStep tris g p s t) s1
      (fun u hu => hall u (List.mem_cons_of_mem _ hu))
    rw [List.foldl_cons]
    refine ⟨i1, ?_, ?_, le_trans s4 i4, ?_⟩
    · intro u hu huin
      rcases List.mem_cons.mp hu with rfl | hu
      · obtain ⟨v, hv1, hv2⟩ := s2 huin
        exact ⟨v, i3 _ v hv1 hv2, hv2⟩
      · exact i2 u hu huin
    · intro j v h1 h2
      exact i3 j v (s3 j v h1 h2) h2
    · intro c hc
      rw [i5 c (lt_of_lt_of_le hc s4), s5 c hc]

/-- The flood-fill state after the outer loop satisfies the invariant and
covers every in-boundary triangle. -/
theorem clusterStateOf_spec (o : ClusteringOptions) (hg : ValidRng o.random)
    (hT : triangleIdsAligned o.lattice.triangles = true) :
    ClusterInv o.lattice.triangles (clusterStateOf o) ∧
    (∀ t ∈ o.lattice.triangles, t.insideBoundary = true →
      ∃ v : ℤ, (clusterStateOf o).asg[t.id]? = some v ∧ v ≠ -1) := by
  have hinit : ClusterInv o.lattice.triangles
      ⟨List.replicate o.lattice.triangles.length (-1), [], 0⟩ := by
    refine ⟨by simp, ?_, ?_⟩
    · intro j v hj hne
      rw [List.getElem?_replicate] at hj
      by_cases hlt : j < o.lattice.triangles.length
      · rw [if_pos hlt] at hj
        exact absurd (Option.some.inj hj).symm hne
      · rw [if_neg hlt] at hj
        exact absurd hj (Option.noConfusion)
    · intro c hc
      simp at hc
  obtain ⟨i1, i2, _, _, _⟩ := clusterFold_spec o.lattice.triangles o.random
    (clamp01 o.mergeChance) hg o.lattice.triangles
    ⟨List.replicate o.lattice.triangles.length (-1), [], 0⟩ hinit
    (triangleIdsAligned_self hT)
  exact ⟨i1, i2⟩

/-! ### The clustering result structure -/

theorem clusterResult_t2c (o : ClusteringOptions) :
    (clusterTownscaperLattice o).triangleToCluster = (clusterStateOf o).asg := rfl

/-- The per-edge pass only appends to `edgeIds`: cluster count, ids and
`triangleIds` are untouched. -/
theorem edgeIdsFold_preserve (eid : ℕ) :
    ∀ (l : List ℤ) (cs : List TownscaperCluster),
      (l.foldl (fun cs cid =>
        if cid < 0 then cs
        else cs.modify (fun cl => { cl with edgeIds := cl.edgeIds ++ [eid] }) cid.toNat)
        cs).length = cs.length ∧
      (∀ c : ℕ,
        ((l.foldl (fun cs cid =>
          if cid < 0 then cs
          else cs.modify (fun cl => { cl with edgeIds := cl.edgeIds ++ [eid] }) cid.toNat)
          cs).getD c default).triangleIds = (cs.getD c default).triangleIds ∧
        ((l.foldl (fun cs cid =>
          if cid < 0 then cs
          else cs.modify (fun cl => { cl with edgeIds := cl.edgeIds ++ [eid] }) cid.toNat)
          cs).getD c default).id = (cs.getD c default).id) := by
  intro l
  induction l with
  | nil => intro cs; exact ⟨rfl, fun c => ⟨rfl, rfl⟩⟩
  | cons cid rest ih =>
    intro cs
    rw [List.foldl_cons]
    by_cases hneg : cid < 0
    · rw [if_pos hneg]
      exact ih cs
    · rw [if_neg hneg]
      obtain ⟨l1, l2⟩ := ih (cs.modify (fun cl => { cl with edgeIds := cl.edgeIds ++ [eid] })
        cid.toNat)
      refine ⟨by rw [l1, List.length_modify], ?_⟩
      intro c
      obtain ⟨m1, m2⟩ := l2 c
      rw [m1, m2]
      have hmod : ∀ d : TownscaperCluster,
          ((cs.modify (fun cl => { cl with edgeIds := cl.edgeIds ++ [eid] })
            cid.toNat).getD c d).triangleIds = ((cs.getD c d).triangleIds) ∧
          ((cs.modify (fun cl => { cl with edgeIds := cl.edgeIds ++ [eid] })
            cid.toNat).getD c d).id = ((cs.getD c d).id) := by
        intro d
        rw [List.getD_eq_getElem?_getD, List.getD_eq_getElem?_getD, List.getElem?_modify]
        cases hx : cs[c]? with
        | none => simp
        | some cl =>
          simp only [Option.getD_some, Option.map_some']
          split
          · exact ⟨rfl, rfl⟩
          · exact ⟨rfl, rfl⟩
      exact ⟨(hmod default).1, (hmod default).2⟩

theorem clusterEdgeFold_preserve (asg : List ℤ) :
    ∀ (edges : List LatticeEdge) (st : List TownscaperCluster × List (List ℤ)),
      ((edges.foldl (clusterEdgeStep asg) st).1.length = st.1.length) ∧
      (∀ c : ℕ,
        (((edges.foldl (clusterEdgeStep asg) st).1.getD c default).triangleIds =
          (st.1.getD c default).triangleIds) ∧
        (((edges.foldl (clusterEdgeStep asg) st).1.getD c default).id =
          (st.1.getD c default).id)) := by
  intro edges
  induction edges with
  | nil => intro st; exact ⟨rfl, fun c => ⟨rfl, rfl⟩⟩
  | cons e rest ih =>
    intro st
    rw [List.foldl_cons]
    obtain ⟨l1, l2⟩ := ih (clusterEdgeStep asg st e)
    obtain ⟨p1, p2⟩ := edgeIdsFold_preserve e.id
      (((dedupFirst [] (e.triangles.filterMap (fun tid =>
        match asg[tid]? with
        | some c => if c ≠ -1 then some c else none
        | none => none))).insertionSort (· ≤ ·))) st.1
    refine ⟨?_, ?_⟩
    · rw [l1]
      exact p1
    · intro c
      obtain ⟨m1, m2⟩ := l2 c
      obtain ⟨q1, q2⟩ := p2 c
      rw [m1, m2]
      exact ⟨q1, q2⟩

/-- A cluster position hit by no entry of the inner per-edge fold is left
unchanged. -/
theorem edgeIdsFold_untouched (eid : ℕ) (c : ℕ) :
    ∀ (l : List ℤ) (cs : List TownscaperCluster),
      (∀ cid ∈ l, ¬ cid < 0 → cid.toNat ≠ c) →
      ((l.foldl (fun cs cid =>
        if cid < 0 then cs
        else cs.modify (fun cl => { cl with edgeIds := cl.edgeIds ++ [eid] }) cid.toNat)
        cs).getD c default) = cs.getD c default := by
  intro l
  induction l with
  | nil => intro cs _; rfl
  | cons cid rest ih =>
    intro cs h
    rw [List.foldl_cons]
    by_cases hneg : cid < 0
    · rw [if_pos hneg]
      exact ih cs (fun x hx => h x (List.mem_cons_of_mem _ hx))
    · rw [if_neg hneg]
      have hne : cid.toNat ≠ c := h cid (List.mem_cons_self _ _) hneg
      rw [ih _ (fun x hx => h x (List.mem_cons_of_mem _ hx))]
      rw [List.getD_eq_getElem?_getD, List.getD_eq_getElem?_getD, List.getElem?_modify]
      cases hx : cs[c]? with
      | none => rfl
      | some cl => simp [hne]

/-- Over a duplicate-free inner list, a cluster position either keeps its
value or gets exactly one copy of the edge id appended. -/
theorem edgeIdsFold_getD (eid : ℕ) (c : ℕ) :
    ∀ (l : List ℤ) (cs : List TownscaperCluster), l.Nodup →
      ((l.foldl (fun cs cid =>
        if cid < 0 then cs
        else cs.modify (fun cl => { cl with edgeIds := cl.edgeIds ++ [eid] }) cid.toNat)
        cs).getD c default) = cs.getD c default ∨
      ((l.foldl (fun cs cid =>
        if cid < 0 then cs
        else cs.modify (fun cl => { cl with edgeIds := cl.edgeIds ++ [eid] }) cid.toNat)
        cs).getD c default) = { cs.getD c default with
          edgeIds := (cs.getD c default).edgeIds ++ [eid] } := by
  intro l
  induction l with
  | nil => intro cs _; exact Or.inl rfl
  | cons cid rest ih =>
    intro cs hnd
    rw [List.foldl_cons]
    by_cases hneg : cid < 0
    · rw [if_pos hneg]
      exact ih cs hnd.of_cons
    · rw [if_neg hneg]
      by_cases hhit : cid.toNat = c
      · have hrest : ∀ x ∈ rest, ¬ x < 0 → x.toNat ≠ c := by
          intro x hx hxneg hxc
          have : x = cid := by omega
          subst this
          exact (List.nodup_cons.mp hnd).1 hx
        rw [edgeIdsFold_untouched eid c rest _ hrest]
        by_cases hcr : c < cs.length
        · refine Or.inr ?_
          rw [List.getD_eq_getElem?_getD, List.getD_eq_getElem?_getD, List.getElem?_modify,
            hhit, List.getElem?_eq_getElem hcr]
          simp
        · refine Or.inl ?_
          rw [List.getD_eq_getElem?_getD, List.getD_eq_getElem?_getD, List.getElem?_modify,
            hhit]
          rw [List.getElem?_eq_none (by omega)]
          rfl
      · have hmod : (cs.modify (fun cl => { cl with edgeIds := cl.edgeIds ++ [eid] })
            cid.toNat).getD c default = cs.getD c default := by
          rw [List.getD_eq_getElem?_getD, List.getD_eq_getElem?_getD, List.getElem?_modify]
          cases hx : cs[c]? with
          | none => rfl
          | some cl => simp [hhit]
        rcases ih (cs.modify (fun cl => { cl with edgeIds := cl.edgeIds ++ [eid] })
            cid.toNat) hnd.of_cons with h | h
        · rw [h, hmod]; exact Or.inl rfl
        · rw [h, hmod]; exact Or.inr rfl

/-- Position-aligned edge ids are strictly increasing along the array. -/
theorem edges_pairwise_id {edges : List LatticeEdge} (hE : edgeIdsAligned edges = true) :
    edges.Pairwise (fun a b => a.id < b.id) := by
  rw [List.pairwise_iff_getElem]
  intro i j hi hj hij
  rw [edgeIdsAligned_getElem hE i hi, edgeIdsAligned_getElem hE j hj]
  exact hij

/-- Edges processed in strictly increasing id order keep every cluster's
`edgeIds` list strictly increasing. -/
theorem clusterEdgeFold_edgeIds (asg : List ℤ) :
    ∀ (edges : List LatticeEdge) (st : List TownscaperCluster × List (List ℤ)),
      edges.Pairwise (fun a b => a.id < b.id) →
      (∀ c : ℕ, ((st.1.getD c default).edgeIds).Pairwise (· < ·) ∧
        (∀ x ∈ (st.1.getD c default).edgeIds, ∀ e ∈ edges, x < e.id)) →
      ∀ c : ℕ,
        (((edges.foldl (clusterEdgeStep asg) st).1.getD c default).edgeIds).Pairwise
          (· < ·) := by
  intro edges
  induction edges with
  | nil => intro st _ hinv c; exact (hinv c).1
  | cons e rest ih =>
    intro st hp hinv
    rw [List.foldl_cons]
    have hnd : ((dedupFirst [] (e.triangles.filterMap (fun tid =>
        match asg[tid]? with
        | some c => if c ≠ -1 then some c else none
        | none => none))).insertionSort (· ≤ ·)).Nodup :=
      ((List.perm_insertionSort (· ≤ ·) _).nodup_iff).mpr (nodup_dedupFirst _ _)
    have hstep : (clusterEdgeStep asg st e).1 =
        ((dedupFirst [] (e.triangles.filterMap (fun tid =>
          match asg[tid]? with
          | some c => if c ≠ -1 then some c else none
          | none => none))).insertionSort (· ≤ ·)).foldl
          (fun cs cid =>
            if cid < 0 then cs
            else cs.modify (fun cl => { cl with edgeIds := cl.edgeIds ++ [e.id] }) cid.toNat)
          st.1 := rfl
    have hinv' : ∀ c : ℕ,
        (((clusterEdgeStep asg st e).1.getD c default).edgeIds).Pairwise (· < ·) ∧
        (∀ x ∈ ((clusterEdgeStep asg st e).1.getD c default).edgeIds,
          ∀ e' ∈ rest, x < e'.id) := by
      intro c
      rw [hstep]
      rcases edgeIdsFold_getD e.id c _ st.1 hnd with h | h
      · rw [h]
        exact ⟨(hinv c).1, fun x hx e' he' => (hinv c).2 x hx e' (List.mem_cons_of_mem _ he')⟩
      · rw [h]
        constructor
        · show ((st.1.getD c default).edgeIds ++ [e.id]).Pairwise (· < ·)
          rw [List.pairwise_append]
          refine ⟨(hinv c).1, List.pairwise_singleton _ _, ?_⟩
          intro x hx y hy
          rw [List.mem_singleton.mp hy]
          exact (hinv c).2 x hx e (List.mem_cons_self _ _)
        · show ∀ x ∈ (st.1.getD c default).edgeIds ++ [e.id], ∀ e' ∈ rest, x < e'.id
          intro x hx e' he'
          rcases List.mem_append.mp hx with hx1 | hx2
          · exact (hinv c).2 x hx1 e' (List.mem_cons_of_mem _ he')
          · rw [List.mem_singleton.mp hx2]
            exact List.rel_of_pairwise_cons hp he'
    exact ih (clusterEdgeStep asg st e) hp.of_cons hinv'

/-- The per-edge pass never writes to an `edgeToClusters` slot named by no
edge in the remaining list. -/
theorem e2c_fold_untouched (asg : List ℤ) (j : ℕ) :
    ∀ (edges : List LatticeEdge) (st : List TownscaperCluster × List (List ℤ)),
      (∀ e ∈ edges, e.id ≠ j) →
      ((edges.foldl (clusterEdgeStep asg) st).2)[j]? = st.2[j]? := by
  intro edges
  induction edges with
  | nil => intro st _; rfl
  | cons e rest ih =>
    intro st h
    rw [List.foldl_cons]
    rw [ih (clusterEdgeStep asg st e) (fun x hx => h x (List.mem_cons_of_mem _ hx))]
    exact List.getElem?_set_ne (h e (List.mem_cons_self _ _))

/-- The per-edge pass preserves the length of `edgeToClusters`. -/
theorem e2c_fold_length (asg : List ℤ) :
    ∀ (edges : List LatticeEdge) (st : List TownscaperCluster × List (List ℤ)),
      ((edges.foldl (clusterEdgeStep asg) st).2).length = st.2.length := by
  intro edges
  induction edges with
  | nil => intro st; rfl
  | cons e rest ih =>
    intro st
    rw [List.foldl_cons, ih (clusterEdgeStep asg st e)]
    exact List.length_set _ _ _

/-- With strictly increasing edge ids, each edge's `edgeToClusters` slot
holds exactly its sorted deduplicated cluster list. -/
theorem e2c_fold_lookup (asg : List ℤ) :
    ∀ (edges : List LatticeEdge) (st : List TownscaperCluster × List (List ℤ)),
      edges.Pairwise (fun a b => a.id < b.id) →
      ∀ e ∈ edges, e.id < st.2.length →
      ((edges.foldl (clusterEdgeStep asg) st).2)[e.id]? =
        some ((dedupFirst [] (e.triangles.filterMap (fun tid =>
          match asg[tid]? with
          | some c => if c ≠ -1 then some c else none
          | none => none))).insertionSort (· ≤ ·)) := by
  intro edges
  induction edges with
  | nil => intro st _ e he; exact absurd he (List.not_mem_nil _)
  | cons e0 rest ih =>
    intro st hp e he hlen
    rw [List.foldl_cons]
    rcases List.mem_cons.mp he with rfl | hrest
    · rw [e2c_fold_untouched asg e.id rest (clusterEdgeStep asg st e)
        (fun e' he' => Nat.ne_of_gt (List.rel_of_pairwise_cons hp he'))]
      exact List.getElem?_set_self hlen
    · refine ih (clusterEdgeStep asg st e0) hp.of_cons e hrest ?_
      show e.id < (st.2.set e0.id _).length
      rw [List.length_set]
      exact hlen

theorem clustersResult_length (o : ClusteringOptions) :
    (clusterTownscaperLattice o).clusters.length =
      (clusterStateOf o).clusterMembers.length := by
  have h := (clusterEdgeFold_preserve (clusterStateOf o).asg o.lattice.edges
    (clustersInit o, o.lattice.edges.map (fun _ => ([] : List ℤ)))).1
  have hlen0 : (clustersInit o).length = (clusterStateOf o).clusterMembers.length := by
    rw [clustersInit, List.length_map, List.length_range]
  exact h.trans hlen0

theorem clustersInit_getD (o : ClusteringOptions) (c : ℕ)
    (hc : c < (clusterStateOf o).clusterMembers.length) :
    (clustersInit o).getD c default =
      ⟨c, (clusterStateOf o).clusterMembers.getD c [], []⟩ := by
  rw [clustersInit, List.getD_eq_getElem?_getD, List.getElem?_map, List.getElem?_range hc]
  rfl

theorem clustersResult_getD (o : ClusteringOptions) (c : ℕ)
    (hc : c < (clusterStateOf o).clusterMembers.length) :
    ((clusterTownscaperLattice o).clusters.getD c default).triangleIds =
      (clusterStateOf o).clusterMembers.getD c [] ∧
    ((clusterTownscaperLattice o).clusters.getD c default).id = c := by
  have h := (clusterEdgeFold_preserve (clusterStateOf o).asg o.lattice.edges
    (clustersInit o, o.lattice.edges.map (fun _ => ([] : List ℤ)))).2 c
  have hgetD := clustersInit_getD o c hc
  have hcl : (clusterTownscaperLattice o).clusters =
      (o.lattice.edges.foldl (clusterEdgeStep (clusterStateOf o).asg)
        (clustersInit o, o.lattice.edges.map (fun _ => ([] : List ℤ)))).1 := rfl
  rw [hcl]
  rw [h.1, h.2, hgetD]
  exact ⟨rfl, rfl⟩

/-- Clustering partitions the in-boundary triangles: each in-boundary index
lands in exactly one cluster (and `triangleToCluster` names it), while
out-of-boundary indices keep the sentinel `-1` and appear in no cluster. -/
theorem cluster_partition (o : ClusteringOptions) (hg : ValidRng o.random)
    (hT : triangleIdsAligned o.lattice.triangles = true) :
    ∀ i : ℕ, i < o.lattice.triangles.length →
      (((o.lattice.triangles.getD i default).insideBoundary = true →
        ∃ c : ℕ, c < (clusterTownscaperLattice o).clusters.length ∧
          (clusterTownscaperLattice o).triangleToCluster[i]? = some (c : ℤ) ∧
          ((clusterTownscaperLattice o).clusters.getD c default).id = c ∧
          i ∈ ((clusterTownscaperLattice o).clusters.getD c default).triangleIds ∧
          (∀ c' : ℕ, c' < (clusterTownscaperLattice o).clusters.length →
            i ∈ ((clusterTownscaperLattice o).clusters.getD c' default).triangleIds →
            c' = c)) ∧
       ((o.lattice.triangles.getD i default).insideBoundary = false →
        (clusterTownscaperLattice o).triangleToCluster[i]? = some (-1) ∧
        ∀ cl ∈ (clusterTownscaperLattice o).clusters, i ∉ cl.triangleIds)) := by
  obtain ⟨⟨o1, o2, o3⟩, hcov⟩ := clusterStateOf_spec o hg hT
  intro i hi
  have hgetD : o.lattice.triangles.getD i default = o.lattice.triangles[i] := by
    rw [List.getD_eq_getElem?_getD, List.getElem?_eq_getElem hi]
    rfl
  have hid : (o.lattice.triangles[i]).id = i := triangleIdsAligned_getElem hT i hi
  have hCMmem : ∀ c : ℕ, c < (clusterStateOf o).clusterMembers.length →
      i ∈ (clusterStateOf o).clusterMembers.getD c [] →
      (clusterStateOf o).asg[i]? = some (c : ℤ) :=
    fun c hc hm => ((o3 c hc).1 i hm).2
  constructor
  · intro hin
    have hmem : o.lattice.triangles[i] ∈ o.lattice.triangles := List.getElem_mem hi
    obtain ⟨v, hv, hvne⟩ := hcov _ hmem (by rw [← hgetD, hin])
    rw [hid] at hv
    obtain ⟨c, rfl, hc, hcm⟩ := o2 i v hv hvne
    refine ⟨c, ?_, ?_, ?_, ?_, ?_⟩
    · rw [clustersResult_length]; exact hc
    · rw [clusterResult_t2c]; exact hv
    · exact (clustersResult_getD o c hc).2
    · rw [(clustersResult_getD o c hc).1]; exact hcm
    · intro c' hc' hm'
      rw [clustersResult_length] at hc'
      rw [(clustersResult_getD o c' hc').1] at hm'
      have := hCMmem c' hc' hm'
      rw [hv] at this
      have : ((c : ℤ)) = (c' : ℤ) := Option.some.inj this
      omega
  · intro hout
    have hilt : i < (clusterStateOf o).asg.length := by omega
    obtain ⟨v, hv⟩ : ∃ v, (clusterStateOf o).asg[i]? = some v :=
      ⟨_, List.getElem?_eq_getElem hilt⟩
    have hvm1 : v = -1 := by
      by_contra hne
      obtain ⟨c, rfl, hc, hcm⟩ := o2 i v hv hne
      have := ((o3 c hc).1 i hcm).1
      rw [triInsideAt_eq (List.getElem?_eq_getElem hi)] at this
      rw [← hgetD, hout] at this
      exact Bool.false_ne_true this
    subst hvm1
    refine ⟨by rw [clusterResult_t2c]; exact hv, ?_⟩
    intro cl hcl hclm
    obtain ⟨c, hc, rfl⟩ := List.mem_iff_getElem.mp hcl
    have hc' : c < (clusterStateOf o).clusterMembers.length := by
      rw [← clustersResult_length]; exact hc
    have hgetcl : (clusterTownscaperLattice o).clusters[c] =
        (clusterTownscaperLattice o).clusters.getD c default := by
      rw [List.getD_eq_getElem?_getD, List.getElem?_eq_getElem hc]
      rfl
    rw [hgetcl, (clustersResult_getD o c hc').1] at hclm
    have := hCMmem c hc' hclm
    rw [hv] at this
    have h2 : ((-1 : ℤ)) = (c : ℤ) := Option.some.inj this
    omega

/-! ### Merge probability 0 with strictly positive draws -/

theorem processNeighbors_nomerge (g : Rng) (p : ℚ) (cid : ℕ)
    (hnm : ∀ m : ℕ, ¬ (g m ≤ p)) :
    ∀ (ns : List ℕ) (asg : List ℤ) (stack : List ℕ) (k : ℕ),
      (processNeighbors g p cid ns asg stack k).1 = asg ∧
      (processNeighbors g p cid ns asg stack k).2.1 = stack := by
  intro ns
  induction ns with
  | nil => intro asg stack k; rw [processNeighbors]; exact ⟨rfl, rfl⟩
  | cons n rest ih =>
    intro asg stack k
    rw [processNeighbors]
    split
    next => exact ih asg stack k
    next v hn =>
      by_cases hv : v ≠ -1
      · rw [if_pos hv]; exact ih asg stack k
      · rw [if_neg hv, if_neg (hnm k)]
        exact ih asg stack (k + 1)

theorem dfsLoop_nil_stack (tris : List LatticeTriangle) (g : Rng) (p : ℚ) (cid : ℕ)
    (fuel : ℕ) (asg : List ℤ) (members : List ℕ) (k : ℕ) :
    dfsLoop tris g p cid fuel asg [] members k = (asg, members, k) := by
  cases fuel <;> rw [dfsLoop]

/-- With a merge test that never fires, the flood fill from a single
triangle returns just that triangle and leaves assignments unchanged. -/
theorem dfsLoop_nomerge (tris : List LatticeTriangle) (g : Rng) (p : ℚ) (cid : ℕ)
    (hnm : ∀ m : ℕ, ¬ (g m ≤ p)) (fuel : ℕ) (asg : List ℤ) (t : ℕ) (k : ℕ) :
    (dfsLoop tris g p cid (fuel + 1) asg [t] [] k).1 = asg ∧
    (dfsLoop tris g p cid (fuel + 1) asg [t] [] k).2.1 = [t] := by
  have hstep : dfsLoop tris g p cid (fuel + 1) asg [t] [] k =
      dfsLoop tris g p cid fuel
        (processNeighbors g p cid
          (shuffleInPlace g
            ((tris.getD t default).neighbors.filter (fun nid => triInsideAt tris nid)) k).1
          asg []
          (shuffleInPlace g
            ((tris.getD t default).neighbors.filter (fun nid => triInsideAt tris nid)) k).2).1
        (processNeighbors g p cid
          (shuffleInPlace g
            ((tris.getD t default).neighbors.filter (fun nid => triInsideAt tris nid)) k).1
          asg []
          (shuffleInPlace g
            ((tris.getD t default).neighbors.filter (fun nid => triInsideAt tris nid)) k).2).2.1
        ([] ++ [t])
        (processNeighbors g p cid
          (shuffleInPlace g
            ((tris.getD t default).neighbors.filter (fun nid => triInsideAt tris nid)) k).1
          asg []
          (shuffleInPlace g
            ((tris.getD t default).neighbors.filter (fun nid => triInsideAt tris nid)) k).2).2.2 := by
    rw [dfsLoop]
  obtain ⟨hpn1, hpn2⟩ := processNeighbors_nomerge g p cid hnm
    (shuffleInPlace g
      ((tris.getD t default).neighbors.filter (fun nid => triInsideAt tris nid)) k).1
    asg []
    (shuffleInPlace g
      ((tris.getD t default).neighbors.filter (fun nid => triInsideAt tris nid)) k).2
  rw [hstep, hpn1, hpn2, List.nil_append, dfsLoop_nil_stack]
  exact ⟨rfl, rfl⟩

/-- Shape of one clustering step on an unassigned in-boundary triangle. -/
theorem clusterStep_eq_of_unassigned (tris : List LatticeTriangle) (g : Rng) (p : ℚ)
    (s : ClusterState) (triangle : LatticeTriangle)
    (hin : triangle.insideBoundary = true)
    (hasg : s.asg[triangle.id]? = some (-1)) :
    clusterStep tris g p s triangle =
      { asg := (dfsLoop tris g p s.clusterMembers.length (2 * tris.length + 2)
          (s.asg.set triangle.id (s.clusterMembers.length : ℤ)) [triangle.id] [] s.k).1,
        clusterMembers := s.clusterMembers ++
          [(dfsLoop tris g p s.clusterMembers.length (2 * tris.length + 2)
            (s.asg.set triangle.id (s.clusterMembers.length : ℤ)) [triangle.id] []
            s.k).2.1.insertionSort (· ≤ ·)],
        k := (dfsLoop tris g p s.clusterMembers.length (2 * tris.length + 2)
          (s.asg.set triangle.id (s.clusterMembers.length : ℤ)) [triangle.id] []
          s.k).2.2 } := by
  rw [clusterStep, if_neg (by rw [hin]; exact fun h => Bool.noConfusion h)]
  split
  next hnone =>
    rw [hasg] at hnone
    exact Option.noConfusion hnone
  next v hv =>
    rw [hasg] at hv
    have hv1 : ((-1 : ℤ)) = v := Option.some.inj hv
    rw [if_neg (by omega)]

/-- With a merge test that never fires, the outer loop appends one
singleton member list per in-boundary triangle. -/
theorem clusterFold_singletons (tris : List LatticeTriangle) (g : Rng) (p : ℚ)
    (hnm : ∀ m : ℕ, ¬ (g m ≤ p)) :
    ∀ (l : List LatticeTriangle) (s : ClusterState),
      (∀ t ∈ l, tris[t.id]? = some t) →
      (∀ t ∈ l, t.insideBoundary = true → s.asg[t.id]? = some (-1)) →
      l.Pairwise (fun a b => a.id ≠ b.id) →
      (l.foldl (clusterStep tris g p) s).clusterMembers =
        s.clusterMembers ++ (l.filter (fun t => t.insideBoundary)).map (fun t => [t.id]) := by
  intro l
  induction l with
  | nil => intro s _ _ _; simp
  | cons t rest ih =>
    intro s hall hasg hpw
    rw [List.foldl_cons]
    by_cases hin : t.insideBoundary = true
    · have hasgt := hasg t (List.mem_cons_self _ _) hin
      have hstep := clusterStep_eq_of_unassigned tris g p s t hin hasgt
      have hidlt : t.id < s.asg.length := (List.getElem?_eq_some_iff.mp hasgt).1
      obtain ⟨hd1, hd2⟩ := dfsLoop_nomerge tris g p s.clusterMembers.length hnm
        (2 * tris.length + 1) (s.asg.set t.id (s.clusterMembers.length : ℤ)) t.id s.k
      have hrec := ih (clusterStep tris g p s t) (fun u hu => hall u (List.mem_cons_of_mem _ hu))
        (fun u hu huin => ?_) (List.Pairwise.sublist (List.sublist_cons_self _ _) hpw)
      · rw [hrec, hstep]
        have h21 : (dfsLoop tris g p s.clusterMembers.length (2 * tris.length + 2)
            (s.asg.set t.id (s.clusterMembers.length : ℤ)) [t.id] [] s.k).2.1 = [t.id] := hd2
        rw [h21]
        have hsort : ([t.id] : List ℕ).insertionSort (· ≤ ·) = [t.id] := rfl
        rw [hsort, List.filter_cons_of_pos (by rw [hin]), List.map_cons, List.append_assoc]
        rfl
      · -- the remaining triangles stay unassigned
        rw [hstep]
        have h1 : (dfsLoop tris g p s.clusterMembers.length (2 * tris.length + 2)
            (s.asg.set t.id (s.clusterMembers.length : ℤ)) [t.id] [] s.k).1 =
            s.asg.set t.id (s.clusterMembers.length : ℤ) := hd1
        show (dfsLoop tris g p s.clusterMembers.length (2 * tris.length + 2)
            (s.asg.set t.id (s.clusterMembers.length : ℤ)) [t.id] [] s.k).1[u.id]? =
          some (-1)
        rw [h1]
        have hne : t.id ≠ u.id := (List.pairwise_cons.mp hpw).1 u hu
        rw [List.getElem?_set_ne hne]
        exact hasg u (List.mem_cons_of_mem _ hu) huin
    · have hin' : t.insideBoundary = false := by
        revert hin; cases t.insideBoundary <;> simp
      have hstep : clusterStep tris g p s t = s := by
        rw [clusterStep, if_pos hin']
      rw [hstep, List.filter_cons_of_neg (by rw [hin']; exact Bool.noConfusion),
        ih s (fun u hu => hall u (List.mem_cons_of_mem _ hu))
          (fun u hu huin => hasg u (List.mem_cons_of_mem _ hu) huin)
          (List.Pairwise.sublist (List.sublist_cons_self _ _) hpw)]

/-- C3 (amended): with merge probability 0, for every random source whose
draws are strictly positive (so the `random() <= 0` merge test never
fires), flood fill yields one cluster per in-boundary triangle and the
cluster count equals the in-boundary triangle count. -/
theorem mergeProbability_zero_yields_singletons (lat : Lattice) (g : Rng)
    (hpos : ∀ n : ℕ, 0 < g n) (hT : triangleIdsAligned lat.triangles = true) :
    (∀ cl ∈ (clusterTownscaperLattice ⟨lat, 0, g⟩).clusters, cl.triangleIds.length = 1) ∧
    (clusterTownscaperLattice ⟨lat, 0, g⟩).clusters.length = insideCount lat.triangles := by
  have hclamp : clamp01 (0 : ℚ) = 0 := by rw [clamp01, if_pos le_rfl]
  have hnm : ∀ m : ℕ, ¬ (g m ≤ clamp01 ((⟨lat, 0, g⟩ : ClusteringOptions)).mergeChance) := by
    intro m
    show ¬ (g m ≤ clamp01 (0 : ℚ))
    rw [hclamp]
    exact not_le.mpr (hpos m)
  have hpw : lat.triangles.Pairwise (fun a b => a.id ≠ b.id) := by
    rw [List.pairwise_iff_getElem]
    intro i j hi hj hij
    rw [triangleIdsAligned_getElem hT i hi, triangleIdsAligned_getElem hT j hj]
    omega
  have hasg0 : ∀ t ∈ lat.triangles, t.insideBoundary = true →
      (List.replicate lat.triangles.length (-1 : ℤ))[t.id]? = some (-1) := by
    intro t ht _
    have hlt : t.id < lat.triangles.length :=
      (List.getElem?_eq_some_iff.mp (triangleIdsAligned_self hT t ht)).1
    rw [List.getElem?_replicate, if_pos hlt]
  have hCM : (clusterStateOf ⟨lat, 0, g⟩).clusterMembers =
      (lat.triangles.filter (fun t => t.insideBoundary)).map (fun t => [t.id]) := by
    rw [clusterStateOf]
    have := clusterFold_singletons lat.triangles g
      (clamp01 ((⟨lat, 0, g⟩ : ClusteringOptions)).mergeChance) hnm lat.triangles
      ⟨List.replicate lat.triangles.length (-1), [], 0⟩
      (triangleIdsAligned_self hT) hasg0 hpw
    simpa using this
  constructor
  · intro cl hcl
    obtain ⟨c, hc, rfl⟩ := List.mem_iff_getElem.mp hcl
    have hc' : c < (clusterStateOf ⟨lat, 0, g⟩).clusterMembers.length := by
      rw [← clustersResult_length]; exact hc
    have hgetcl : (clusterTownscaperLattice ⟨lat, 0, g⟩).clusters[c] =
        (clusterTownscaperLattice ⟨lat, 0, g⟩).clusters.getD c default := by
      rw [List.getD_eq_getElem?_getD, List.getElem?_eq_getElem hc]
      rfl
    rw [hgetcl, (clustersResult_getD _ c hc').1]
    have hcf : c < (lat.triangles.filter (fun t => t.insideBoundary)).length := by
      rw [hCM, List.length_map] at hc'
      exact hc'
    rw [hCM, List.getD_eq_getElem?_getD, List.getElem?_map,
      List.getElem?_eq_getElem hcf]
    rfl
  · rw [clustersResult_length, hCM, List.length_map]
    rfl

/-- C3 amended, witness: on the concrete lattice `lat114` with the valid
strictly-positive constant-1/2 random source, merge probability 0 yields 18
singleton clusters. -/
theorem mergeProbability_zero_yields_singletons_witness :
    (∀ cl ∈ (clusterTownscaperLattice ⟨lat114, 0, fun _ => 1/2⟩).clusters,
      cl.triangleIds.length = 1) ∧
    (clusterTownscaperLattice ⟨lat114, 0, fun _ => 1/2⟩).clusters.length =
      insideCount lat114.triangles :=
  mergeProbability_zero_yields_singletons lat114 (fun _ => 1/2)
    (fun _ => by norm_num) (by decide)

/-! ### Pairing loop -/

theorem mem_of_head?_eq_some {α : Type} {l : List α} {a : α} (h : l.head? = some a) :
    a ∈ l := by
  cases l with
  | nil => exact absurd h Option.noConfusion
  | cons b t =>
    rw [List.head?_cons] at h
    rw [← Option.some.inj h]
    exact List.mem_cons_self _ _

/-- One pairing step preserves the invariant, assigns the processed
in-boundary triangle, and keeps all earlier assignments. -/
theorem pairStep_spec (tris : List LatticeTriangle) (te : List (List ℕ)) (g : Rng)
    (hg : ValidRng g) (s : PairState) (tid : ℕ)
    (hinv : PairInv tris te s) (htin : triInsideAt tris tid = true) :
    PairInv tris te (pairStep tris te g s tid) ∧
    (∃ v : ℤ, (pairStep tris te g s tid).asg[tid]? = some v ∧ v ≠ -1) ∧
    (∀ j : ℕ, ∀ v : ℤ, s.asg[j]? = some v → v ≠ -1 →
      (pairStep tris te g s tid).asg[j]? = some v) := by
  obtain ⟨p1, p2, p3, p4⟩ := hinv
  have htidlt : tid < s.asg.length := by
    have := triInsideAt_lt htin
    omega
  rw [pairStep]
  split
  next hnone =>
    exfalso
    have := List.getElem?_eq_none_iff.mp hnone
    omega
  next v hv =>
    by_cases hvne : v ≠ -1
    · rw [if_pos hvne]
      exact ⟨⟨p1, p2, p3, p4⟩, ⟨v, hv, hvne⟩, fun j w h1 _ => h1⟩
    · rw [if_neg hvne]
      push_neg at hvne
      subst hvne
      split
      next partner hhead =>
        have hpav : partner ∈ availableNeighborsOf tris s.asg tid :=
          (shuffleInPlace_perm g hg _ _).mem_iff.mp (mem_of_head?_eq_some hhead)
        have hpfacts := (List.mem_filter.mp hpav).2
        rw [Bool.and_eq_true] at hpfacts
        have hpin : triInsideAt tris partner = true := hpfacts.1
        have hpasg : s.asg[partner]? = some (-1) := by
          have := hpfacts.2
          rwa [beq_iff_eq] at this
        have hplt : partner < s.asg.length := by
          have := triInsideAt_lt hpin
          omega
        have hasg1tid : ((s.asg.set tid ((s.pairs.length : ℕ) : ℤ)).set partner
            ((s.pairs.length : ℕ) : ℤ))[tid]? = some ((s.pairs.length : ℕ) : ℤ) := by
          by_cases hpt : partner = tid
          · rw [hpt, List.getElem?_set_self (by simpa using htidlt)]
          · rw [List.getElem?_set_ne hpt, List.getElem?_set_self (by simpa using htidlt)]
        have hasg1p : ((s.asg.set tid ((s.pairs.length : ℕ) : ℤ)).set partner
            ((s.pairs.length : ℕ) : ℤ))[partner]? = some ((s.pairs.length : ℕ) : ℤ) := by
          rw [List.getElem?_set_self (by simpa using hplt)]
        have hasg1other : ∀ j : ℕ, j ≠ tid → j ≠ partner →
            ((s.asg.set tid ((s.pairs.length : ℕ) : ℤ)).set partner
              ((s.pairs.length : ℕ) : ℤ))[j]? = s.asg[j]? := by
          intro j hj1 hj2
          rw [List.getElem?_set_ne (fun hh => hj2 hh.symm),
            List.getElem?_set_ne (fun hh => hj1 hh.symm)]
        have htidsmem : ∀ x ∈ (if tid < partner then [tid, partner] else [partner, tid]),
            x = tid ∨ x = partner := by
          intro x hx
          split at hx
          · rcases List.mem_cons.mp hx with rfl | hx
            · exact Or.inl rfl
            · exact Or.inr (List.mem_singleton.mp hx)
          · rcases List.mem_cons.mp hx with rfl | hx
            · exact Or.inr rfl
            · exact Or.inl (List.mem_singleton.mp hx)
        have htidmem : tid ∈ (if tid < partner then [tid, partner] else [partner, tid]) ∧
            partner ∈ (if tid < partner then [tid, partner] else [partner, tid]) := by
          constructor <;> (split <;> simp)
        have htidslen : (if tid < partner then [tid, partner] else [partner, tid]).length = 2 := by
          split <;> rfl
        have hold : ∀ idx : ℕ, idx < s.pairs.length →
            ∀ t ∈ (s.pairs.getD idx default).triangleIds, t ≠ tid ∧ t ≠ partner := by
          intro idx hidx t ht
          have h3 := (p3 idx hidx).2.2 t ht
          constructor
          · intro hh
            rw [hh, hv] at h3
            have : ((-1 : ℤ)) = (idx : ℤ) := Option.some.inj h3.2
            omega
          · intro hh
            rw [hh, hpasg] at h3
            have : ((-1 : ℤ)) = (idx : ℤ) := Option.some.inj h3.2
            omega
        refine ⟨⟨?_, ?_, ?_, ?_⟩, ?_, ?_⟩
        · simp only [List.length_set]
          exact p1
        · -- assignment characterization
          intro j w hw hwne
          by_cases hj2 : j = partner
          · subst hj2
            rw [hasg1p] at hw
            refine ⟨s.pairs.length, (Option.some.inj hw).symm, ?_, ?_⟩
            · simp only [List.length_append, List.length_singleton]
              omega
            · rw [getD_append_self]
              exact htidmem.2
          · by_cases hj1 : j = tid
            · subst hj1
              rw [hasg1tid] at hw
              refine ⟨s.pairs.length, (Option.some.inj hw).symm, ?_, ?_⟩
              · simp only [List.length_append, List.length_singleton]
                omega
              · rw [getD_append_self]
                exact htidmem.1
            · rw [hasg1other j hj1 hj2] at hw
              obtain ⟨idx, hw1, hw2, hw3⟩ := p2 j w hw hwne
              refine ⟨idx, hw1, ?_, ?_⟩
              · simp only [List.length_append, List.length_singleton]
                omega
              · rw [getD_append_lt _ _ _ _ hw2]
                exact hw3
        · -- per-pair properties
          intro idx hidx
          simp only [List.length_append, List.length_singleton] at hidx
          by_cases hlt : idx < s.pairs.length
          · rw [getD_append_lt _ _ _ _ hlt]
            obtain ⟨q1, q2, q3⟩ := p3 idx hlt
            refine ⟨q1, q2, ?_⟩
            intro t ht
            obtain ⟨ht1, ht2⟩ := hold idx hlt t ht
            obtain ⟨r1, r2⟩ := q3 t ht
            exact ⟨r1, by rw [hasg1other t ht1 ht2]; exact r2⟩
          · have hidx' : idx = s.pairs.length := by omega
            subst hidx'
            rw [getD_append_self]
            refine ⟨rfl, Or.inr htidslen, ?_⟩
            intro t ht
            rcases htidsmem t ht with rfl | rfl
            · exact ⟨htin, hasg1tid⟩
            · exact ⟨hpin, hasg1p⟩
        · -- removed edge ids
          intro eid hmem
          rcases List.mem_append.mp hmem with hmem | hmem
          · obtain ⟨idx, hq1, hq2, a, b, hq3, hq4, hq5⟩ := p4 eid hmem
            refine ⟨idx, ?_, ?_, a, b, ?_, hq4, hq5⟩
            · simp only [List.length_append, List.length_singleton]
              omega
            · rw [getD_append_lt _ _ _ _ hq1]
              exact hq2
            · rw [getD_append_lt _ _ _ _ hq1]
              exact hq3
          · have heid : findSharedEdgeId (te.getD tid []) (te.getD partner []) = some eid := by
              rw [← Option.mem_def, ← Option.mem_toList]
              exact hmem
            have heid1 : eid ∈ te.getD tid [] :=
              List.mem_of_find?_eq_some heid
            have heid2 : eid ∈ te.getD partner [] := by
              have := List.find?_some heid
              exact List.elem_iff.mp this
            refine ⟨s.pairs.length, ?_, ?_, ?_⟩
            · simp only [List.length_append, List.length_singleton]
              omega
            · rw [getD_append_self]
              exact heid
            · rw [getD_append_self]
              by_cases hcmp : tid < partner
              · refine ⟨tid, partner, ?_, heid1, heid2⟩
                simp only [if_pos hcmp]
              · refine ⟨partner, tid, ?_, heid2, heid1⟩
                simp only [if_neg hcmp]
        · -- processed triangle assigned
          exact ⟨(s.pairs.length : ℤ), hasg1tid, by omega⟩
        · -- previous assignments preserved
          intro j w hw hwne
          have hj1 : j ≠ tid := by
            intro hh
            rw [hh, hv] at hw
            have : ((-1 : ℤ)) = w := Option.some.inj hw
            omega
          have hj2 : j ≠ partner := by
            intro hh
            rw [hh, hpasg] at hw
            have : ((-1 : ℤ)) = w := Option.some.inj hw
            omega
          rw [hasg1other j hj1 hj2, hw]
      next hhead =>
        have hasg1tid : (s.asg.set tid ((s.pairs.length : ℕ) : ℤ))[tid]? =
            some ((s.pairs.length : ℕ) : ℤ) := by
          rw [List.getElem?_set_self (by simpa using htidlt)]
        have hasg1other : ∀ j : ℕ, j ≠ tid →
            (s.asg.set tid ((s.pairs.length : ℕ) : ℤ))[j]? = s.asg[j]? := by
          intro j hj1
          rw [List.getElem?_set_ne (fun hh => hj1 hh.symm)]
        have hold : ∀ idx : ℕ, idx < s.pairs.length →
            ∀ t ∈ (s.pairs.getD idx default).triangleIds, t ≠ tid := by
          intro idx hidx t ht
          have h3 := (p3 idx hidx).2.2 t ht
          intro hh
          rw [hh, hv] at h3
          have : ((-1 : ℤ)) = (idx : ℤ) := Option.some.inj h3.2
          omega
        refine ⟨⟨?_, ?_, ?_, ?_⟩, ?_, ?_⟩
        · simp only [List.length_set]
          exact p1
        · intro j w hw hwne
          by_cases hj1 : j = tid
          · subst hj1
            rw [hasg1tid] at hw
            refine ⟨s.pairs.length, (Option.some.inj hw).symm, ?_, ?_⟩
            · simp only [List.length_append, List.length_singleton]
              omega
            · rw [getD_append_self]
              exact List.mem_singleton.mpr rfl
          · rw [hasg1other j hj1] at hw
            obtain ⟨idx, hw1, hw2, hw3⟩ := p2 j w hw hwne
            refine ⟨idx, hw1, ?_, ?_⟩
            · simp only [List.length_append, List.length_singleton]
              omega
            · rw [getD_append_lt _ _ _ _ hw2]
              exact hw3
        · intro idx hidx
          simp only [List.length_append, List.length_singleton] at hidx
          by_cases hlt : idx < s.pairs.length
          · rw [getD_append_lt _ _ _ _ hlt]
            obtain ⟨q1, q2, q3⟩ := p3 idx hlt
            refine ⟨q1, q2, ?_⟩
            intro t ht
            obtain ⟨r1, r2⟩ := q3 t ht
            exact ⟨r1, by rw [hasg1other t (hold idx hlt t ht)]; exact r2⟩
          · have hidx' : idx = s.pairs.length := by omega
            subst hidx'
            rw [getD_append_self]
            refine ⟨rfl, Or.inl rfl, ?_⟩
            intro t ht
            rcases List.mem_singleton.mp ht with rfl
            exact ⟨htin, hasg1tid⟩
        · intro eid hmem
          obtain ⟨idx, hq1, hq2, a, b, hq3, hq4, hq5⟩ := p4 eid hmem
          refine ⟨idx, ?_, ?_, a, b, ?_, hq4, hq5⟩
          · simp only [List.length_append, List.length_singleton]
            omega
          · rw [getD_append_lt _ _ _ _ hq1]
            exact hq2
          · rw [getD_append_lt _ _ _ _ hq1]
            exact hq3
        · exact ⟨(s.pairs.length : ℤ), hasg1tid, by omega⟩
        · intro j w hw hwne
          have hj1 : j ≠ tid := by
            intro hh
            rw [hh, hv] at hw
            have : ((-1 : ℤ)) = w := Option.some.inj hw
            omega
          rw [hasg1other j hj1, hw]

theorem pairFold_spec (tris : List LatticeTriangle) (te : List (List ℕ)) (g : Rng)
    (hg : ValidRng g) :
    ∀ (l : List ℕ) (s : PairState),
      PairInv tris te s → (∀ t ∈ l, triInsideAt tris t = true) →
      PairInv tris te (l.foldl (pairStep tris te g) s) ∧
      (∀ t ∈ l, ∃ v : ℤ, (l.foldl (pairStep tris te g) s).asg[t]? = some v ∧ v ≠ -1) ∧
      (∀ j : ℕ, ∀ v : ℤ, s.asg[j]? = some v → v ≠ -1 →
        (l.foldl (pairStep tris te g) s).asg[j]? = some v) := by
  intro l
  induction l with
  | nil =>
    intro s hinv _
    exact ⟨hinv, fun t ht => absurd ht (List.not_mem_nil _), fun j v h1 _ => h1⟩
  | cons t rest ih =>
    intro s hinv hall
    obtain ⟨s1, s2, s3⟩ := pairStep_spec tris te g hg s t hinv
      (hall t (List.mem_cons_self _ _))
    obtain ⟨i1, i2, i3⟩ := ih (pairStep tris te g s t) s1
      (fun u hu => hall u (List.mem_cons_of_mem _ hu))
    rw [List.foldl_cons]
    refine ⟨i1, ?_, ?_⟩
    · intro u hu
      rcases List.mem_cons.mp hu with rfl | hu
      · obtain ⟨v, hv1, hv2⟩ := s2
        exact ⟨v, i3 _ v hv1 hv2, hv2⟩
      · exact i2 u hu
    · intro j v h1 h2
      exact i3 j v (s3 j v h1 h2) h2

/-- The pairing state after the main loop: invariant plus full coverage of
the in-boundary triangles. -/
theorem pairStateOf_spec (o : PairingOptions) (hg : ValidRng o.random)
    (hT : triangleIdsAligned o.lattice.triangles = true) :
    PairInv o.lattice.triangles
      (buildTriangleEdges o.lattice.triangles o.lattice.edges) (pairStateOf o) ∧
    (∀ i : ℕ, i < o.lattice.triangles.length →
      (o.lattice.triangles.getD i default).insideBoundary = true →
      ∃ v : ℤ, (pairStateOf o).asg[i]? = some v ∧ v ≠ -1) := by
  have hinit : PairInv o.lattice.triangles
      (buildTriangleEdges o.lattice.triangles o.lattice.edges)
      ⟨List.replicate o.lattice.triangles.length (-1), [], [],
        (shuffleInPlace o.random (eligibleOf o) 0).2⟩ := by
    refine ⟨by simp, ?_, ?_, ?_⟩
    · intro j v hj hne
      rw [List.getElem?_replicate] at hj
      by_cases hlt : j < o.lattice.triangles.length
      · rw [if_pos hlt] at hj
        exact absurd (Option.some.inj hj).symm hne
      · rw [if_neg hlt] at hj
        exact absurd hj Option.noConfusion
    · intro idx hidx
      simp at hidx
    · intro eid hmem
      exact absurd hmem (List.not_mem_nil _)
  have heligin : ∀ t ∈ (shuffleInPlace o.random (eligibleOf o) 0).1,
      triInsideAt o.lattice.triangles t = true := by
    intro t ht
    have hmem : t ∈ eligibleOf o :=
      (shuffleInPlace_perm o.random hg _ _).mem_iff.mp ht
    rw [eligibleOf] at hmem
    obtain ⟨u, hu, rfl⟩ := List.mem_map.mp hmem
    have hu' := List.mem_filter.mp hu
    rw [triInsideAt_eq (triangleIdsAligned_self hT u hu'.1)]
    exact hu'.2
  obtain ⟨i1, i2, _⟩ := pairFold_spec o.lattice.triangles
    (buildTriangleEdges o.lattice.triangles o.lattice.edges) o.random hg
    (shuffleInPlace o.random (eligibleOf o) 0).1
    ⟨List.replicate o.lattice.triangles.length (-1), [], [],
      (shuffleInPlace o.random (eligibleOf o) 0).2⟩ hinit heligin
  refine ⟨i1, ?_⟩
  intro i hi hin
  have hgetD : o.lattice.triangles.getD i default = o.lattice.triangles[i] := by
    rw [List.getD_eq_getElem?_getD, List.getElem?_eq_getElem hi]
    rfl
  have hidi : (o.lattice.triangles[i]).id = i := triangleIdsAligned_getElem hT i hi
  have hmemel : i ∈ eligibleOf o := by
    rw [eligibleOf]
    refine List.mem_map.mpr ⟨o.lattice.triangles[i], ?_, hidi⟩
    refine List.mem_filter.mpr ⟨List.getElem_mem hi, ?_⟩
    rw [← hgetD]
    exact hin
  have hmemsh : i ∈ (shuffleInPlace o.random (eligibleOf o) 0).1 :=
    (shuffleInPlace_perm o.random hg _ _).mem_iff.mpr hmemel
  exact i2 i hmemsh

/-- Pairing partitions the in-boundary triangles: every in-boundary index
lands in exactly one pair, out-of-boundary indices keep `-1` and appear in
no pair. -/
theorem pair_partition (o : PairingOptions) (hg : ValidRng o.random)
    (hT : triangleIdsAligned o.lattice.triangles = true) :
    ∀ i : ℕ, i < o.lattice.triangles.length →
      (((o.lattice.triangles.getD i default).insideBoundary = true →
        ∃ q : ℕ, q < (pairTownscaperTriangles o).pairs.length ∧
          (pairTownscaperTriangles o).triangleToPair[i]? = some (q : ℤ) ∧
          ((pairTownscaperTriangles o).pairs.getD q default).id = q ∧
          i ∈ ((pairTownscaperTriangles o).pairs.getD q default).triangleIds ∧
          (∀ q' : ℕ, q' < (pairTownscaperTriangles o).pairs.length →
            i ∈ ((pairTownscaperTriangles o).pairs.getD q' default).triangleIds →
            q' = q)) ∧
       ((o.lattice.triangles.getD i default).insideBoundary = false →
        (pairTownscaperTriangles o).triangleToPair[i]? = some (-1) ∧
        ∀ pr ∈ (pairTownscaperTriangles o).pairs, i ∉ pr.triangleIds)) := by
  obtain ⟨⟨p1, p2, p3, p4⟩, hcov⟩ := pairStateOf_spec o hg hT
  intro i hi
  have hres1 : (pairTownscaperTriangles o).pairs = (pairStateOf o).pairs := rfl
  have hres2 : (pairTownscaperTriangles o).triangleToPair = (pairStateOf o).asg := rfl
  rw [hres1, hres2]
  constructor
  · intro hin
    obtain ⟨v, hv, hvne⟩ := hcov i hi hin
    obtain ⟨q, rfl, hq, hqm⟩ := p2 i v hv hvne
    refine ⟨q, hq, hv, (p3 q hq).1, hqm, ?_⟩
    intro q' hq' hm'
    have := ((p3 q' hq').2.2 i hm').2
    rw [hv] at this
    have h2 : ((q : ℤ)) = (q' : ℤ) := Option.some.inj this
    omega
  · intro hout
    have hilt : i < (pairStateOf o).asg.length := by omega
    obtain ⟨v, hv⟩ : ∃ v, (pairStateOf o).asg[i]? = some v :=
      ⟨_, List.getElem?_eq_getElem hilt⟩
    have hvm1 : v = -1 := by
      by_contra hne
      obtain ⟨q, rfl, hq, hqm⟩ := p2 i v hv hne
      have := ((p3 q hq).2.2 i hqm).1
      rw [triInsideAt_eq (List.getElem?_eq_getElem hi)] at this
      have hgetD : o.lattice.triangles.getD i default = o.lattice.triangles[i] := by
        rw [List.getD_eq_getElem?_getD, List.getElem?_eq_getElem hi]
        rfl
      rw [← hgetD, hout] at this
      exact Bool.false_ne_true this
    subst hvm1
    refine ⟨hv, ?_⟩
    intro pr hpr hprm
    obtain ⟨q, hq, rfl⟩ := List.mem_iff_getElem.mp hpr
    have hgetq : (pairStateOf o).pairs[q] = (pairStateOf o).pairs.getD q default := by
      rw [List.getD_eq_getElem?_getD, List.getElem?_eq_getElem hq]
      rfl
    rw [hgetq] at hprm
    have := ((p3 q hq).2.2 i hprm).2
    rw [hv] at this
    have h2 : ((-1 : ℤ)) = (q : ℤ) := Option.some.inj this
    omega

/-- C1: partition completeness.  For every lattice (with the data-model
id-equals-index invariant), every merge probability and every valid random
source, `clusterTownscaperLattice` assigns each in-boundary triangle to
exactly one cluster (`triangleToCluster` names it) and no out-of-boundary
triangle to any cluster (`-1` sentinel); likewise `pairTownscaperTriangles`
puts each in-boundary triangle in exactly one pair and out-of-boundary
triangles in none. -/
theorem townscaper_partition_completeness (lat : Lattice) (p : ℚ) (g g' : Rng)
    (hg : ValidRng g) (hg' : ValidRng g')
    (hT : triangleIdsAligned lat.triangles = true)
    (i : ℕ) (hi : i < lat.triangles.length) :
    (((lat.triangles.getD i default).insideBoundary = true →
        ∃ c : ℕ, c < (clusterTownscaperLattice ⟨lat, p, g⟩).clusters.length ∧
          (clusterTownscaperLattice ⟨lat, p, g⟩).triangleToCluster[i]? = some (c : ℤ) ∧
          ((clusterTownscaperLattice ⟨lat, p, g⟩).clusters.getD c default).id = c ∧
          i ∈ ((clusterTownscaperLattice ⟨lat, p, g⟩).clusters.getD c default).triangleIds ∧
          (∀ c' : ℕ, c' < (clusterTownscaperLattice ⟨lat, p, g⟩).clusters.length →
            i ∈ ((clusterTownscaperLattice ⟨lat, p, g⟩).clusters.getD c' default).triangleIds →
            c' = c)) ∧
     ((lat.triangles.getD i default).insideBoundary = false →
        (clusterTownscaperLattice ⟨lat, p, g⟩).triangleToCluster[i]? = some (-1) ∧
        ∀ cl ∈ (clusterTownscaperLattice ⟨lat, p, g⟩).clusters, i ∉ cl.triangleIds)) ∧
    (((lat.triangles.getD i default).insideBoundary = true →
        ∃ q : ℕ, q < (pairTownscaperTriangles ⟨lat, g'⟩).pairs.length ∧
          (pairTownscaperTriangles ⟨lat, g'⟩).triangleToPair[i]? = some (q : ℤ) ∧
          ((pairTownscaperTriangles ⟨lat, g'⟩).pairs.getD q default).id = q ∧
          i ∈ ((pairTownscaperTriangles ⟨lat, g'⟩).pairs.getD q default).triangleIds ∧
          (∀ q' : ℕ, q' < (pairTownscaperTriangles ⟨lat, g'⟩).pairs.length →
            i ∈ ((pairTownscaperTriangles ⟨lat, g'⟩).pairs.getD q' default).triangleIds →
            q' = q)) ∧
     ((lat.triangles.getD i default).insideBoundary = false →
        (pairTownscaperTriangles ⟨lat, g'⟩).triangleToPair[i]? = some (-1) ∧
        ∀ pr ∈ (pairTownscaperTriangles ⟨lat, g'⟩).pairs, i ∉ pr.triangleIds)) :=
  ⟨cluster_partition ⟨lat, p, g⟩ hg hT i hi, pair_partition ⟨lat, g'⟩ hg' hT i hi⟩

/-- C1 witness: the partition property evaluated on the concrete lattice
`lat114`, merge probability 1/2, the constant-1/2 random source, and
triangle index 0. -/
theorem townscaper_partition_completeness_witness :
    (((lat114.triangles.getD 0 default).insideBoundary = true →
        ∃ c : ℕ, c < (clusterTownscaperLattice ⟨lat114, 1/2, fun _ => 1/2⟩).clusters.length ∧
          (clusterTownscaperLattice ⟨lat114, 1/2, fun _ => 1/2⟩).triangleToCluster[0]? =
            some (c : ℤ) ∧
          ((clusterTownscaperLattice ⟨lat114, 1/2, fun _ => 1/2⟩).clusters.getD c default).id
            = c ∧
          0 ∈ ((clusterTownscaperLattice ⟨lat114, 1/2,
            fun _ => 1/2⟩).clusters.getD c default).triangleIds ∧
          (∀ c' : ℕ,
            c' < (clusterTownscaperLattice ⟨lat114, 1/2, fun _ => 1/2⟩).clusters.length →
            0 ∈ ((clusterTownscaperLattice ⟨lat114, 1/2,
              fun _ => 1/2⟩).clusters.getD c' default).triangleIds →
            c' = c)) ∧
     ((lat114.triangles.getD 0 default).insideBoundary = false →
        (clusterTownscaperLattice ⟨lat114, 1/2, fun _ => 1/2⟩).triangleToCluster[0]? =
          some (-1) ∧
        ∀ cl ∈ (clusterTownscaperLattice ⟨lat114, 1/2, fun _ => 1/2⟩).clusters,
          0 ∉ cl.triangleIds)) ∧
    (((lat114.triangles.getD 0 default).insideBoundary = true →
        ∃ q : ℕ, q < (pairTownscaperTriangles ⟨lat114, fun _ => 1/2⟩).pairs.length ∧
          (pairTownscaperTriangles ⟨lat114, fun _ => 1/2⟩).triangleToPair[0]? =
            some (q : ℤ) ∧
          ((pairTownscaperTriangles ⟨lat114, fun _ => 1/2⟩).pairs.getD q default).id = q ∧
          0 ∈ ((pairTownscaperTriangles ⟨lat114,
            fun _ => 1/2⟩).pairs.getD q default).triangleIds ∧
          (∀ q' : ℕ,
            q' < (pairTownscaperTriangles ⟨lat114, fun _ => 1/2⟩).pairs.length →
            0 ∈ ((pairTownscaperTriangles ⟨lat114,
              fun _ => 1/2⟩).pairs.getD q' default).triangleIds →
            q' = q)) ∧
     ((lat114.triangles.getD 0 default).insideBoundary = false →
        (pairTownscaperTriangles ⟨lat114, fun _ => 1/2⟩).triangleToPair[0]? = some (-1) ∧
        ∀ pr ∈ (pairTownscaperTriangles ⟨lat114, fun _ => 1/2⟩).pairs,
          0 ∉ pr.triangleIds)) :=
  townscaper_partition_completeness lat114 (1/2) (fun _ => 1/2) (fun _ => 1/2)
    (fun _ => ⟨by norm_num, by norm_num⟩) (fun _ => ⟨by norm_num, by norm_num⟩)
    (by decide) 0 (by decide)

/-! ### Triangle-edge incidence lists and pairing parity -/

theorem teInner_spec (pushedId : ℕ) :
    ∀ (tids : List ℕ) (te : List (List ℕ)),
      ((tids.foldl (fun te tid => te.modify (fun l => l ++ [pushedId]) tid) te).length =
        te.length) ∧
      (∀ t x : ℕ,
        x ∈ (tids.foldl (fun te tid => te.modify (fun l => l ++ [pushedId]) tid) te).getD t []
        ↔ x ∈ te.getD t [] ∨ (x = pushedId ∧ t ∈ tids ∧ t < te.length)) := by
  intro tids
  induction tids with
  | nil =>
    intro te
    refine ⟨rfl, fun t x => ?_⟩
    simp
  | cons tid rest ih =>
    intro te
    obtain ⟨l1, l2⟩ := ih (te.modify (fun l => l ++ [pushedId]) tid)
    rw [List.foldl_cons]
    have hmodlen : (te.modify (fun l => l ++ [pushedId]) tid).length = te.length :=
      List.length_modify _ _ _
    refine ⟨by rw [l1, hmodlen], ?_⟩
    intro t x
    rw [l2 t x, hmodlen]
    have hmod : (te.modify (fun l => l ++ [pushedId]) tid).getD t [] =
        if t = tid ∧ t < te.length then te.getD t [] ++ [pushedId] else te.getD t [] := by
      rw [List.getD_eq_getElem?_getD, List.getD_eq_getElem?_getD, List.getElem?_modify]
      by_cases h1 : t = tid
      · subst h1
        cases hx : te[t]? with
        | none =>
          have hnlt : ¬ t < te.length := by
            intro hc
            rw [List.getElem?_eq_getElem hc] at hx
            exact Option.noConfusion hx
          rw [if_neg (by omega)]
          rfl
        | some l =>
          have hlt : t < te.length := (List.getElem?_eq_some_iff.mp hx).1
          rw [if_pos ⟨rfl, hlt⟩]
          simp
      · rw [if_neg (by omega)]
        have hne : tid ≠ t := fun hh => h1 hh.symm
        cases te[t]? with
        | none => rfl
        | some l => simp [hne]
    rw [hmod]
    by_cases hcase : t = tid ∧ t < te.length
    · rw [if_pos hcase]
      constructor
      · rintro (hx | hx)
        · rcases List.mem_append.mp hx with hx | hx
          · exact Or.inl hx
          · refine Or.inr ⟨List.mem_singleton.mp hx, ?_, hcase.2⟩
            rw [hcase.1]
            exact List.mem_cons_self _ _
        · exact Or.inr ⟨hx.1, List.mem_cons_of_mem _ hx.2.1, hx.2.2⟩
      · rintro (hx | hx)
        · exact Or.inl (List.mem_append.mpr (Or.inl hx))
        · exact Or.inl (List.mem_append.mpr (Or.inr (List.mem_singleton.mpr hx.1)))
    · rw [if_neg hcase]
      constructor
      · rintro (hx | hx)
        · exact Or.inl hx
        · exact Or.inr ⟨hx.1, List.mem_cons_of_mem _ hx.2.1, hx.2.2⟩
      · rintro (hx | hx)
        · exact Or.inl hx
        · rcases List.mem_cons.mp hx.2.1 with rfl | hmem
          · exact absurd ⟨rfl, hx.2.2⟩ hcase
          · exact Or.inr ⟨hx.1, hmem, hx.2.2⟩

theorem teOuter_spec :
    ∀ (edges : List LatticeEdge) (te : List (List ℕ)),
      ((edges.foldl (fun te edge =>
        edge.triangles.foldl (fun te tid =>
          te.modify (fun l => l ++ [edge.id]) tid) te) te).length = te.length) ∧
      (∀ t x : ℕ,
        x ∈ (edges.foldl (fun te edge =>
          edge.triangles.foldl (fun te tid =>
            te.modify (fun l => l ++ [edge.id]) tid) te) te).getD t []
        ↔ x ∈ te.getD t [] ∨
          ∃ e ∈ edges, e.id = x ∧ t ∈ e.triangles ∧ t < te.length) := by
  intro edges
  induction edges with
  | nil =>
    intro te
    refine ⟨rfl, fun t x => ?_⟩
    simp
  | cons e rest ih =>
    intro te
    obtain ⟨j1, j2⟩ := teInner_spec e.id e.triangles te
    obtain ⟨l1, l2⟩ := ih (e.triangles.foldl (fun te tid =>
      te.modify (fun l => l ++ [e.id]) tid) te)
    rw [List.foldl_cons]
    refine ⟨by rw [l1, j1], ?_⟩
    intro t x
    rw [l2 t x, j2 t x, j1]
    constructor
    · rintro ((hx | hx) | ⟨e', he1, he2, he3, he4⟩)
      · exact Or.inl hx
      · exact Or.inr ⟨e, List.mem_cons_self _ _, hx.1.symm, hx.2.1, hx.2.2⟩
      · exact Or.inr ⟨e', List.mem_cons_of_mem _ he1, he2, he3, he4⟩
    · rintro (hx | ⟨e', he1, he2, he3, he4⟩)
      · exact Or.inl (Or.inl hx)
      · rcases List.mem_cons.mp he1 with rfl | he1
        · exact Or.inl (Or.inr ⟨he2.symm, he3, he4⟩)
        · exact Or.inr ⟨e', he1, he2, he3, he4⟩

theorem map_nil_getD (tris : List LatticeTriangle) (t : ℕ) :
    (tris.map (fun _ => ([] : List ℕ))).getD t [] = [] := by
  rw [List.getD_eq_getElem?_getD, List.getElem?_map]
  cases tris[t]? <;> rfl

theorem mem_buildTriangleEdges (tris : List LatticeTriangle) (edges : List LatticeEdge)
    (t x : ℕ) :
    x ∈ (buildTriangleEdges tris edges).getD t [] ↔
      ∃ e ∈ edges, e.id = x ∧ t ∈ e.triangles ∧ t < tris.length := by
  rw [buildTriangleEdges]
  have h := (teOuter_spec edges (tris.map (fun _ => ([] : List ℕ)))).2 t x
  rw [h, map_nil_getD]
  simp only [List.not_mem_nil, false_or, List.length_map]

theorem countP_set_flip' {l : List ℤ} (p : ℤ → Bool) :
    ∀ {i : ℕ} {x : ℤ}, ∀ h : i < l.length, p l[i] = false → p x = true →
      (l.set i x).countP p = l.countP p + 1 := by
  induction l with
  | nil => intro i x h; simp at h
  | cons a rest ih =>
    intro i x h hold hnew
    cases i with
    | zero =>
      simp only [List.set_cons_zero, List.countP_cons]
      simp only [List.getElem_cons_zero] at hold
      rw [hold, hnew]
      simp
    | succ j =>
      simp only [List.set_cons_succ, List.countP_cons]
      simp only [List.getElem_cons_succ] at hold
      have := ih (Nat.lt_of_succ_lt_succ h) hold hnew
      omega

theorem pairs_sum_parity :
    ∀ (pairs : List TownscaperPair),
      (∀ pr ∈ pairs, pr.triangleIds.length = 1 ∨ pr.triangleIds.length = 2) →
      ((pairs.map (fun pr => pr.triangleIds.length)).sum) % 2 =
        ((pairs.filter (fun pr => pr.triangleIds.length == 1)).length) % 2 := by
  intro pairs
  induction pairs with
  | nil => intro _; rfl
  | cons pr rest ih =>
    intro h
    have hrest := ih (fun q hq => h q (List.mem_cons_of_mem _ hq))
    rcases h pr (List.mem_cons_self _ _) with h1 | h2
    · rw [List.map_cons, List.sum_cons, h1,
        List.filter_cons_of_pos (by rw [h1]; rfl), List.length_cons]
      omega
    · rw [List.map_cons, List.sum_cons, h2,
        List.filter_cons_of_neg (by rw [h2]; exact Bool.noConfusion)]
      omega

/-- With no self-neighbors and valid draws, each pairing step keeps the
running equality between the total of pair sizes and the number of
assigned triangles. -/
theorem pairStep_sum (tris : List LatticeTriangle) (te : List (List ℕ)) (g : Rng)
    (hg : ValidRng g) (hNS : noSelfNeighbor tris = true) (s : PairState) (tid : ℕ)
    (hlen : s.asg.length = tris.length)
    (hsum : (s.pairs.map (fun pr => pr.triangleIds.length)).sum =
      s.asg.countP (fun v => !(v == (-1 : ℤ)))) :
    ((pairStep tris te g s tid).pairs.map (fun pr => pr.triangleIds.length)).sum =
      (pairStep tris te g s tid).asg.countP (fun v => !(v == (-1 : ℤ))) ∧
    (pairStep tris te g s tid).asg.length = tris.length := by
  have hpidne : ¬ (((s.pairs.length : ℕ) : ℤ) == (-1 : ℤ)) = true := by
    rw [beq_iff_eq]
    omega
  have hpidp : (fun v => !(v == (-1 : ℤ))) ((s.pairs.length : ℕ) : ℤ) = true := by
    simp only [Bool.not_eq_true']
    rw [beq_eq_false_iff_ne]
    omega
  rw [pairStep]
  split
  next hnone => exact ⟨hsum, hlen⟩
  next v hv =>
    by_cases hvne : v ≠ -1
    · rw [if_pos hvne]
      exact ⟨hsum, hlen⟩
    · rw [if_neg hvne]
      push_neg at hvne
      subst hvne
      have htidlt : tid < s.asg.length := (List.getElem?_eq_some_iff.mp hv).1
      have htidval : s.asg[tid] = -1 := (List.getElem?_eq_some_iff.mp hv).2
      have htidp : (fun v => !(v == (-1 : ℤ))) (s.asg[tid]) = false := by
        rw [htidval]
        rfl
      split
      next partner hhead =>
        have hpav : partner ∈ availableNeighborsOf tris s.asg tid :=
          (shuffleInPlace_perm g hg _ _).mem_iff.mp (mem_of_head?_eq_some hhead)
        have hpfacts := (List.mem_filter.mp hpav).2
        rw [Bool.and_eq_true] at hpfacts
        have hpasg : s.asg[partner]? = some (-1) := by
          have := hpfacts.2
          rwa [beq_iff_eq] at this
        have hplt : partner < s.asg.length := (List.getElem?_eq_some_iff.mp hpasg).1
        have hpneq : partner ≠ tid := by
          intro hh
          subst hh
          have hmem2 : partner ∈ neighborIdsOf tris partner :=
            (List.mem_filter.mp hpav).1
          have hptris : partner < tris.length := by omega
          rw [noSelfNeighbor, List.all_eq_true] at hNS
          have hns := hNS partner (List.mem_range.mpr hptris)
          rw [Bool.not_eq_true', decide_eq_false_iff_not] at hns
          have hnb : neighborIdsOf tris partner = (tris.getD partner default).neighbors := by
            rw [neighborIdsOf, List.getD_eq_getElem?_getD, List.getElem?_eq_getElem hptris]
            rfl
          rw [hnb] at hmem2
          exact hns hmem2
        have hstep1 : (s.asg.set tid ((s.pairs.length : ℕ) : ℤ)).countP
            (fun v => !(v == (-1 : ℤ))) =
            s.asg.countP (fun v => !(v == (-1 : ℤ))) + 1 :=
          countP_set_flip' _ htidlt htidp hpidp
        have hplt2 : partner < (s.asg.set tid ((s.pairs.length : ℕ) : ℤ)).length := by
          simpa using hplt
        have hval2 : (s.asg.set tid ((s.pairs.length : ℕ) : ℤ))[partner] = -1 := by
          rw [List.getElem_set_ne (fun hh => hpneq hh.symm) hplt2]
          exact (List.getElem?_eq_some_iff.mp hpasg).2
        have hstep2 : ((s.asg.set tid ((s.pairs.length : ℕ) : ℤ)).set partner
            ((s.pairs.length : ℕ) : ℤ)).countP (fun v => !(v == (-1 : ℤ))) =
            (s.asg.set tid ((s.pairs.length : ℕ) : ℤ)).countP
              (fun v => !(v == (-1 : ℤ))) + 1 :=
          countP_set_flip' _ hplt2 (by rw [hval2]; rfl) hpidp
        have htidslen : (if tid < partner then [tid, partner]
            else [partner, tid]).length = 2 := by
          split <;> rfl
        constructor
        · simp only [List.map_append, List.sum_append, List.map_cons, List.map_nil,
            List.sum_cons, List.sum_nil, htidslen, hstep2, hstep1, hsum]
          omega
        · simp only [List.length_set]
          exact hlen
      next hhead =>
        have hstep1 : (s.asg.set tid ((s.pairs.length : ℕ) : ℤ)).countP
            (fun v => !(v == (-1 : ℤ))) =
            s.asg.countP (fun v => !(v == (-1 : ℤ))) + 1 :=
          countP_set_flip' _ htidlt htidp hpidp
        constructor
        · simp only [List.map_append, List.sum_append, List.map_cons, List.map_nil,
            List.sum_cons, List.sum_nil, List.length_cons, List.length_nil, hstep1, hsum]
          omega
        · simp only [List.length_set]
          exact hlen

theorem pairFold_sum (tris : List LatticeTriangle) (te : List (List ℕ)) (g : Rng)
    (hg : ValidRng g) (hNS : noSelfNeighbor tris = true) :
    ∀ (l : List ℕ) (s : PairState),
      s.asg.length = tris.length →
      (s.pairs.map (fun pr => pr.triangleIds.length)).sum =
        s.asg.countP (fun v => !(v == (-1 : ℤ))) →
      ((l.foldl (pairStep tris te g) s).pairs.map
        (fun pr => pr.triangleIds.length)).sum =
        (l.foldl (pairStep tris te g) s).asg.countP (fun v => !(v == (-1 : ℤ))) ∧
      (l.foldl (pairStep tris te g) s).asg.length = tris.length := by
  intro l
  induction l with
  | nil => intro s h1 h2; exact ⟨h2, h1⟩
  | cons t rest ih =>
    intro s h1 h2
    obtain ⟨k1, k2⟩ := pairStep_sum tris te g hg hNS s t h1 h2
    rw [List.foldl_cons]
    exact ih (pairStep tris te g s t) k2 k1

/-- After the pairing loop, the number of assigned entries equals the
number of in-boundary triangles. -/
theorem pairStateOf_countP (o : PairingOptions) (hg : ValidRng o.random)
    (hT : triangleIdsAligned o.lattice.triangles = true) :
    (pairStateOf o).asg.countP (fun v => !(v == (-1 : ℤ))) =
      insideCount o.lattice.triangles := by
  obtain ⟨⟨p1, p2, p3, _⟩, hcov⟩ := pairStateOf_spec o hg hT
  rw [insideCount, ← List.countP_eq_length_filter]
  refine countP_eq_of_pointwise _ _ _ _ p1 ?_
  intro j h1 h2
  have hj : (pairStateOf o).asg[j]? = some (pairStateOf o).asg[j] :=
    List.getElem?_eq_getElem h1
  have hgd : o.lattice.triangles.getD j default = o.lattice.triangles[j] := by
    rw [List.getD_eq_getElem?_getD, List.getElem?_eq_getElem h2]
    rfl
  by_cases hin : (o.lattice.triangles[j]).insideBoundary = true
  · obtain ⟨v, hv, hvne⟩ := hcov j h2 (by rw [hgd]; exact hin)
    have hveq : (pairStateOf o).asg[j] = v := by
      rw [hj] at hv
      exact Option.some.inj hv
    rw [hveq, hin]
    simp only [Bool.not_eq_true']
    rw [beq_eq_false_iff_ne]
    exact hvne
  · rw [Bool.not_eq_true] at hin
    rw [hin]
    simp only [Bool.not_eq_false']
    rw [beq_iff_eq]
    by_contra hne
    obtain ⟨q, hq1, hq2, hq3⟩ := p2 j _ hj hne
    have hti := ((p3 q hq2).2.2 j hq3).1
    rw [triInsideAt_eq (List.getElem?_eq_getElem h2)] at hti
    rw [hti] at hin
    exact Bool.noConfusion hin

/-- Every id recorded in a triangle's `triangleEdges` list names a
position-aligned lattice edge whose `triangles` list contains that
triangle. -/
theorem te_mem_edge (tris : List LatticeTriangle) (edges : List LatticeEdge)
    (hE : edgeIdsAligned edges = true) (a eid : ℕ)
    (h : eid ∈ (buildTriangleEdges tris edges).getD a []) :
    eid < edges.length ∧ a ∈ (edges.getD eid default).triangles := by
  obtain ⟨e, he, heid, hat, _⟩ := (mem_buildTriangleEdges tris edges a eid).mp h
  obtain ⟨j, hj, rfl⟩ := List.mem_iff_getElem.mp he
  have hid := edgeIdsAligned_getElem hE j hj
  have hje : j = eid := by rw [← hid, heid]
  subst hje
  refine ⟨hj, ?_⟩
  have hgd : edges.getD j default = edges[j] := by
    rw [List.getD_eq_getElem?_getD, List.getElem?_eq_getElem hj]
    rfl
  rw [hgd]
  exact hat

/-- C4 (amended): on a position-aligned, self-neighbor-free lattice with an
odd number of in-boundary triangles and a valid random source, the pairing
strategy produces an odd number (hence at least one, but not necessarily
exactly one) of single-triangle pairs, every pair holds one or two
triangles, and every removed edge id is a valid lattice edge id whose edge
is referenced by both triangles of the pair whose merge removed it. -/
theorem odd_pairing_singleton_parity (o : PairingOptions)
    (hg : ValidRng o.random)
    (hT : triangleIdsAligned o.lattice.triangles = true)
    (hE : edgeIdsAligned o.lattice.edges = true)
    (hNS : noSelfNeighbor o.lattice.triangles = true)
    (hodd : insideCount o.lattice.triangles % 2 = 1) :
    ((pairTownscaperTriangles o).pairs.filter
        (fun pr => pr.triangleIds.length == 1)).length % 2 = 1 ∧
    1 ≤ ((pairTownscaperTriangles o).pairs.filter
        (fun pr => pr.triangleIds.length == 1)).length ∧
    (∀ pr ∈ (pairTownscaperTriangles o).pairs,
      pr.triangleIds.length = 1 ∨ pr.triangleIds.length = 2) ∧
    (∀ eid ∈ (pairTownscaperTriangles o).removedEdgeIds,
      eid < o.lattice.edges.length ∧
      ∃ pr ∈ (pairTownscaperTriangles o).pairs,
        pr.sharedEdgeId = some eid ∧
        ∃ a b : ℕ, pr.triangleIds = [a, b] ∧
          a ∈ (o.lattice.edges.getD eid default).triangles ∧
          b ∈ (o.lattice.edges.getD eid default).triangles) := by
  obtain ⟨⟨p1, p2, p3, p4⟩, hcov⟩ := pairStateOf_spec o hg hT
  have hres1 : (pairTownscaperTriangles o).pairs = (pairStateOf o).pairs := rfl
  have hlen12 : ∀ pr ∈ (pairStateOf o).pairs,
      pr.triangleIds.length = 1 ∨ pr.triangleIds.length = 2 := by
    intro pr hpr
    obtain ⟨q, hq, rfl⟩ := List.mem_iff_getElem.mp hpr
    have hgd : (pairStateOf o).pairs.getD q default = (pairStateOf o).pairs[q] := by
      rw [List.getD_eq_getElem?_getD, List.getElem?_eq_getElem hq]
      rfl
    have := (p3 q hq).2.1
    rw [hgd] at this
    exact this
  have hsum : ((pairStateOf o).pairs.map (fun pr => pr.triangleIds.length)).sum =
      (pairStateOf o).asg.countP (fun v => !(v == (-1 : ℤ))) := by
    have hinit0 : (List.replicate o.lattice.triangles.length
        ((-1 : ℤ))).countP (fun v => !(v == (-1 : ℤ))) = 0 := by
      rw [List.countP_eq_length_filter, List.length_eq_zero, List.filter_eq_nil_iff]
      intro a ha
      rw [List.eq_of_mem_replicate ha]
      decide
    exact (pairFold_sum o.lattice.triangles
      (buildTriangleEdges o.lattice.triangles o.lattice.edges) o.random hg hNS
      (shuffleInPlace o.random (eligibleOf o) 0).1
      ⟨List.replicate o.lattice.triangles.length (-1), [], [],
        (shuffleInPlace o.random (eligibleOf o) 0).2⟩
      (by simp) (by simp only [List.map_nil, List.sum_nil]; exact hinit0.symm)).1
  have hcnt := pairStateOf_countP o hg hT
  have hpar := pairs_sum_parity (pairStateOf o).pairs hlen12
  have hfil : ((pairStateOf o).pairs.filter
      (fun pr => pr.triangleIds.length == 1)).length % 2 = 1 := by
    rw [← hpar, hsum, hcnt, hodd]
  refine ⟨by rw [hres1]; exact hfil, by rw [hres1]; omega, ?_, ?_⟩
  · rw [hres1]
    exact hlen12
  · intro eid hmem
    have hmem' : eid ∈ (pairStateOf o).removedEdgeIds := by
      have : (pairTownscaperTriangles o).removedEdgeIds =
          (pairStateOf o).removedEdgeIds.insertionSort (· ≤ ·) := rfl
      rw [this] at hmem
      exact mem_insertionSortNat.mp hmem
    obtain ⟨idx, hidx, hsh, a, b, hab, hta, htb⟩ := p4 eid hmem'
    obtain ⟨helt, hamem⟩ := te_mem_edge o.lattice.triangles o.lattice.edges hE a eid hta
    obtain ⟨_, hbmem⟩ := te_mem_edge o.lattice.triangles o.lattice.edges hE b eid htb
    refine ⟨helt, (pairStateOf o).pairs.getD idx default, ?_, hsh, a, b, hab, hamem, hbmem⟩
    rw [hres1, List.getD_eq_getElem?_getD, List.getElem?_eq_getElem hidx]
    exact List.getElem_mem hidx

/-- Witness for the amended C4 theorem: the lattice `latIso` with three
in-boundary triangles and the constant-half random source satisfy every
hypothesis, so its pairing has an odd number of singleton pairs. -/
theorem odd_pairing_singleton_parity_witness :
    ValidRng (fun _ => (1 : ℚ) / 2) ∧
    triangleIdsAligned latIso.triangles = true ∧
    edgeIdsAligned latIso.edges = true ∧
    noSelfNeighbor latIso.triangles = true ∧
    insideCount latIso.triangles % 2 = 1 ∧
    ((pairTownscaperTriangles ⟨latIso, fun _ => (1 : ℚ) / 2⟩).pairs.filter
        (fun pr => pr.triangleIds.length == 1)).length % 2 = 1 := by
  have hg : ValidRng (fun _ => (1 : ℚ) / 2) := by
    intro n
    constructor <;> norm_num
  have hT : triangleIdsAligned latIso.triangles = true := by decide
  have hE : edgeIdsAligned latIso.edges = true := by decide
  have hNS : noSelfNeighbor latIso.triangles = true := by decide
  have hodd : insideCount latIso.triangles % 2 = 1 := by decide
  exact ⟨hg, hT, hE, hNS, hodd,
    (odd_pairing_singleton_parity ⟨latIso, fun _ => (1 : ℚ) / 2⟩ hg hT hE hNS hodd).1⟩

/-- C10: output consistency of `clusterTownscaperLattice` on a
position-aligned lattice with a valid random source: `triangleToCluster`
names a cluster exactly when the triangle appears in that cluster's
`triangleIds`; every cluster's `triangleIds` and `edgeIds` are strictly
ascending; and each edge's `edgeToClusters` entry is the strictly
ascending list of exactly the cluster ids owning a triangle incident to
that edge. -/
theorem clustering_output_consistency (o : ClusteringOptions) (hg : ValidRng o.random)
    (hT : triangleIdsAligned o.lattice.triangles = true)
    (hE : edgeIdsAligned o.lattice.edges = true) :
    (∀ t : ℕ, t < o.lattice.triangles.length →
      ∀ c : ℕ, c < (clusterTownscaperLattice o).clusters.length →
        ((clusterTownscaperLattice o).triangleToCluster[t]? = some (c : ℤ) ↔
          t ∈ ((clusterTownscaperLattice o).clusters.getD c default).triangleIds)) ∧
    (∀ cl ∈ (clusterTownscaperLattice o).clusters,
      cl.triangleIds.Pairwise (· < ·) ∧ cl.edgeIds.Pairwise (· < ·)) ∧
    (∀ i : ℕ, i < o.lattice.edges.length →
      ∃ l : List ℤ, (clusterTownscaperLattice o).edgeToClusters[i]? = some l ∧
        l.Pairwise (· < ·) ∧
        (∀ c : ℤ, c ∈ l ↔ ∃ cn : ℕ, c = (cn : ℤ) ∧
          cn < (clusterTownscaperLattice o).clusters.length ∧
          ∃ tid ∈ (o.lattice.edges.getD i default).triangles,
            tid ∈ ((clusterTownscaperLattice o).clusters.getD cn default).triangleIds)) := by
  obtain ⟨⟨o1, o2, o3⟩, _⟩ := clusterStateOf_spec o hg hT
  refine ⟨?_, ?_, ?_⟩
  · intro t ht c hc
    have hc' : c < (clusterStateOf o).clusterMembers.length := by
      rw [← clustersResult_length o]
      exact hc
    constructor
    · intro h
      rw [clusterResult_t2c] at h
      have hcne : ((c : ℕ) : ℤ) ≠ -1 := by omega
      obtain ⟨c2, hc2eq, hc2lt, hc2m⟩ := o2 t _ h hcne
      have hceq : c2 = c := by omega
      subst hceq
      rw [(clustersResult_getD o c2 hc2lt).1]
      exact hc2m
    · intro h
      rw [(clustersResult_getD o c hc').1] at h
      rw [clusterResult_t2c]
      exact ((o3 c hc').1 t h).2
  · intro cl hcl
    obtain ⟨q, hq, rfl⟩ := List.mem_iff_getElem.mp hcl
    have hq' : q < (clusterStateOf o).clusterMembers.length := by
      rw [← clustersResult_length o]
      exact hq
    have hgd : (clusterTownscaperLattice o).clusters.getD q default =
        (clusterTownscaperLattice o).clusters[q] := by
      rw [List.getD_eq_getElem?_getD, List.getElem?_eq_getElem hq]
      rfl
    rw [← hgd]
    constructor
    · rw [(clustersResult_getD o q hq').1]
      exact pairwise_lt_of_sorted_nodup ((o3 q hq').2.1) ((o3 q hq').2.2)
    · have hinit : ∀ c : ℕ,
          (((clustersInit o).getD c default).edgeIds).Pairwise (· < ·) ∧
          (∀ x ∈ ((clustersInit o).getD c default).edgeIds,
            ∀ e ∈ o.lattice.edges, x < e.id) := by
        intro c
        have hnil : ((clustersInit o).getD c default).edgeIds = [] := by
          by_cases hcr : c < (clusterStateOf o).clusterMembers.length
          · rw [clustersInit_getD o c hcr]
          · have hge : (clustersInit o).length ≤ c := by
              rw [clustersInit, List.length_map, List.length_range]
              omega
            rw [List.getD_eq_default _ _ hge]
            rfl
        rw [hnil]
        exact ⟨List.Pairwise.nil, fun x hx => absurd hx (List.not_mem_nil _)⟩
      exact clusterEdgeFold_edgeIds (clusterStateOf o).asg o.lattice.edges
        (clustersInit o, o.lattice.edges.map (fun _ => ([] : List ℤ)))
        (edges_pairwise_id hE) hinit q
  · intro i hi
    have hgde : o.lattice.edges.getD i default = o.lattice.edges[i] := by
      rw [List.getD_eq_getElem?_getD, List.getElem?_eq_getElem hi]
      rfl
    have hidi : (o.lattice.edges[i]).id = i := edgeIdsAligned_getElem hE i hi
    have hlen0 : (o.lattice.edges[i]).id <
        (o.lattice.edges.map (fun _ => ([] : List ℤ))).length := by
      rw [hidi, List.length_map]
      exact hi
    have hlook := e2c_fold_lookup (clusterStateOf o).asg o.lattice.edges
      (clustersInit o, o.lattice.edges.map (fun _ => ([] : List ℤ)))
      (edges_pairwise_id hE) o.lattice.edges[i] (List.getElem_mem hi) hlen0
    rw [hidi] at hlook
    refine ⟨_, hlook, ?_, ?_⟩
    · exact pairwise_lt_of_sorted_nodup_int
        (List.sorted_insertionSort (· ≤ ·) _)
        (((List.perm_insertionSort (· ≤ ·) _).nodup_iff).mpr (nodup_dedupFirst _ _))
    · intro c
      rw [mem_insertionSortInt, mem_dedupFirst]
      simp only [List.not_mem_nil, not_false_eq_true, and_true]
      rw [List.mem_filterMap]
      constructor
      · rintro ⟨tid, htid, hf⟩
        have hft : (clusterStateOf o).asg[tid]? = some c ∧ c ≠ -1 := by
          rcases hx : (clusterStateOf o).asg[tid]? with _ | v
          · rw [hx] at hf
            exact absurd hf Option.noConfusion
          · rw [hx] at hf
            change (if v ≠ -1 then some v else none) = some c at hf
            by_cases hv : v ≠ -1
            · rw [if_pos hv] at hf
              have : v = c := Option.some.inj hf
              subst this
              exact ⟨rfl, hv⟩
            · rw [if_neg hv] at hf
              exact absurd hf Option.noConfusion
        obtain ⟨cn, hcneq, hcnlt, hcnm⟩ := o2 tid c hft.1 hft.2
        refine ⟨cn, hcneq, ?_, tid, ?_, ?_⟩
        · rw [clustersResult_length o]
          exact hcnlt
        · rw [hgde]
          exact htid
        · rw [(clustersResult_getD o cn hcnlt).1]
          exact hcnm
      · rintro ⟨cn, rfl, hcnlt, tid, htid, hmem⟩
        have hcnlt' : cn < (clusterStateOf o).clusterMembers.length := by
          rw [← clustersResult_length o]
          exact hcnlt
        rw [(clustersResult_getD o cn hcnlt').1] at hmem
        have hasg : (clusterStateOf o).asg[tid]? = some ((cn : ℕ) : ℤ) :=
          ((o3 cn hcnlt').1 tid hmem).2
        have hfin : (match (clusterStateOf o).asg[tid]? with
            | some c => if c ≠ -1 then some c else none
            | none => none) = some ((cn : ℕ) : ℤ) := by
          rw [hasg]
          change (if ((cn : ℕ) : ℤ) ≠ -1 then some ((cn : ℕ) : ℤ) else none) = _
          rw [if_pos (by omega : ((cn : ℕ) : ℤ) ≠ -1)]
        exact ⟨tid, by rw [← hgde]; exact htid, hfin⟩

/-- Witness for the C10 theorem: the concrete lattice `lat114` with merge
probability one half and the constant-half random source satisfies every
hypothesis, and its clusters carry strictly ascending id lists. -/
theorem clustering_output_consistency_witness :
    ValidRng (fun _ => (1 : ℚ) / 2) ∧
    triangleIdsAligned lat114.triangles = true ∧
    edgeIdsAligned lat114.edges = true ∧
    (∀ cl ∈ (clusterTownscaperLattice ⟨lat114, 1 / 2, fun _ => (1 : ℚ) / 2⟩).clusters,
      cl.triangleIds.Pairwise (· < ·) ∧ cl.edgeIds.Pairwise (· < ·)) := by
  have hg : ValidRng (fun _ => (1 : ℚ) / 2) := by
    intro n
    constructor <;> norm_num
  have hT : triangleIdsAligned lat114.triangles = true := by decide
  have hE : edgeIdsAligned lat114.edges = true := by decide
  exact ⟨hg, hT, hE,
    (clustering_output_consistency ⟨lat114, 1 / 2, fun _ => (1 : ℚ) / 2⟩ hg hT hE).2.1⟩

/-! ### Association-list and coordinate-table lemmas -/

theorem lookup_append_some {α β : Type} [BEq α] {l1 l2 : List (α × β)} {k : α} {v : β}
    (h : l1.lookup k = some v) : (l1 ++ l2).lookup k = some v := by
  induction l1 with
  | nil => exact absurd h Option.noConfusion
  | cons e rest ih =>
    rw [List.cons_append]
    obtain ⟨k0, v0⟩ := e
    rw [List.lookup_cons] at h ⊢
    cases hkk : k == k0 with
    | true => rw [hkk] at h; exact (h : some v0 = some v)
    | false => rw [hkk] at h; exact ih (h : List.lookup k rest = some v)

theorem lookup_append_none {α β : Type} [BEq α] {l1 l2 : List (α × β)} {k : α}
    (h : l1.lookup k = none) : (l1 ++ l2).lookup k = l2.lookup k := by
  induction l1 with
  | nil => rfl
  | cons e rest ih =>
    rw [List.cons_append]
    obtain ⟨k0, v0⟩ := e
    rw [List.lookup_cons] at h ⊢
    cases hkk : k == k0 with
    | true => rw [hkk] at h; exact absurd (h : some v0 = none) Option.noConfusion
    | false => rw [hkk] at h; exact ih (h : List.lookup k rest = none)

theorem lookup_none_iff {α β : Type} [BEq α] [LawfulBEq α] {l : List (α × β)} {k : α} :
    l.lookup k = none ↔ k ∉ l.map Prod.fst := by
  induction l with
  | nil => simp
  | cons e rest ih =>
    obtain ⟨k0, v0⟩ := e
    rw [List.lookup_cons, List.map_cons]
    cases hkk : k == k0 with
    | true =>
      have : k = k0 := eq_of_beq hkk
      subst this
      simp
    | false =>
      have hne : k ≠ k0 := by
        intro hh
        subst hh
        rw [BEq.refl] at hkk
        exact Bool.noConfusion hkk
      rw [ih]
      simp [hne]

theorem lookup_mem {α β : Type} [BEq α] [LawfulBEq α] {l : List (α × β)} {k : α} {v : β}
    (h : l.lookup k = some v) : (k, v) ∈ l := by
  induction l with
  | nil => exact absurd h Option.noConfusion
  | cons e rest ih =>
    obtain ⟨k0, v0⟩ := e
    rw [List.lookup_cons] at h
    cases hkk : k == k0 with
    | true =>
      rw [hkk] at h
      have h1 : k = k0 := eq_of_beq hkk
      have h2 : v0 = v := Option.some.inj (h : some v0 = some v)
      subst h1
      subst h2
      exact List.mem_cons_self _ _
    | false =>
      rw [hkk] at h
      exact List.mem_cons_of_mem _ (ih (h : List.lookup k rest = some v))

theorem mem_lookup_of_nodup {α β : Type} [BEq α] [LawfulBEq α] {l : List (α × β)}
    {k : α} {v : β} (hnd : (l.map Prod.fst).Nodup) (h : (k, v) ∈ l) :
    l.lookup k = some v := by
  induction l with
  | nil => exact absurd h (List.not_mem_nil _)
  | cons e rest ih =>
    obtain ⟨k0, v0⟩ := e
    rw [List.map_cons] at hnd
    rw [List.lookup_cons]
    rcases List.mem_cons.mp h with heq | hmem
    · have h1 : k = k0 := congrArg Prod.fst heq
      have h2 : v = v0 := congrArg Prod.snd heq
      subst h1
      subst h2
      rw [show (k == k) = true from by simp]
    · cases hkk : k == k0 with
      | true =>
        have : k = k0 := eq_of_beq hkk
        subst this
        have : k ∈ rest.map Prod.fst := List.mem_map.mpr ⟨(k, v), hmem, rfl⟩
        exact absurd this (List.nodup_cons.mp hnd).1
      | false => exact ih (List.nodup_cons.mp hnd).2 hmem

theorem coordRowBlock_lookup (ct r m r' c' : ℕ) :
    (coordRowBlock ct r m).lookup (r', c') =
      if r' = r ∧ c' < m then some (r * ct + c') else none := by
  induction m with
  | zero =>
    rw [if_neg (by omega)]
    rfl
  | succ m ih =>
    have hblk : coordRowBlock ct r (m + 1) =
        coordRowBlock ct r m ++ [((r, m), r * ct + m)] := by
      rw [coordRowBlock, coordRowBlock, List.range_succ, List.map_append]
      rfl
    rw [hblk]
    by_cases h : r' = r ∧ c' < m
    · have hsome : (coordRowBlock ct r m).lookup (r', c') = some (r * ct + c') := by
        rw [ih, if_pos h]
      rw [lookup_append_some hsome, if_pos (by omega)]
    · have hnone : (coordRowBlock ct r m).lookup (r', c') = none := by
        rw [ih, if_neg h]
      rw [lookup_append_none hnone]
      by_cases h2 : (r', c') = ((r, m) : ℕ × ℕ)
      · have h3 : r' = r := congrArg Prod.fst h2
        have h4 : c' = m := congrArg Prod.snd h2
        subst h3
        subst h4
        rw [if_pos (by omega)]
        rw [List.lookup_cons]
        rw [show (((r', c') : ℕ × ℕ) == (r', c')) = true from by simp]
      · have hcond : ¬ (r' = r ∧ c' < m + 1) := by
          intro hh
          exact h2 (by
            have : c' = m := by omega
            subst this
            rw [hh.1])
        rw [if_neg hcond]
        rw [List.lookup_cons]
        have hbeq : (((r', c') : ℕ × ℕ) == (r, m)) = false := by
          rw [beq_eq_false_iff_ne]
          exact h2
        rw [hbeq]
        rfl

theorem coordTable_succ (ct n : ℕ) :
    coordTable ct (n + 1) = coordTable ct n ++ coordRowBlock ct n ct := by
  rw [coordTable, coordTable, List.range_succ, List.flatMap_append]
  rw [List.flatMap_cons, List.flatMap_nil, List.append_nil]

theorem coordTable_lookup (ct n r c : ℕ) :
    (coordTable ct n).lookup (r, c) =
      if r < n ∧ c < ct then some (r * ct + c) else none := by
  induction n with
  | zero =>
    rw [if_neg (by omega)]
    rfl
  | succ n ih =>
    rw [coordTable_succ]
    by_cases h : r < n ∧ c < ct
    · have hsome : (coordTable ct n).lookup (r, c) = some (r * ct + c) := by
        rw [ih, if_pos h]
      rw [lookup_append_some hsome, if_pos (by omega)]
    · have hnone : (coordTable ct n).lookup (r, c) = none := by
        rw [ih, if_neg h]
      rw [lookup_append_none hnone, coordRowBlock_lookup]
      by_cases h2 : r = n ∧ c < ct
      · rw [if_pos h2, if_pos (by omega), h2.1]
      · rw [if_neg h2, if_neg (by omega)]

/-! ### Vertex-phase closed form -/

theorem buildVertexState_inner (inB : Vec2 → Bool) (hs vs sx sy : ℚ) (r : ℕ) :
    ∀ (m : ℕ) (s : VertexState),
      ((List.range m).foldl (fun s c => pushVertex inB hs vs sx sy s r c) s).vertices.length
        = s.vertices.length + m ∧
      ((List.range m).foldl (fun s c => pushVertex inB hs vs sx sy s r c) s).indexByCoord
        = s.indexByCoord ++ (List.range m).map (fun c => ((r, c), s.vertices.length + c)) := by
  intro m
  induction m with
  | zero => intro s; exact ⟨rfl, by simp⟩
  | succ m ih =>
    intro s
    rw [List.range_succ, List.foldl_append, List.foldl_cons, List.foldl_nil]
    obtain ⟨ih1, ih2⟩ := ih s
    constructor
    · rw [pushVertex]
      simp only [List.length_append, List.length_cons, List.length_nil]
      omega
    · rw [pushVertex]
      simp only
      rw [ih2, ih1, List.map_append, List.append_assoc]
      rfl

theorem buildVertexState_spec (inB : Vec2 → Bool) (hs vs sx sy : ℚ) (ct : ℕ) :
    ∀ n : ℕ, (buildVertexState inB hs vs sx sy n ct).vertices.length = n * ct ∧
      (buildVertexState inB hs vs sx sy n ct).indexByCoord = coordTable ct n := by
  intro n
  induction n with
  | zero => exact ⟨by rw [Nat.zero_mul]; rfl, rfl⟩
  | succ n ih =>
    rw [buildVertexState, List.range_succ, List.foldl_append, List.foldl_cons,
      List.foldl_nil]
    rw [show (List.range n).foldl (fun s r =>
        (List.range ct).foldl (fun s c => pushVertex inB hs vs sx sy s r c) s)
        (⟨[], []⟩ : VertexState) = buildVertexState inB hs vs sx sy n ct from rfl]
    obtain ⟨ih1, ih2⟩ := ih
    obtain ⟨in1, in2⟩ := buildVertexState_inner inB hs vs sx sy n ct
      (buildVertexState inB hs vs sx sy n ct)
    constructor
    · rw [in1, ih1]
      ring
    · rw [in2, ih2, ih1, coordTable_succ]
      rfl

/-! ### Edge-record insertion lemmas -/

theorem lookup_map_update (key : ℕ × ℕ) (tid : ℕ) :
    ∀ (recs : List ((ℕ × ℕ) × EdgeRecord)) {rec : EdgeRecord},
      recs.lookup key = some rec →
      (recs.map (fun e => if e.1 = key
        then (e.1, (⟨e.2.vertices, e.2.triangles ++ [tid]⟩ : EdgeRecord)) else e)).lookup key =
        some ⟨rec.vertices, rec.triangles ++ [tid]⟩ := by
  intro recs
  induction recs with
  | nil => intro rec h; exact absurd h Option.noConfusion
  | cons e rest ih =>
    intro rec h
    obtain ⟨k0, r0⟩ := e
    rw [List.lookup_cons] at h
    rw [List.map_cons]
    by_cases hk : k0 = key
    · subst hk
      have hbeq : (k0 == k0) = true := by simp
      rw [hbeq] at h
      have hr : r0 = rec := Option.some.inj (h : some r0 = some rec)
      subst hr
      rw [if_pos (show ((k0, r0) : (ℕ × ℕ) × EdgeRecord).1 = k0 from rfl)]
      show List.lookup k0 ((k0,
        (⟨r0.vertices, r0.triangles ++ [tid]⟩ : EdgeRecord)) :: _) = _
      rw [List.lookup_cons, hbeq]
    · have hbeq : (key == k0) = false := by
        rw [beq_eq_false_iff_ne]
        exact fun hh => hk hh.symm
      rw [hbeq] at h
      rw [if_neg (show ¬ ((k0, r0) : (ℕ × ℕ) × EdgeRecord).1 = key from hk)]
      rw [List.lookup_cons, hbeq]
      exact ih (h : List.lookup key rest = some rec)

theorem lookup_map_update_other (key : ℕ × ℕ) (tid : ℕ) (k : ℕ × ℕ) (hne : k ≠ key) :
    ∀ (recs : List ((ℕ × ℕ) × EdgeRecord)),
      (recs.map (fun e => if e.1 = key
        then (e.1, (⟨e.2.vertices, e.2.triangles ++ [tid]⟩ : EdgeRecord)) else e)).lookup k =
        recs.lookup k := by
  intro recs
  induction recs with
  | nil => rfl
  | cons e rest ih =>
    obtain ⟨k0, r0⟩ := e
    rw [List.map_cons]
    by_cases hk : k0 = key
    · subst hk
      rw [if_pos (show ((k0, r0) : (ℕ × ℕ) × EdgeRecord).1 = k0 from rfl)]
      show List.lookup k ((k0,
        (⟨r0.vertices, r0.triangles ++ [tid]⟩ : EdgeRecord)) :: _) = _
      rw [List.lookup_cons, List.lookup_cons]
      have hbeq : (k == k0) = false := by
        rw [beq_eq_false_iff_ne]
        exact hne
      rw [hbeq]
      exact ih
    · rw [if_neg (show ¬ ((k0, r0) : (ℕ × ℕ) × EdgeRecord).1 = key from hk)]
      rw [List.lookup_cons, List.lookup_cons]
      cases hbeq : k == k0 with
      | true => rfl
      | false => exact ih

theorem insertEdgeRef_lookup_same (recs : List ((ℕ × ℕ) × EdgeRecord)) (pair : ℕ × ℕ)
    (tid : ℕ) :
    (insertEdgeRef recs pair tid).lookup (createEdgeKey pair.1 pair.2) =
      some (match recs.lookup (createEdgeKey pair.1 pair.2) with
            | some rec => ⟨rec.vertices, rec.triangles ++ [tid]⟩
            | none => ⟨pair, [tid]⟩) := by
  cases h : recs.lookup (createEdgeKey pair.1 pair.2) with
  | none =>
    rw [insertEdgeRef]
    simp only [h]
    rw [lookup_append_none h, List.lookup_cons]
    rw [show ((createEdgeKey pair.1 pair.2 == createEdgeKey pair.1 pair.2)) = true from by simp]
  | some rec =>
    rw [insertEdgeRef]
    simp only [h]
    exact lookup_map_update _ tid recs h

theorem insertEdgeRef_lookup_other (recs : List ((ℕ × ℕ) × EdgeRecord)) (pair : ℕ × ℕ)
    (tid : ℕ) (k : ℕ × ℕ) (hne : k ≠ createEdgeKey pair.1 pair.2) :
    (insertEdgeRef recs pair tid).lookup k = recs.lookup k := by
  cases h : recs.lookup (createEdgeKey pair.1 pair.2) with
  | none =>
    rw [insertEdgeRef]
    simp only [h]
    cases hk : recs.lookup k with
    | none =>
      rw [lookup_append_none hk, List.lookup_cons]
      rw [show ((k == createEdgeKey pair.1 pair.2)) = false from by
        rw [beq_eq_false_iff_ne]; exact hne]
      rfl
    | some v => exact lookup_append_some hk
  | some rec =>
    rw [insertEdgeRef]
    simp only [h]
    exact lookup_map_update_other _ tid k hne recs

theorem insertEdgeRef_keys (recs : List ((ℕ × ℕ) × EdgeRecord)) (pair : ℕ × ℕ) (tid : ℕ) :
    (insertEdgeRef recs pair tid).map Prod.fst = recs.map Prod.fst ∨
    ((insertEdgeRef recs pair tid).map Prod.fst =
        recs.map Prod.fst ++ [createEdgeKey pair.1 pair.2] ∧
      recs.lookup (createEdgeKey pair.1 pair.2) = none) := by
  cases h : recs.lookup (createEdgeKey pair.1 pair.2) with
  | none =>
    refine Or.inr ⟨?_, rfl⟩
    rw [insertEdgeRef]
    simp only [h]
    rw [List.map_append]
    rfl
  | some rec =>
    refine Or.inl ?_
    rw [insertEdgeRef]
    simp only [h]
    rw [List.map_map]
    refine List.map_congr_left ?_
    intro e _
    by_cases hk : e.1 = createEdgeKey pair.1 pair.2
    · simp [Function.comp, hk]
    · simp [Function.comp, hk]

theorem insertEdgeRef_keys_nodup {recs : List ((ℕ × ℕ) × EdgeRecord)} {pair : ℕ × ℕ}
    {tid : ℕ} (h : (recs.map Prod.fst).Nodup) :
    ((insertEdgeRef recs pair tid).map Prod.fst).Nodup := by
  rcases insertEdgeRef_keys recs pair tid with hk | ⟨hk, hnone⟩
  · rw [hk]
    exact h
  · rw [hk, List.nodup_append]
    refine ⟨h, List.nodup_singleton _, ?_⟩
    intro a ha hb
    rw [List.mem_singleton.mp hb] at ha
    exact (lookup_none_iff.mp hnone) ha

theorem insertEdgeRef_entry (recs : List ((ℕ × ℕ) × EdgeRecord)) (pair : ℕ × ℕ) (tid : ℕ) :
    ∀ kr ∈ insertEdgeRef recs pair tid,
      (∃ kr0 ∈ recs, kr.1 = kr0.1 ∧ kr.2.vertices = kr0.2.vertices) ∨
      (kr.1 = createEdgeKey pair.1 pair.2 ∧ kr.2.vertices = pair) := by
  intro kr hkr
  cases h : recs.lookup (createEdgeKey pair.1 pair.2) with
  | none =>
    rw [insertEdgeRef] at hkr
    simp only [h] at hkr
    rcases List.mem_append.mp hkr with h1 | h2
    · exact Or.inl ⟨kr, h1, rfl, rfl⟩
    · rw [List.mem_singleton.mp h2]
      exact Or.inr ⟨rfl, rfl⟩
  | some rec =>
    rw [insertEdgeRef] at hkr
    simp only [h] at hkr
    obtain ⟨kr0, hkr0, heq⟩ := List.mem_map.mp hkr
    by_cases hk : kr0.1 = createEdgeKey pair.1 pair.2
    · rw [if_pos hk] at heq
      refine Or.inl ⟨kr0, hkr0, ?_, ?_⟩
      · rw [← heq]
      · rw [← heq]
    · rw [if_neg hk] at heq
      subst heq
      exact Or.inl ⟨kr0, hkr0, rfl, rfl⟩

/-- Effect of a run of `insertEdgeRef` calls (one per pair) on the lookup
of an arbitrary key: an existing record gains one `tid` entry per matching
pair, a fresh record collects exactly the matching pairs' entries. -/
theorem insertList_lookup (tid : ℕ) :
    ∀ (ps : List (ℕ × ℕ)) (recs : List ((ℕ × ℕ) × EdgeRecord)) (k : ℕ × ℕ),
      (∀ rec : EdgeRecord, recs.lookup k = some rec →
        ∃ rec' : EdgeRecord,
          (ps.foldl (fun rs p => insertEdgeRef rs p tid) recs).lookup k = some rec' ∧
          rec'.vertices = rec.vertices ∧
          rec'.triangles = rec.triangles ++
            List.replicate ((ps.map (fun p => createEdgeKey p.1 p.2)).count k) tid) ∧
      (recs.lookup k = none → (ps.map (fun p => createEdgeKey p.1 p.2)).count k = 0 →
        (ps.foldl (fun rs p => insertEdgeRef rs p tid) recs).lookup k = none) ∧
      (recs.lookup k = none → (ps.map (fun p => createEdgeKey p.1 p.2)).count k ≠ 0 →
        ∃ rec' : EdgeRecord,
          (ps.foldl (fun rs p => insertEdgeRef rs p tid) recs).lookup k = some rec' ∧
          rec'.triangles =
            List.replicate ((ps.map (fun p => createEdgeKey p.1 p.2)).count k) tid) := by
  intro ps
  induction ps with
  | nil =>
    intro recs k
    refine ⟨?_, ?_, ?_⟩
    · intro rec h
      exact ⟨rec, h, rfl, by simp⟩
    · intro h _
      exact h
    · intro _ hc
      exact absurd (by simp : (([] : List (ℕ × ℕ)).map
        (fun p => createEdgeKey p.1 p.2)).count k = 0) hc
  | cons p rest ih =>
    intro recs k
    rw [List.foldl_cons, List.map_cons, List.count_cons]
    by_cases hkey : createEdgeKey p.1 p.2 = k
    · rw [if_pos (by rw [hkey]; simp)]
      have hsame := insertEdgeRef_lookup_same recs p tid
      rw [hkey] at hsame
      refine ⟨?_, ?_, ?_⟩
      · intro rec h
        rw [h] at hsame
        obtain ⟨rec', h1, h2, h3⟩ := (ih (insertEdgeRef recs p tid) k).1 _ hsame
        refine ⟨rec', h1, h2, ?_⟩
        rw [h3]
        show _ = rec.triangles ++ List.replicate (_ + 1) tid
        rw [List.replicate_succ, List.append_assoc]
        rfl
      · intro _ hc
        omega
      · intro h _
        rw [h] at hsame
        obtain ⟨rec', h1, h2, h3⟩ := (ih (insertEdgeRef recs p tid) k).1 _ hsame
        refine ⟨rec', h1, ?_⟩
        rw [h3]
        show _ = List.replicate (_ + 1) tid
        rw [List.replicate_succ]
        rfl
    · rw [if_neg (by rw [beq_iff_eq]; exact hkey)]
      have hother := insertEdgeRef_lookup_other recs p tid k
        (fun hh => hkey hh.symm)
      refine ⟨?_, ?_, ?_⟩
      · intro rec h
        have : (insertEdgeRef recs p tid).lookup k = some rec := by rw [hother, h]
        obtain ⟨rec', h1, h2, h3⟩ := (ih (insertEdgeRef recs p tid) k).1 _ this
        exact ⟨rec', h1, h2, by rw [h3, Nat.add_zero]⟩
      · intro h hc
        have : (insertEdgeRef recs p tid).lookup k = none := by rw [hother, h]
        exact (ih (insertEdgeRef recs p tid) k).2.1 this hc
      · intro h hc
        have : (insertEdgeRef recs p tid).lookup k = none := by rw [hother, h]
        exact (ih (insertEdgeRef recs p tid) k).2.2 this hc

/-- A run of `insertEdgeRef` calls keeps record keys duplicate-free. -/
theorem insertList_keys_nodup (tid : ℕ) :
    ∀ (ps : List (ℕ × ℕ)) (recs : List ((ℕ × ℕ) × EdgeRecord)),
      (recs.map Prod.fst).Nodup →
      (((ps.foldl (fun rs p => insertEdgeRef rs p tid) recs)).map Prod.fst).Nodup := by
  intro ps
  induction ps with
  | nil => intro recs h; exact h
  | cons p rest ih =>
    intro recs h
    rw [List.foldl_cons]
    exact ih _ (insertEdgeRef_keys_nodup h)

/-- A run of `insertEdgeRef` calls preserves the key–vertices relation of
every record, the new records taking their pair as vertices. -/
theorem insertList_entry (tid : ℕ) :
    ∀ (ps : List (ℕ × ℕ)) (recs : List ((ℕ × ℕ) × EdgeRecord)),
      (∀ kr ∈ recs, createEdgeKey kr.2.vertices.1 kr.2.vertices.2 = kr.1) →
      ∀ kr ∈ ps.foldl (fun rs p => insertEdgeRef rs p tid) recs,
        createEdgeKey kr.2.vertices.1 kr.2.vertices.2 = kr.1 := by
  intro ps
  induction ps with
  | nil => intro recs h; exact h
  | cons p rest ih =>
    intro recs h
    rw [List.foldl_cons]
    refine ih _ ?_
    intro kr hkr
    rcases insertEdgeRef_entry recs p tid kr hkr with ⟨kr0, hkr0, h1, h2⟩ | ⟨h1, h2⟩
    · rw [h2, h1]
      exact h kr0 hkr0
    · rw [h2, h1]

/-- On a full coordinate table, an in-range `addTriangle` call finds all
three vertices and performs its push and the three key registrations. -/
theorem addTriangle_spec (inB : Vec2 → Bool) (verts : List LatticeVertex)
    (ct n : ℕ) (s : TriState) (op : TriOp) (h : opInRange n ct op) :
    ∃ t : LatticeTriangle, t.id = s.triangles.length ∧
      t.vertices = triVertsOfOp ct op ∧
      (addTriangle inB verts (coordTable ct n) s op).triangles = s.triangles ++ [t] ∧
      (addTriangle inB verts (coordTable ct n) s op).edgeRecords =
        [(vidx ct op.1, vidx ct op.2.1), (vidx ct op.2.1, vidx ct op.2.2),
         (vidx ct op.2.2, vidx ct op.1)].foldl
          (fun rs p => insertEdgeRef rs p s.triangles.length) s.edgeRecords := by
  obtain ⟨h1, h2, h3, h4, h5, h6⟩ := h
  have l1 : (coordTable ct n).lookup op.1 = some (vidx ct op.1) := by
    rw [show op.1 = (op.1.1, op.1.2) from rfl, coordTable_lookup, if_pos ⟨h1, h2⟩]
    rfl
  have l2 : (coordTable ct n).lookup op.2.1 = some (vidx ct op.2.1) := by
    rw [show op.2.1 = (op.2.1.1, op.2.1.2) from rfl, coordTable_lookup, if_pos ⟨h3, h4⟩]
    rfl
  have l3 : (coordTable ct n).lookup op.2.2 = some (vidx ct op.2.2) := by
    rw [show op.2.2 = (op.2.2.1, op.2.2.2) from rfl, coordTable_lookup, if_pos ⟨h5, h6⟩]
    rfl
  rw [addTriangle, l1, l2, l3]
  exact ⟨_, rfl, rfl, rfl, rfl⟩

/-- One in-range `addTriangle` call preserves the triangle-fold invariant. -/
theorem TINV_step (inB : Vec2 → Bool) (verts : List LatticeVertex) (ct n : ℕ)
    (ops : List TriOp) (op : TriOp) (s : TriState)
    (hinv : TINV ct ops s) (hr : opInRange n ct op) :
    TINV ct (ops ++ [op]) (addTriangle inB verts (coordTable ct n) s op) := by
  obtain ⟨i1, i2, i3, i4, i5, i6, i7⟩ := hinv
  obtain ⟨t, ht1, ht2, htris, hrecs⟩ := addTriangle_spec inB verts ct n s op hr
  have hkeys : ([(vidx ct op.1, vidx ct op.2.1), (vidx ct op.2.1, vidx ct op.2.2),
      (vidx ct op.2.2, vidx ct op.1)].map (fun p => createEdgeKey p.1 p.2)) =
      opKeys ct op := rfl
  have hreg : ∀ k : ℕ × ℕ, regCount ct (ops ++ [op]) k =
      regCount ct ops k + (opKeys ct op).count k := by
    intro k
    rw [regCount, regCount, List.flatMap_append, List.count_append, List.flatMap_cons,
      List.flatMap_nil, List.append_nil]
  have hIL := insertList_lookup s.triangles.length
    [(vidx ct op.1, vidx ct op.2.1), (vidx ct op.2.1, vidx ct op.2.2),
     (vidx ct op.2.2, vidx ct op.1)] s.edgeRecords
  rw [hkeys] at hIL
  refine ⟨?_, ?_, ?_, ?_, ?_, ?_, ?_⟩
  · rw [htris, List.length_append, List.length_append, i1]
    rfl
  · intro i hi
    rw [List.length_append, List.length_cons, List.length_nil] at hi
    rw [htris]
    by_cases hlt : i < ops.length
    · rw [getD_append_lt _ _ _ _ (show i < s.triangles.length from by omega),
        getD_append_lt _ _ _ _ hlt]
      exact i2 i hlt
    · have hieq : i = ops.length := by omega
      subst hieq
      have e1 : (s.triangles ++ [t]).getD ops.length default = t := by
        rw [← i1]
        exact getD_append_self _ _ _
      have e2 : (ops ++ [op]).getD ops.length default = op := getD_append_self _ _ _
      rw [e1, e2]
      exact ⟨by rw [ht1, i1], ht2⟩
  · rw [hrecs]
    exact insertList_keys_nodup _ _ _ i3
  · rw [hrecs]
    exact insertList_entry _ _ _ i4
  · intro k rec' hlook
    rw [hrecs] at hlook
    obtain ⟨p1, p2, p3⟩ := hIL k
    cases hold : s.edgeRecords.lookup k with
    | some rec =>
      obtain ⟨rec'', q1, q2, q3⟩ := p1 rec hold
      have hre : rec'' = rec' := Option.some.inj (q1.symm.trans hlook)
      subst hre
      obtain ⟨r1, r2, r3⟩ := i5 k rec hold
      refine ⟨?_, ?_, ?_⟩
      · rw [q3, List.length_append, List.length_replicate, hreg, r1]
      · rw [q3, List.length_append]
        omega
      · intro i hi
        rw [q3] at hi
        rcases List.mem_append.mp hi with hi1 | hi2
        · obtain ⟨m1, m2⟩ := r3 i hi1
          refine ⟨by rw [List.length_append, List.length_cons, List.length_nil]; omega, ?_⟩
          rw [getD_append_lt _ _ _ _ m1]
          exact m2
        · obtain ⟨hcne, hieq⟩ := List.mem_replicate.mp hi2
          subst hieq
          refine ⟨by rw [List.length_append, List.length_cons, List.length_nil, i1]; omega, ?_⟩
          rw [i1, getD_append_self]
          rw [← List.count_pos_iff]
          omega
    | none =>
      by_cases hc : (opKeys ct op).count k = 0
      · rw [p2 hold hc] at hlook
        exact absurd hlook Option.noConfusion
      · obtain ⟨rec'', q1, q3⟩ := p3 hold hc
        have hre : rec'' = rec' := Option.some.inj (q1.symm.trans hlook)
        subst hre
        have hz : regCount ct ops k = 0 := i6 k hold
        refine ⟨?_, ?_, ?_⟩
        · rw [q3, List.length_replicate, hreg, hz, Nat.zero_add]
        · rw [q3, List.length_replicate]
          omega
        · intro i hi
          rw [q3] at hi
          obtain ⟨hcne, hieq⟩ := List.mem_replicate.mp hi
          subst hieq
          refine ⟨by rw [List.length_append, List.length_cons, List.length_nil, i1]; omega, ?_⟩
          rw [i1, getD_append_self]
          rw [← List.count_pos_iff]
          omega
  · intro k hlook
    rw [hrecs] at hlook
    obtain ⟨p1, p2, p3⟩ := hIL k
    cases hold : s.edgeRecords.lookup k with
    | some rec =>
      obtain ⟨rec'', q1, _, _⟩ := p1 rec hold
      rw [hlook] at q1
      exact absurd q1 Option.noConfusion
    | none =>
      by_cases hc : (opKeys ct op).count k = 0
      · rw [hreg, hc, i6 k hold]
      · obtain ⟨rec'', q1, _⟩ := p3 hold hc
        rw [hlook] at q1
        exact absurd q1 Option.noConfusion
  · intro i hi k hk
    rw [List.length_append, List.length_cons, List.length_nil] at hi
    rw [hrecs]
    obtain ⟨p1, p2, p3⟩ := hIL k
    by_cases hlt : i < ops.length
    · rw [getD_append_lt _ _ _ _ hlt] at hk
      obtain ⟨rec, m1, m2⟩ := i7 i hlt k hk
      obtain ⟨rec'', q1, _, q3⟩ := p1 rec m1
      refine ⟨rec'', q1, ?_⟩
      rw [q3]
      exact List.mem_append.mpr (Or.inl m2)
    · have hieq : i = ops.length := by omega
      subst hieq
      rw [getD_append_self] at hk
      have hc : (opKeys ct op).count k ≠ 0 := by
        rw [← Nat.pos_iff_ne_zero, List.count_pos_iff]
        exact hk
      cases hold : s.edgeRecords.lookup k with
      | some rec =>
        obtain ⟨rec'', q1, _, q3⟩ := p1 rec hold
        refine ⟨rec'', q1, ?_⟩
        rw [q3, i1]
        exact List.mem_append.mpr (Or.inr (List.mem_replicate.mpr ⟨hc, rfl⟩))
      | none =>
        obtain ⟨rec'', q1, q3⟩ := p3 hold hc
        refine ⟨rec'', q1, ?_⟩
        rw [q3, i1]
        exact List.mem_replicate.mpr ⟨hc, rfl⟩

/-- The triangle-fold invariant extends through any list of in-range
`addTriangle` calls. -/
theorem TINV_fold (inB : Vec2 → Bool) (verts : List LatticeVertex) (ct n : ℕ) :
    ∀ (l : List TriOp) (ops : List TriOp) (s : TriState),
      TINV ct ops s → (∀ op ∈ l, opInRange n ct op) →
      TINV ct (ops ++ l) (l.foldl (addTriangle inB verts (coordTable ct n)) s) := by
  intro l
  induction l with
  | nil => intro ops s h _; rw [List.append_nil]; exact h
  | cons op rest ih =>
    intro ops s h hall
    rw [List.foldl_cons, show ops ++ op :: rest = (ops ++ [op]) ++ rest from by simp]
    exact ih (ops ++ [op]) _
      (TINV_step inB verts ct n ops op s h (hall op (List.mem_cons_self _ _)))
      (fun x hx => hall x (List.mem_cons_of_mem _ hx))

/-- The invariant holds at the empty initial state. -/
theorem TINV_init (ct : ℕ) : TINV ct [] ⟨[], []⟩ := by
  refine ⟨rfl, ?_, List.nodup_nil, ?_, ?_, ?_, ?_⟩
  · intro i hi
    rw [List.length_nil] at hi
    omega
  · intro kr hkr
    exact absurd hkr (List.not_mem_nil _)
  · intro k rec h
    exact absurd h Option.noConfusion
  · intro k _
    rfl
  · intro i hi
    rw [List.length_nil] at hi
    omega

/-- Every `addTriangle` call of the cell double loop has in-range
coordinates once the grid is one row and one column larger than the loop
bounds. -/
theorem triangleOps_inRange (rl cl n ct : ℕ) (hr : rl < n) (hc : cl < ct) :
    ∀ op ∈ triangleOps rl cl, opInRange n ct op := by
  intro op hop
  rw [triangleOps] at hop
  obtain ⟨r, hrm, hop2⟩ := List.mem_flatMap.mp hop
  obtain ⟨c, hcm, hop3⟩ := List.mem_flatMap.mp hop2
  rw [List.mem_range] at hrm hcm
  rw [cellTriangles] at hop3
  by_cases hpar : r % 2 = 0
  · rw [if_pos hpar] at hop3
    rcases List.mem_cons.mp hop3 with rfl | hop4
    · exact ⟨by dsimp only; omega, by dsimp only; omega, by dsimp only; omega,
        by dsimp only; omega, by dsimp only; omega, by dsimp only; omega⟩
    · rcases List.mem_cons.mp hop4 with rfl | hop5
      · exact ⟨by dsimp only; omega, by dsimp only; omega, by dsimp only; omega,
          by dsimp only; omega, by dsimp only; omega, by dsimp only; omega⟩
      · exact absurd hop5 (List.not_mem_nil _)
  · rw [if_neg hpar] at hop3
    rcases List.mem_cons.mp hop3 with rfl | hop4
    · exact ⟨by dsimp only; omega, by dsimp only; omega, by dsimp only; omega,
        by dsimp only; omega, by dsimp only; omega, by dsimp only; omega⟩
    · rcases List.mem_cons.mp hop4 with rfl | hop5
      · exact ⟨by dsimp only; omega, by dsimp only; omega, by dsimp only; omega,
          by dsimp only; omega, by dsimp only; omega, by dsimp only; omega⟩
      · exact absurd hop5 (List.not_mem_nil _)

theorem triangleOps_zero_left (cl : ℕ) : triangleOps 0 cl = [] := rfl

theorem triangleOps_zero_right (rl : ℕ) : triangleOps rl 0 = [] := by
  rw [triangleOps]
  rw [List.eq_nil_iff_forall_not_mem]
  intro op hop
  obtain ⟨r, _, hop2⟩ := List.mem_flatMap.mp hop
  obtain ⟨c, hcm, _⟩ := List.mem_flatMap.mp hop2
  exact absurd hcm (by simp)

/-- The triangle phase of `createTownscaperLattice` satisfies the fold
invariant for its own `addTriangle` call list. -/
theorem triStateOf_spec (o : LatticeOptions) :
    TINV (colTotalOf o)
      (triangleOps (rowLimitOf o).toNat (columnLimitOf o).toNat) (triStateOf o) := by
  have hix : (vertexStateOf o).indexByCoord =
      coordTable (colTotalOf o) (rowTotalOf o) := by
    rw [vertexStateOf]
    exact (buildVertexState_spec o.inBoundary (horizontalSpacingOf o)
      (verticalSpacingOf o) (-(horizontalSpacingOf o)) (-(verticalSpacingOf o))
      (colTotalOf o) (rowTotalOf o)).2
  by_cases hdeg : (rowLimitOf o).toNat = 0 ∨ (columnLimitOf o).toNat = 0
  · have hops : triangleOps (rowLimitOf o).toNat (columnLimitOf o).toNat = [] := by
      rcases hdeg with h | h
      · rw [h]
        exact triangleOps_zero_left _
      · rw [h]
        exact triangleOps_zero_right _
    rw [triStateOf, hops]
    exact TINV_init _
  · push_neg at hdeg
    have hr : (rowLimitOf o).toNat < rowTotalOf o := by
      rw [rowTotalOf]
      omega
    have hc : (columnLimitOf o).toNat < colTotalOf o := by
      rw [colTotalOf]
      omega
    have h := TINV_fold o.inBoundary (vertexStateOf o).vertices (colTotalOf o)
      (rowTotalOf o) (triangleOps (rowLimitOf o).toNat (columnLimitOf o).toNat) [] ⟨[], []⟩
      (TINV_init _) (triangleOps_inRange _ _ _ _ hr hc)
    rw [List.nil_append] at h
    rw [triStateOf, hix]
    exact h

/-! ### Bridges from the triangle fold to the final lattice -/

theorem final_edges (o : LatticeOptions) :
    (createTownscaperLattice o).edges =
      buildEdges (triStateOf o).triangles (triStateOf o).edgeRecords := rfl

theorem final_triangles (o : LatticeOptions) :
    (createTownscaperLattice o).triangles =
      (triStateOf o).triangles.map (fun t =>
        { t with neighbors := neighborsOf (triStateOf o).edgeRecords t }) := rfl

theorem final_tri_inside (o : LatticeOptions) (tid : ℕ) :
    (((createTownscaperLattice o).triangles.getD tid default).insideBoundary) =
      (((triStateOf o).triangles.getD tid default).insideBoundary) := by
  rw [final_triangles, List.getD_eq_getElem?_getD, List.getD_eq_getElem?_getD,
    List.getElem?_map]
  cases h : (triStateOf o).triangles[tid]? with
  | none => rfl
  | some t => rfl

theorem final_tri_getD (o : LatticeOptions) (i : ℕ)
    (hi : i < (triStateOf o).triangles.length) :
    (createTownscaperLattice o).triangles.getD i default =
      { (triStateOf o).triangles.getD i default with
        neighbors := neighborsOf (triStateOf o).edgeRecords
          ((triStateOf o).triangles.getD i default) } := by
  rw [final_triangles, List.getD_eq_getElem?_getD, List.getElem?_map,
    List.getElem?_eq_getElem hi]
  rw [List.getD_eq_getElem?_getD, List.getElem?_eq_getElem hi]
  rfl

theorem final_tri_length (o : LatticeOptions) :
    (createTownscaperLattice o).triangles.length = (triStateOf o).triangles.length := by
  rw [final_triangles, List.length_map]

theorem buildEdges_length (tris : List LatticeTriangle)
    (recs : List ((ℕ × ℕ) × EdgeRecord)) :
    (buildEdges tris recs).length = recs.length := by
  rw [buildEdges, List.length_map, List.length_range]

theorem buildEdges_getD (tris : List LatticeTriangle)
    (recs : List ((ℕ × ℕ) × EdgeRecord)) (i : ℕ) (hi : i < recs.length) :
    (buildEdges tris recs).getD i default =
      mkLatticeEdge tris i (recs.getD i default).2 := by
  rw [buildEdges, List.getD_eq_getElem?_getD, List.getElem?_map, List.getElem?_range hi]
  rfl

theorem mem_buildEdges (tris : List LatticeTriangle)
    (recs : List ((ℕ × ℕ) × EdgeRecord)) (e : LatticeEdge) :
    e ∈ buildEdges tris recs ↔
      ∃ i : ℕ, i < recs.length ∧ e = mkLatticeEdge tris i (recs.getD i default).2 := by
  rw [buildEdges]
  constructor
  · intro h
    obtain ⟨i, hi, rfl⟩ := List.mem_map.mp h
    rw [List.mem_range] at hi
    exact ⟨i, hi, rfl⟩
  · rintro ⟨i, hi, rfl⟩
    exact List.mem_map.mpr ⟨i, List.mem_range.mpr hi, rfl⟩

/-- C5: in every built lattice, an edge's `touchesBoundary` flag is true
exactly when the edge has a single incident triangle or some incident
triangle's centroid lies outside the boundary. -/
theorem touchesBoundary_iff (o : LatticeOptions) :
    ∀ e ∈ (createTownscaperLattice o).edges,
      (e.touchesBoundary = true ↔
        e.triangles.length = 1 ∨
        ∃ t ∈ e.triangles,
          ((createTownscaperLattice o).triangles.getD t default).insideBoundary = false) := by
  obtain ⟨i1, i2, i3, i4, i5, i6, i7⟩ := triStateOf_spec o
  intro e he
  rw [final_edges] at he
  obtain ⟨i, hi, rfl⟩ := (mem_buildEdges _ _ _).mp he
  have hmem : (triStateOf o).edgeRecords.getD i default ∈ (triStateOf o).edgeRecords := by
    rw [List.getD_eq_getElem?_getD, List.getElem?_eq_getElem hi]
    exact List.getElem_mem hi
  have hlook : (triStateOf o).edgeRecords.lookup
      ((triStateOf o).edgeRecords.getD i default).1 =
      some ((triStateOf o).edgeRecords.getD i default).2 :=
    mem_lookup_of_nodup i3 hmem
  have hlen1 : 1 ≤ ((triStateOf o).edgeRecords.getD i default).2.triangles.length :=
    (i5 _ _ hlook).2.1
  rw [show (mkLatticeEdge (triStateOf o).triangles i
      ((triStateOf o).edgeRecords.getD i default).2).triangles =
    ((triStateOf o).edgeRecords.getD i default).2.triangles from rfl]
  rw [show (mkLatticeEdge (triStateOf o).triangles i
      ((triStateOf o).edgeRecords.getD i default).2).touchesBoundary =
    (decide (((triStateOf o).edgeRecords.getD i default).2.triangles.length < 2)
      || ((triStateOf o).edgeRecords.getD i default).2.triangles.any
        (fun tid => !((triStateOf o).triangles.getD tid default).insideBoundary)) from rfl]
  constructor
  · intro h
    rcases Bool.or_eq_true _ _ |>.mp h with h1 | h2
    · rw [decide_eq_true_iff] at h1
      exact Or.inl (by omega)
    · obtain ⟨tid, htid, hb⟩ := List.any_eq_true.mp h2
      refine Or.inr ⟨tid, htid, ?_⟩
      rw [Bool.not_eq_true'] at hb
      rw [final_tri_inside]
      exact hb
  · intro h
    rw [Bool.or_eq_true]
    rcases h with h1 | ⟨tid, htid, hb⟩
    · refine Or.inl ?_
      rw [decide_eq_true_iff]
      omega
    · refine Or.inr ?_
      refine List.any_eq_true.mpr ⟨tid, htid, ?_⟩
      rw [Bool.not_eq_true']
      rw [final_tri_inside] at hb
      exact hb

/-- Witness for the C5 theorem at the concrete lattice `lat114`. -/
theorem touchesBoundary_iff_witness :
    (lat114.edges.getD 0 default) ∈ lat114.edges ∧
    ((lat114.edges.getD 0 default).touchesBoundary = true ↔
      (lat114.edges.getD 0 default).triangles.length = 1 ∨
      ∃ t ∈ (lat114.edges.getD 0 default).triangles,
        (lat114.triangles.getD t default).insideBoundary = false) := by
  have hmem : (lat114.edges.getD 0 default) ∈ lat114.edges := by decide
  exact ⟨hmem, touchesBoundary_iff opts114 _ hmem⟩

/-- C6 (amended): each undirected vertex pair is represented by at most
one edge — the canonical `(min, max)` key of two distinct edges always
differs.  (The stored `vertices` field itself keeps traversal order; see
the counterexample.) -/
theorem edge_unordered_pair_unique (o : LatticeOptions) :
    ∀ i j : ℕ, i < (createTownscaperLattice o).edges.length →
      j < (createTownscaperLattice o).edges.length →
      createEdgeKey ((createTownscaperLattice o).edges.getD i default).vertices.1
          ((createTownscaperLattice o).edges.getD i default).vertices.2 =
        createEdgeKey ((createTownscaperLattice o).edges.getD j default).vertices.1
          ((createTownscaperLattice o).edges.getD j default).vertices.2 →
      i = j := by
  obtain ⟨i1, i2, i3, i4, i5, i6, i7⟩ := triStateOf_spec o
  intro i j hi hj hkey
  rw [final_edges, buildEdges_length] at hi hj
  rw [final_edges, buildEdges_getD _ _ i hi, buildEdges_getD _ _ j hj] at hkey
  rw [mkLatticeEdge, mkLatticeEdge] at hkey
  have hmi : (triStateOf o).edgeRecords.getD i default ∈ (triStateOf o).edgeRecords := by
    rw [List.getD_eq_getElem?_getD, List.getElem?_eq_getElem hi]
    exact List.getElem_mem hi
  have hmj : (triStateOf o).edgeRecords.getD j default ∈ (triStateOf o).edgeRecords := by
    rw [List.getD_eq_getElem?_getD, List.getElem?_eq_getElem hj]
    exact List.getElem_mem hj
  have hki := i4 _ hmi
  have hkj := i4 _ hmj
  rw [hki, hkj] at hkey
  have hleni : i < ((triStateOf o).edgeRecords.map Prod.fst).length := by
    rw [List.length_map]
    exact hi
  have hlenj : j < ((triStateOf o).edgeRecords.map Prod.fst).length := by
    rw [List.length_map]
    exact hj
  have hgi : ((triStateOf o).edgeRecords.map Prod.fst).get ⟨i, hleni⟩ =
      ((triStateOf o).edgeRecords.getD i default).1 := by
    rw [List.get_eq_getElem, List.getElem_map, List.getD_eq_getElem?_getD,
      List.getElem?_eq_getElem hi]
    rfl
  have hgj : ((triStateOf o).edgeRecords.map Prod.fst).get ⟨j, hlenj⟩ =
      ((triStateOf o).edgeRecords.getD j default).1 := by
    rw [List.get_eq_getElem, List.getElem_map, List.getD_eq_getElem?_getD,
      List.getElem?_eq_getElem hj]
    rfl
  have hinj := (List.Nodup.get_inj_iff i3 (i := ⟨i, hleni⟩) (j := ⟨j, hlenj⟩)).mp
    (by rw [hgi, hgj]; exact hkey)
  exact congrArg Fin.val hinj

/-- Membership in a triangle's computed neighbor list, in terms of the
edge-record map. -/
theorem mem_neighborsOf (recs : List ((ℕ × ℕ) × EdgeRecord)) (t : LatticeTriangle)
    (x : ℕ) :
    x ∈ neighborsOf recs t ↔ ∃ p ∈ [(t.vertices.1, t.vertices.2.1),
      (t.vertices.2.1, t.vertices.2.2), (t.vertices.2.2, t.vertices.1)],
      ∃ rec : EdgeRecord, recs.lookup (createEdgeKey p.1 p.2) = some rec ∧
        x ∈ rec.triangles ∧ x ≠ t.id := by
  rw [neighborsOf]
  rw [mem_insertionSortNat, mem_dedupFirst]
  simp only [List.not_mem_nil, not_false_eq_true, and_true]
  rw [List.mem_flatMap]
  constructor
  · rintro ⟨p, hp, hx⟩
    refine ⟨p, hp, ?_⟩
    cases hlk : recs.lookup (createEdgeKey p.1 p.2) with
    | none =>
      rw [hlk] at hx
      exact absurd hx (List.not_mem_nil _)
    | some rec =>
      rw [hlk] at hx
      have hx' : x ∈ rec.triangles.filter (fun tid => tid ≠ t.id) := hx
      obtain ⟨h1, h2⟩ := List.mem_filter.mp hx'
      exact ⟨rec, rfl, h1, by simpa using h2⟩
  · rintro ⟨p, hp, rec, h1, h2, h3⟩
    refine ⟨p, hp, ?_⟩
    rw [h1]
    show x ∈ rec.triangles.filter (fun tid => tid ≠ t.id)
    exact List.mem_filter.mpr ⟨h2, by simpa using h3⟩

/-- Membership in the neighbor list, phrased through the originating
`addTriangle` call's keys. -/
theorem mem_neighborsOf_op (recs : List ((ℕ × ℕ) × EdgeRecord)) (t : LatticeTriangle)
    (ct : ℕ) (op : TriOp) (hv : t.vertices = triVertsOfOp ct op) (x : ℕ) :
    x ∈ neighborsOf recs t ↔ ∃ k ∈ opKeys ct op, ∃ rec : EdgeRecord,
      recs.lookup k = some rec ∧ x ∈ rec.triangles ∧ x ≠ t.id := by
  rw [mem_neighborsOf, hv]
  constructor
  · rintro ⟨p, hp, rec, h1, h2, h3⟩
    refine ⟨createEdgeKey p.1 p.2, ?_, rec, h1, h2, h3⟩
    rcases List.mem_cons.mp hp with rfl | hp2
    · exact List.mem_cons_self _ _
    · rcases List.mem_cons.mp hp2 with rfl | hp3
      · exact List.mem_cons_of_mem _ (List.mem_cons_self _ _)
      · rcases List.mem_cons.mp hp3 with rfl | hp4
        · exact List.mem_cons_of_mem _ (List.mem_cons_of_mem _ (List.mem_cons_self _ _))
        · exact absurd hp4 (List.not_mem_nil _)
  · rintro ⟨k, hk, rec, h1, h2, h3⟩
    rcases List.mem_cons.mp hk with rfl | hk2
    · exact ⟨_, List.mem_cons_self _ _, rec, h1, h2, h3⟩
    · rcases List.mem_cons.mp hk2 with rfl | hk3
      · exact ⟨_, List.mem_cons_of_mem _ (List.mem_cons_self _ _), rec, h1, h2, h3⟩
      · rcases List.mem_cons.mp hk3 with rfl | hk4
        · exact ⟨_, List.mem_cons_of_mem _ (List.mem_cons_of_mem _
            (List.mem_cons_self _ _)), rec, h1, h2, h3⟩
        · exact absurd hk4 (List.not_mem_nil _)

/-- C7: in every built lattice, the triangle neighbor relation is
symmetric — triangle `j` appears in triangle `i`'s neighbor list exactly
when `i` appears in `j`'s. -/
theorem neighbor_symmetry (o : LatticeOptions) :
    ∀ i j : ℕ, i < (createTownscaperLattice o).triangles.length →
      j < (createTownscaperLattice o).triangles.length →
      (j ∈ ((createTownscaperLattice o).triangles.getD i default).neighbors ↔
        i ∈ ((createTownscaperLattice o).triangles.getD j default).neighbors) := by
  obtain ⟨i1, i2, i3, i4, i5, i6, i7⟩ := triStateOf_spec o
  have key : ∀ a b : ℕ, a < (createTownscaperLattice o).triangles.length →
      b < (createTownscaperLattice o).triangles.length →
      b ∈ ((createTownscaperLattice o).triangles.getD a default).neighbors →
      a ∈ ((createTownscaperLattice o).triangles.getD b default).neighbors := by
    intro a b ha hb hmem
    rw [final_tri_length] at ha hb
    have ha' : a < (triangleOps (rowLimitOf o).toNat (columnLimitOf o).toNat).length := by
      omega
    have hb' : b < (triangleOps (rowLimitOf o).toNat (columnLimitOf o).toNat).length := by
      omega
    rw [final_tri_getD o a ha] at hmem
    rw [final_tri_getD o b hb]
    have hna : b ∈ neighborsOf (triStateOf o).edgeRecords
        ((triStateOf o).triangles.getD a default) := hmem
    rw [mem_neighborsOf_op _ _ (colTotalOf o) _ (i2 a ha').2 b] at hna
    obtain ⟨k, hk, rec, h1, h2, h3⟩ := hna
    rw [(i2 a ha').1] at h3
    have hkb : k ∈ opKeys (colTotalOf o)
        ((triangleOps (rowLimitOf o).toNat (columnLimitOf o).toNat).getD b default) :=
      ((i5 k rec h1).2.2 b h2).2
    obtain ⟨rec', h1', h2'⟩ := i7 a ha' k hk
    have hre : rec' = rec := Option.some.inj (h1'.symm.trans h1)
    rw [hre] at h2'
    show a ∈ neighborsOf (triStateOf o).edgeRecords
      ((triStateOf o).triangles.getD b default)
    rw [mem_neighborsOf_op _ _ (colTotalOf o) _ (i2 b hb').2 a]
    refine ⟨k, hkb, rec, h1, h2', ?_⟩
    rw [(i2 b hb').1]
    exact fun hh => h3 hh.symm
  intro i j hi hj
  exact ⟨key i j hi hj, key j i hj hi⟩

/-- Witness for the C7 theorem at the concrete lattice `lat114`. -/
theorem neighbor_symmetry_witness :
    0 < lat114.triangles.length ∧ 1 < lat114.triangles.length ∧
    (1 ∈ (lat114.triangles.getD 0 default).neighbors ↔
      0 ∈ (lat114.triangles.getD 1 default).neighbors) := by
  have h0 : 0 < lat114.triangles.length := by decide
  have h1 : 1 < lat114.triangles.length := by decide
  exact ⟨h0, h1, neighbor_symmetry opts114 0 1 h0 h1⟩

/-! ### Coordinate-level counting for the two-triangles-per-edge bound -/

theorem flatMap_congr {α β : Type} (f g : α → List β) :
    ∀ l : List α, (∀ a ∈ l, f a = g a) → l.flatMap f = l.flatMap g := by
  intro l
  induction l with
  | nil => intro _; rfl
  | cons x rest ih =>
    intro h
    rw [List.flatMap_cons, List.flatMap_cons, h x (List.mem_cons_self _ _),
      ih (fun a ha => h a (List.mem_cons_of_mem _ ha))]

theorem count_flatMap {α β : Type} [BEq β] (f : α → List β) (b : β) :
    ∀ l : List α, (l.flatMap f).count b = (l.map (fun x => (f x).count b)).sum := by
  intro l
  induction l with
  | nil => rfl
  | cons x rest ih =>
    rw [List.flatMap_cons, List.count_append, List.map_cons, List.sum_cons, ih]

theorem count_six {α : Type} [BEq α] [LawfulBEq α] [DecidableEq α] (K a b c d e f : α) :
    List.count K [a, b, c, d, e, f] =
      (if a = K then 1 else 0) + (if b = K then 1 else 0) + (if c = K then 1 else 0) +
      (if d = K then 1 else 0) + (if e = K then 1 else 0) + (if f = K then 1 else 0) := by
  rw [List.count_cons, List.count_cons, List.count_cons, List.count_cons,
    List.count_cons, List.count_cons, List.count_nil]
  simp only [beq_iff_eq]
  split_ifs <;> omega

theorem cellKeys_even (r c : ℕ) (h : r % 2 = 0) :
    cellKeys r c = [Hk r c, Dm r c, Vk r c, Vk r (c + 1), Hk (r + 1) c, Dm r c] := by
  have e1 : ckey (r, c) (r, c + 1) = Hk r c := by
    rw [ckey, if_pos (by dsimp only; omega)]
    rfl
  have e2 : ckey (r, c + 1) (r + 1, c) = Dm r c := by
    rw [ckey, if_pos (by dsimp only; omega)]
    rfl
  have e3 : ckey (r + 1, c) (r, c) = Vk r c := by
    rw [ckey, if_neg (by dsimp only; omega)]
    rfl
  have e4 : ckey (r, c + 1) (r + 1, c + 1) = Vk r (c + 1) := by
    rw [ckey, if_pos (by dsimp only; omega)]
    rfl
  have e5 : ckey (r + 1, c + 1) (r + 1, c) = Hk (r + 1) c := by
    rw [ckey, if_neg (by dsimp only; omega)]
    rfl
  have e6 : ckey (r + 1, c) (r, c + 1) = Dm r c := by
    rw [ckey, if_neg (by dsimp only; omega)]
    rfl
  rw [cellKeys, cellTriangles, if_pos h]
  rw [List.flatMap_cons, List.flatMap_cons, List.flatMap_nil, List.append_nil]
  rw [coordKeys, coordKeys]
  dsimp only
  rw [e1, e2, e3, e4, e5, e6]
  rfl

theorem cellKeys_odd (r c : ℕ) (h : ¬ r % 2 = 0) :
    cellKeys r c = [Dp r c, Hk (r + 1) c, Vk r c, Hk r c, Vk r (c + 1), Dp r c] := by
  have o1 : ckey (r, c) (r + 1, c + 1) = Dp r c := by
    rw [ckey, if_pos (by dsimp only; omega)]
    rfl
  have o2 : ckey (r + 1, c + 1) (r + 1, c) = Hk (r + 1) c := by
    rw [ckey, if_neg (by dsimp only; omega)]
    rfl
  have o3 : ckey (r + 1, c) (r, c) = Vk r c := by
    rw [ckey, if_neg (by dsimp only; omega)]
    rfl
  have o4 : ckey (r, c) (r, c + 1) = Hk r c := by
    rw [ckey, if_pos (by dsimp only; omega)]
    rfl
  have o5 : ckey (r, c + 1) (r + 1, c + 1) = Vk r (c + 1) := by
    rw [ckey, if_pos (by dsimp only; omega)]
    rfl
  have o6 : ckey (r + 1, c + 1) (r, c) = Dp r c := by
    rw [ckey, if_neg (by dsimp only; omega)]
    rfl
  rw [cellKeys, cellTriangles, if_neg h]
  rw [List.flatMap_cons, List.flatMap_cons, List.flatMap_nil, List.append_nil]
  rw [coordKeys, coordKeys]
  dsimp only
  rw [o1, o2, o3, o4, o5, o6]
  rfl

/-- Parity-independent closed form of a cell's contribution count to an
arbitrary coordinate key. -/
theorem cellKeys_count (r c : ℕ) (K : (ℕ × ℕ) × (ℕ × ℕ)) :
    (cellKeys r c).count K =
      (if Hk r c = K then 1 else 0) + (if Vk r c = K then 1 else 0) +
      (if Vk r (c + 1) = K then 1 else 0) + (if Hk (r + 1) c = K then 1 else 0) +
      (if r % 2 = 0 then (if Dm r c = K then 2 else 0)
        else (if Dp r c = K then 2 else 0)) := by
  by_cases h : r % 2 = 0
  · rw [cellKeys_even r c h, count_six, if_pos h]
    split_ifs <;> omega
  · rw [cellKeys_odd r c h, count_six, if_neg h]
    split_ifs <;> omega

set_option maxHeartbeats 3000000 in
/-- Every coordinate key collects contributions from at most two cells of
the triangle double loop, totalling at most two registrations. -/
theorem cellCount_global (K : (ℕ × ℕ) × (ℕ × ℕ)) :
    ∃ A B : ℕ × ℕ, A ≠ B ∧
      (cellKeys A.1 A.2).count K + (cellKeys B.1 B.2).count K ≤ 2 ∧
      ∀ p : ℕ × ℕ, p ≠ A → p ≠ B → (cellKeys p.1 p.2).count K = 0 := by
  obtain ⟨⟨r1, c1⟩, r2, c2⟩ := K
  by_cases hH : r2 = r1 ∧ c2 = c1 + 1
  · obtain ⟨h1, h2⟩ := hH
    have h1' : r1 = r2 := h1.symm
    subst h1'
    subst h2
    have hcA : (cellKeys r1 c1).count ((r1, c1), (r1, c1 + 1)) ≤ 1 := by rw [cellKeys_count]; simp only [Hk, Vk, Dm, Dp, Prod.mk.injEq]; split_ifs <;> omega
    by_cases hr0 : r1 = 0
    · refine ⟨(r1, c1), (r1 + 1, c1), by rw [Ne, Prod.mk.injEq]; omega, ?_, ?_⟩
      · have hcB : (cellKeys (r1 + 1) c1).count ((r1, c1), (r1, c1 + 1)) = 0 := by rw [cellKeys_count]; simp only [Hk, Vk, Dm, Dp, Prod.mk.injEq]; split_ifs <;> omega
        dsimp only
        omega
      · rintro ⟨pr, pc⟩ hpA hpB; rw [Ne, Prod.mk.injEq] at hpA hpB; rw [cellKeys_count]; simp only [Hk, Vk, Dm, Dp, Prod.mk.injEq]; split_ifs <;> omega
    · refine ⟨(r1, c1), (r1 - 1, c1), by rw [Ne, Prod.mk.injEq]; omega, ?_, ?_⟩
      · have hcB : (cellKeys (r1 - 1) c1).count ((r1, c1), (r1, c1 + 1)) ≤ 1 := by rw [cellKeys_count]; simp only [Hk, Vk, Dm, Dp, Prod.mk.injEq]; split_ifs <;> omega
        dsimp only
        omega
      · rintro ⟨pr, pc⟩ hpA hpB; rw [Ne, Prod.mk.injEq] at hpA hpB; rw [cellKeys_count]; simp only [Hk, Vk, Dm, Dp, Prod.mk.injEq]; split_ifs <;> omega
  · by_cases hV : r2 = r1 + 1 ∧ c2 = c1
    · obtain ⟨h1, h2⟩ := hV
      subst h1
      have h2' : c1 = c2 := h2.symm
      subst h2'
      have hcA : (cellKeys r1 c1).count ((r1, c1), (r1 + 1, c1)) ≤ 1 := by rw [cellKeys_count]; simp only [Hk, Vk, Dm, Dp, Prod.mk.injEq]; split_ifs <;> omega
      by_cases hc0 : c1 = 0
      · refine ⟨(r1, c1), (r1, c1 + 1), by rw [Ne, Prod.mk.injEq]; omega, ?_, ?_⟩
        · have hcB : (cellKeys r1 (c1 + 1)).count ((r1, c1), (r1 + 1, c1)) = 0 := by rw [cellKeys_count]; simp only [Hk, Vk, Dm, Dp, Prod.mk.injEq]; split_ifs <;> omega
          dsimp only
          omega
        · rintro ⟨pr, pc⟩ hpA hpB; rw [Ne, Prod.mk.injEq] at hpA hpB; rw [cellKeys_count]; simp only [Hk, Vk, Dm, Dp, Prod.mk.injEq]; split_ifs <;> omega
      · refine ⟨(r1, c1), (r1, c1 - 1), by rw [Ne, Prod.mk.injEq]; omega, ?_, ?_⟩
        · have hcB : (cellKeys r1 (c1 - 1)).count ((r1, c1), (r1 + 1, c1)) ≤ 1 := by rw [cellKeys_count]; simp only [Hk, Vk, Dm, Dp, Prod.mk.injEq]; split_ifs <;> omega
          dsimp only
          omega
        · rintro ⟨pr, pc⟩ hpA hpB; rw [Ne, Prod.mk.injEq] at hpA hpB; rw [cellKeys_count]; simp only [Hk, Vk, Dm, Dp, Prod.mk.injEq]; split_ifs <;> omega
    · by_cases hDm : r2 = r1 + 1 ∧ c1 = c2 + 1
      · obtain ⟨h1, h2⟩ := hDm
        subst h1
        subst h2
        have hcA : (cellKeys r1 c2).count ((r1, c2 + 1), (r1 + 1, c2)) ≤ 2 := by rw [cellKeys_count]; simp only [Hk, Vk, Dm, Dp, Prod.mk.injEq]; split_ifs <;> omega
        refine ⟨(r1, c2), (r1 + 1, c2), by rw [Ne, Prod.mk.injEq]; omega, ?_, ?_⟩
        · have hcB : (cellKeys (r1 + 1) c2).count ((r1, c2 + 1), (r1 + 1, c2)) = 0 := by rw [cellKeys_count]; simp only [Hk, Vk, Dm, Dp, Prod.mk.injEq]; split_ifs <;> omega
          dsimp only
          omega
        · rintro ⟨pr, pc⟩ hpA hpB; rw [Ne, Prod.mk.injEq] at hpA hpB; rw [cellKeys_count]; simp only [Hk, Vk, Dm, Dp, Prod.mk.injEq]; split_ifs <;> omega
      · by_cases hDp : r2 = r1 + 1 ∧ c2 = c1 + 1
        · obtain ⟨h1, h2⟩ := hDp
          subst h1
          subst h2
          have hcA : (cellKeys r1 c1).count ((r1, c1), (r1 + 1, c1 + 1)) ≤ 2 := by rw [cellKeys_count]; simp only [Hk, Vk, Dm, Dp, Prod.mk.injEq]; split_ifs <;> omega
          refine ⟨(r1, c1), (r1 + 1, c1), by rw [Ne, Prod.mk.injEq]; omega, ?_, ?_⟩
          · have hcB : (cellKeys (r1 + 1) c1).count ((r1, c1), (r1 + 1, c1 + 1)) = 0 := by rw [cellKeys_count]; simp only [Hk, Vk, Dm, Dp, Prod.mk.injEq]; split_ifs <;> omega
            dsimp only
            omega
          · rintro ⟨pr, pc⟩ hpA hpB; rw [Ne, Prod.mk.injEq] at hpA hpB; rw [cellKeys_count]; simp only [Hk, Vk, Dm, Dp, Prod.mk.injEq]; split_ifs <;> omega
        · refine ⟨(0, 0), (0, 1), by rw [Ne, Prod.mk.injEq]; omega, ?_, ?_⟩
          · have hcA : (cellKeys 0 0).count ((r1, c1), (r2, c2)) = 0 := by rw [cellKeys_count]; simp only [Hk, Vk, Dm, Dp, Prod.mk.injEq]; split_ifs <;> omega
            have hcB : (cellKeys 0 1).count ((r1, c1), (r2, c2)) = 0 := by rw [cellKeys_count]; simp only [Hk, Vk, Dm, Dp, Prod.mk.injEq]; split_ifs <;> omega
            dsimp only
            omega
          · rintro ⟨pr, pc⟩ hpA hpB; rw [Ne, Prod.mk.injEq] at hpA hpB; rw [cellKeys_count]; simp only [Hk, Vk, Dm, Dp, Prod.mk.injEq]; split_ifs <;> omega

theorem sum_indicator_inner (g : ℕ → ℕ → ℕ) (a1 a2 b1 b2 : ℕ)
    (hAB : ¬ (a1 = b1 ∧ a2 = b2))
    (h0 : ∀ r c : ℕ, ¬ (r = a1 ∧ c = a2) → ¬ (r = b1 ∧ c = b2) → g r c = 0)
    (r : ℕ) :
    ∀ m : ℕ, ((List.range m).map (fun c => g r c)).sum =
      (if a1 = r ∧ a2 < m then g a1 a2 else 0) +
      (if b1 = r ∧ b2 < m then g b1 b2 else 0) := by
  intro m
  induction m with
  | zero =>
    rw [List.range_zero, List.map_nil, List.sum_nil, if_neg (by omega), if_neg (by omega)]
    rfl
  | succ m ih =>
    rw [List.range_succ, List.map_append, List.sum_append, ih]
    simp only [List.map_cons, List.map_nil, List.sum_cons, List.sum_nil, Nat.add_zero]
    by_cases hA : r = a1 ∧ m = a2
    · obtain ⟨h1, h2⟩ := hA
      have h1' : a1 = r := h1.symm
      have h2' : a2 = m := h2.symm
      subst h1'
      subst h2'
      split_ifs <;> omega
    · by_cases hB : r = b1 ∧ m = b2
      · obtain ⟨h1, h2⟩ := hB
        have h1' : b1 = r := h1.symm
        have h2' : b2 = m := h2.symm
        subst h1'
        subst h2'
        split_ifs <;> omega
      · rw [h0 r m hA hB]
        split_ifs <;> omega

theorem sum_indicator_outer (g : ℕ → ℕ → ℕ) (a1 a2 b1 b2 : ℕ)
    (hAB : ¬ (a1 = b1 ∧ a2 = b2))
    (h0 : ∀ r c : ℕ, ¬ (r = a1 ∧ c = a2) → ¬ (r = b1 ∧ c = b2) → g r c = 0)
    (m : ℕ) :
    ∀ n : ℕ,
      ((List.range n).map (fun r => ((List.range m).map (fun c => g r c)).sum)).sum =
        (if a1 < n ∧ a2 < m then g a1 a2 else 0) +
        (if b1 < n ∧ b2 < m then g b1 b2 else 0) := by
  intro n
  induction n with
  | zero =>
    rw [List.range_zero, List.map_nil, List.sum_nil, if_neg (by omega), if_neg (by omega)]
    rfl
  | succ n ih =>
    rw [List.range_succ, List.map_append, List.sum_append, ih]
    simp only [List.map_cons, List.map_nil, List.sum_cons, List.sum_nil, Nat.add_zero]
    rw [sum_indicator_inner g a1 a2 b1 b2 hAB h0 n m]
    split_ifs <;> omega

theorem vidx_lt (ct : ℕ) (X Y : ℕ × ℕ) (hx : X.2 < ct)
    (h : X.1 < Y.1 ∨ (X.1 = Y.1 ∧ X.2 < Y.2)) : vidx ct X < vidx ct Y := by
  rw [vidx, vidx]
  rcases h with h | ⟨h1, h2⟩
  · have hle : (X.1 + 1) * ct ≤ Y.1 * ct := Nat.mul_le_mul_right ct (by omega)
    have heq : (X.1 + 1) * ct = X.1 * ct + ct := by ring
    omega
  · rw [h1]
    omega

theorem vidx_inj (ct : ℕ) (X Y : ℕ × ℕ) (hx : X.2 < ct) (hy : Y.2 < ct)
    (h : vidx ct X = vidx ct Y) : X = Y := by
  by_contra hne
  rcases Nat.lt_trichotomy X.1 Y.1 with h1 | h1 | h1
  · have := vidx_lt ct X Y hx (Or.inl h1)
    omega
  · rcases Nat.lt_trichotomy X.2 Y.2 with h2 | h2 | h2
    · have := vidx_lt ct X Y hx (Or.inr ⟨h1, h2⟩)
      omega
    · exact hne (Prod.ext h1 h2)
    · have := vidx_lt ct Y X hy (Or.inr ⟨h1.symm, h2⟩)
      omega
  · have := vidx_lt ct Y X hy (Or.inl h1)
    omega

theorem createEdgeKey_vmap (ct : ℕ) (X Y : ℕ × ℕ) (hx : X.2 < ct) (hy : Y.2 < ct) :
    createEdgeKey (vidx ct X) (vidx ct Y) = vmap ct (ckey X Y) := by
  rw [createEdgeKey, ckey]
  by_cases h : X.1 < Y.1 ∨ (X.1 = Y.1 ∧ X.2 < Y.2)
  · rw [if_pos h, if_pos (vidx_lt ct X Y hx h)]
    rfl
  · rw [if_neg h]
    by_cases heq : X = Y
    · subst heq
      rw [if_neg (lt_irrefl _)]
      rfl
    · have hlt : Y.1 < X.1 ∨ (Y.1 = X.1 ∧ Y.2 < X.2) := by
        rcases Nat.lt_trichotomy X.1 Y.1 with h1 | h1 | h1
        · exact absurd (Or.inl h1) h
        · rcases Nat.lt_trichotomy X.2 Y.2 with h2 | h2 | h2
          · exact absurd (Or.inr ⟨h1, h2⟩) h
          · exact absurd (Prod.ext h1 h2) heq
          · exact Or.inr ⟨h1.symm, h2⟩
        · exact Or.inl h1
      have := vidx_lt ct Y X hy hlt
      rw [if_neg (by omega)]
      rfl

theorem opKeys_eq_map (ct n : ℕ) (op : TriOp) (h : opInRange n ct op) :
    opKeys ct op = (coordKeys op).map (vmap ct) := by
  obtain ⟨h1, h2, h3, h4, h5, h6⟩ := h
  rw [opKeys, coordKeys, List.map_cons, List.map_cons, List.map_cons, List.map_nil]
  rw [createEdgeKey_vmap ct _ _ h2 h4, createEdgeKey_vmap ct _ _ h4 h6,
    createEdgeKey_vmap ct _ _ h6 h2]

theorem ckey_inRange (n ct : ℕ) (x y : ℕ × ℕ) (hx1 : x.1 < n) (hx2 : x.2 < ct)
    (hy1 : y.1 < n) (hy2 : y.2 < ct) : keyInRange n ct (ckey x y) := by
  rw [ckey]
  split
  · exact ⟨hx1, hx2, hy1, hy2⟩
  · exact ⟨hy1, hy2, hx1, hx2⟩

theorem coordKeys_inRange (n ct : ℕ) (op : TriOp) (h : opInRange n ct op) :
    ∀ K ∈ coordKeys op, keyInRange n ct K := by
  obtain ⟨h1, h2, h3, h4, h5, h6⟩ := h
  intro K hK
  rw [coordKeys] at hK
  rcases List.mem_cons.mp hK with rfl | hK2
  · exact ckey_inRange n ct _ _ h1 h2 h3 h4
  · rcases List.mem_cons.mp hK2 with rfl | hK3
    · exact ckey_inRange n ct _ _ h3 h4 h5 h6
    · rcases List.mem_cons.mp hK3 with rfl | hK4
      · exact ckey_inRange n ct _ _ h5 h6 h1 h2
      · exact absurd hK4 (List.not_mem_nil _)

theorem vmap_inj (ct n : ℕ) (K K' : (ℕ × ℕ) × (ℕ × ℕ)) (hK : keyInRange n ct K)
    (hK' : keyInRange n ct K') (h : vmap ct K = vmap ct K') : K = K' := by
  obtain ⟨_, h2, _, h4⟩ := hK
  obtain ⟨_, h2', _, h4'⟩ := hK'
  have e1 : vidx ct K.1 = vidx ct K'.1 := congrArg Prod.fst h
  have e2 : vidx ct K.2 = vidx ct K'.2 := congrArg Prod.snd h
  exact Prod.ext (vidx_inj ct _ _ h2 h2' e1) (vidx_inj ct _ _ h4 h4' e2)

theorem count_map_vmap (ct n : ℕ) (K0 : (ℕ × ℕ) × (ℕ × ℕ))
    (hK0 : keyInRange n ct K0) :
    ∀ L : List ((ℕ × ℕ) × (ℕ × ℕ)), (∀ K ∈ L, keyInRange n ct K) →
      (L.map (vmap ct)).count (vmap ct K0) = L.count K0 := by
  intro L
  induction L with
  | nil => intro _; rfl
  | cons X rest ih =>
    intro h
    rw [List.map_cons, List.count_cons, List.count_cons,
      ih (fun a ha => h a (List.mem_cons_of_mem _ ha))]
    have hiff : (vmap ct X == vmap ct K0) = (X == K0) := by
      by_cases he : X = K0
      · rw [he]
        simp
      · have hvne : vmap ct X ≠ vmap ct K0 := fun hh =>
          he (vmap_inj ct n X K0 (h X (List.mem_cons_self _ _)) hK0 hh)
        rw [beq_eq_false_iff_ne.mpr hvne, beq_eq_false_iff_ne.mpr he]
    rw [hiff]

theorem count_map_vmap_zero (ct n : ℕ) (k : ℕ × ℕ)
    (hnone : ∀ K : (ℕ × ℕ) × (ℕ × ℕ), keyInRange n ct K → vmap ct K ≠ k) :
    ∀ L : List ((ℕ × ℕ) × (ℕ × ℕ)), (∀ K ∈ L, keyInRange n ct K) →
      (L.map (vmap ct)).count k = 0 := by
  intro L hL
  rw [List.count_eq_zero]
  intro hmem
  obtain ⟨K, hK, hKe⟩ := List.mem_map.mp hmem
  exact hnone K (hL K hK) hKe

/-- The central combinatorial bound: over the whole triangle double loop,
every vertex-index key is registered at most twice. -/
theorem regCount_le_two (rl cl n ct : ℕ) (hr : rl < n) (hc : cl < ct) (k : ℕ × ℕ) :
    regCount ct (triangleOps rl cl) k ≤ 2 := by
  have hops := triangleOps_inRange rl cl n ct hr hc
  rw [regCount]
  have hflat : (triangleOps rl cl).flatMap (opKeys ct) =
      ((triangleOps rl cl).flatMap coordKeys).map (vmap ct) := by
    rw [List.map_flatMap]
    exact flatMap_congr _ _ _ (fun op hop => opKeys_eq_map ct n op (hops op hop))
  rw [hflat]
  have hLin : ∀ K ∈ (triangleOps rl cl).flatMap coordKeys, keyInRange n ct K := by
    intro K hK
    obtain ⟨op, hop, hK2⟩ := List.mem_flatMap.mp hK
    exact coordKeys_inRange n ct op (hops op hop) K hK2
  by_cases hex : ∃ K0 : (ℕ × ℕ) × (ℕ × ℕ), keyInRange n ct K0 ∧ vmap ct K0 = k
  · obtain ⟨K0, hK0r, hK0e⟩ := hex
    rw [← hK0e, count_map_vmap ct n K0 hK0r _ hLin]
    have hstruct : (triangleOps rl cl).flatMap coordKeys =
        (List.range rl).flatMap (fun r => (List.range cl).flatMap (fun c => cellKeys r c)) := by
      rw [triangleOps, List.flatMap_assoc]
      refine flatMap_congr _ _ _ ?_
      intro r _
      rw [List.flatMap_assoc]
      exact flatMap_congr _ _ _ (fun c _ => rfl)
    rw [hstruct, count_flatMap]
    have hinner : ∀ r : ℕ, ((List.range cl).flatMap (fun c => cellKeys r c)).count K0 =
        ((List.range cl).map (fun c => (cellKeys r c).count K0)).sum :=
      fun r => count_flatMap _ _ _
    rw [List.map_congr_left (fun r _ => hinner r)]
    obtain ⟨A, B, hAB, hbound, hsupp⟩ := cellCount_global K0
    obtain ⟨a1, a2⟩ := A
    obtain ⟨b1, b2⟩ := B
    rw [Ne, Prod.mk.injEq] at hAB
    have h0 : ∀ r c : ℕ, ¬ (r = a1 ∧ c = a2) → ¬ (r = b1 ∧ c = b2) →
        (cellKeys r c).count K0 = 0 := by
      intro r c h1 h2
      exact hsupp (r, c) (by rw [Ne, Prod.mk.injEq]; exact h1)
        (by rw [Ne, Prod.mk.injEq]; exact h2)
    rw [sum_indicator_outer (fun r c => (cellKeys r c).count K0) a1 a2 b1 b2 hAB h0 cl rl]
    dsimp only at hbound
    split_ifs <;> omega
  · push_neg at hex
    rw [count_map_vmap_zero ct n k hex _ hLin]
    omega

/-- C8: in every built lattice, each edge records exactly one or exactly
two incident triangles — never zero and never three or more. -/
theorem edge_one_or_two_triangles (o : LatticeOptions) :
    ∀ e ∈ (createTownscaperLattice o).edges,
      e.triangles.length = 1 ∨ e.triangles.length = 2 := by
  obtain ⟨i1, i2, i3, i4, i5, i6, i7⟩ := triStateOf_spec o
  intro e he
  rw [final_edges] at he
  obtain ⟨i, hi, rfl⟩ := (mem_buildEdges _ _ _).mp he
  have hmem : (triStateOf o).edgeRecords.getD i default ∈ (triStateOf o).edgeRecords := by
    rw [List.getD_eq_getElem?_getD, List.getElem?_eq_getElem hi]
    exact List.getElem_mem hi
  have hlook : (triStateOf o).edgeRecords.lookup
      ((triStateOf o).edgeRecords.getD i default).1 =
      some ((triStateOf o).edgeRecords.getD i default).2 :=
    mem_lookup_of_nodup i3 hmem
  obtain ⟨h51, h52, _⟩ := i5 _ _ hlook
  rw [show (mkLatticeEdge (triStateOf o).triangles i
      ((triStateOf o).edgeRecords.getD i default).2).triangles =
    ((triStateOf o).edgeRecords.getD i default).2.triangles from rfl]
  by_cases hdeg : (rowLimitOf o).toNat = 0 ∨ (columnLimitOf o).toNat = 0
  · have hops : triangleOps (rowLimitOf o).toNat (columnLimitOf o).toNat = [] := by
      rcases hdeg with h | h
      · rw [h]
        exact triangleOps_zero_left _
      · rw [h]
        exact triangleOps_zero_right _
    rw [hops] at h51
    have hz : regCount (colTotalOf o) []
        ((triStateOf o).edgeRecords.getD i default).1 = 0 := rfl
    omega
  · push_neg at hdeg
    have hr : (rowLimitOf o).toNat < rowTotalOf o := by
      rw [rowTotalOf]
      omega
    have hc : (columnLimitOf o).toNat < colTotalOf o := by
      rw [colTotalOf]
      omega
    have hb := regCount_le_two (rowLimitOf o).toNat (columnLimitOf o).toNat
      (rowTotalOf o) (colTotalOf o) hr hc
      ((triStateOf o).edgeRecords.getD i default).1
    omega

/-- Witness for the C8 theorem at the concrete lattice `lat114`. -/
theorem edge_one_or_two_triangles_witness :
    (lat114.edges.getD 0 default) ∈ lat114.edges ∧
    ((lat114.edges.getD 0 default).triangles.length = 1 ∨
      (lat114.edges.getD 0 default).triangles.length = 2) := by
  have hmem : (lat114.edges.getD 0 default) ∈ lat114.edges := by decide
  exact ⟨hmem, edge_one_or_two_triangles opts114 _ hmem⟩

/-- The clustering result depends on the merge probability only through
`clamp01`. -/
theorem clusterTownscaperLattice_clamp (lat : Lattice) (g : Rng) (p q : ℚ)
    (h : clamp01 p = clamp01 q) :
    clusterTownscaperLattice ⟨lat, p, g⟩ = clusterTownscaperLattice ⟨lat, q, g⟩ := by
  have hst : clusterStateOf ⟨lat, p, g⟩ = clusterStateOf ⟨lat, q, g⟩ := by
    rw [clusterStateOf, clusterStateOf]
    dsimp only
    rw [h]
  rw [clusterTownscaperLattice, clusterTownscaperLattice, clustersInit, clustersInit, hst]

theorem sin60_pos : 0 < sin60 := by
  rw [sin60]
  norm_num

/-- C9: configuration-range violations are clamped, never fatal: a merge
probability at or below `0` behaves exactly as `0` and at or above `1`
exactly as `1`; a too-small piece size is floored to spacing `4` (an
in-range one is kept); and for every positive width and height the built
lattice contains at least one triangle. -/
theorem configuration_clamping (lat : Lattice) (g : Rng) (p : ℚ) (lo : LatticeOptions)
    (hw : 0 < lo.width) (hh : 0 < lo.height) :
    (p ≤ 0 → clusterTownscaperLattice ⟨lat, p, g⟩ = clusterTownscaperLattice ⟨lat, 0, g⟩) ∧
    (1 ≤ p → clusterTownscaperLattice ⟨lat, p, g⟩ = clusterTownscaperLattice ⟨lat, 1, g⟩) ∧
    (lo.pieceSize < 4 → spacingOf lo = 4) ∧
    (4 ≤ lo.pieceSize → spacingOf lo = lo.pieceSize) ∧
    (createTownscaperLattice lo).triangles ≠ [] := by
  have hs4 : (4 : ℚ) ≤ spacingOf lo := by
    rw [spacingOf]
    exact le_max_right _ _
  have hspos : 0 < spacingOf lo := by linarith
  have hvpos : 0 < verticalSpacingOf lo := by
    rw [verticalSpacingOf]
    exact mul_pos (by linarith) sin60_pos
  have hcol : 1 ≤ columnLimitOf lo := by
    rw [columnLimitOf]
    have hhs : (0 : ℚ) < horizontalSpacingOf lo := hspos
    have : (0 : ℤ) < ⌈(lo.width + horizontalSpacingOf lo * 2) / horizontalSpacingOf lo⌉ := by
      rw [Int.ceil_pos]
      positivity
    omega
  have hrow : 1 ≤ rowLimitOf lo := by
    rw [rowLimitOf]
    have : (0 : ℤ) < ⌈(lo.height + verticalSpacingOf lo * 2) / verticalSpacingOf lo⌉ := by
      rw [Int.ceil_pos]
      positivity
    omega
  refine ⟨?_, ?_, ?_, ?_, ?_⟩
  · intro hp
    refine clusterTownscaperLattice_clamp lat g p 0 ?_
    rw [clamp01, clamp01, if_pos hp, if_pos le_rfl]
  · intro hp
    refine clusterTownscaperLattice_clamp lat g p 1 ?_
    rw [clamp01, clamp01, if_neg (by linarith), if_pos hp,
      if_neg (by norm_num), if_pos le_rfl]
  · intro hp
    rw [spacingOf]
    exact max_eq_right (by linarith)
  · intro hp
    rw [spacingOf]
    exact max_eq_left hp
  · obtain ⟨i1, _⟩ := triStateOf_spec lo
    have hfirst : (((0, 0), (0, 1), (1, 0)) : TriOp) ∈
        triangleOps (rowLimitOf lo).toNat (columnLimitOf lo).toNat := by
      rw [triangleOps]
      refine List.mem_flatMap.mpr ⟨0, List.mem_range.mpr (by omega), ?_⟩
      refine List.mem_flatMap.mpr ⟨0, List.mem_range.mpr (by omega), ?_⟩
      rw [cellTriangles, if_pos (by omega)]
      exact List.mem_cons_self _ _
    have hlen : 0 < (triStateOf lo).triangles.length := by
      rw [i1]
      exact List.length_pos_of_mem hfirst
    have hlen2 : 0 < (createTownscaperLattice lo).triangles.length := by
      rw [final_tri_length]
      exact hlen
    exact List.ne_nil_of_length_pos hlen2

/-- Witness for the C9 theorem: the concrete options `opts114` (1×1 area)
have positive width and height, and a merge probability of 2 behaves as 1. -/
theorem configuration_clamping_witness :
    (0 : ℚ) < opts114.width ∧ (0 : ℚ) < opts114.height ∧
    clusterTownscaperLattice ⟨lat114, 2, fun _ => 0⟩ =
      clusterTownscaperLattice ⟨lat114, 1, fun _ => 0⟩ ∧
    (createTownscaperLattice opts114).triangles ≠ [] := by
  have hw : (0 : ℚ) < opts114.width := by norm_num [opts114]
  have hh : (0 : ℚ) < opts114.height := by norm_num [opts114]
  obtain ⟨_, h2, _, _, h5⟩ := configuration_clamping lat114 (fun _ => 0) 2 opts114 hw hh
  exact ⟨hw, hh, h2 (by norm_num), h5⟩

/-- Witness for the amended C6 theorem: instantiating both indices at edge
0 of `lat114` satisfies the bounds and the key equality. -/
theorem edge_unordered_pair_unique_witness :
    0 < lat114.edges.length ∧
    createEdgeKey (lat114.edges.getD 0 default).vertices.1
        (lat114.edges.getD 0 default).vertices.2 =
      createEdgeKey (lat114.edges.getD 0 default).vertices.1
        (lat114.edges.getD 0 default).vertices.2 ∧
    (0 : ℕ) = 0 := by
  have h0 : 0 < lat114.edges.length := by decide
  exact ⟨h0, rfl, edge_unordered_pair_unique opts114 0 0 h0 h0 rfl⟩

/-- C2: the Lattice Builder consumes no randomness and is deterministic:
for every width, height, pieceSize and boundary, and for any two random
sources supplied in the options, `createTownscaperLattice` produces
identical vertex, edge and triangle structures (the random source is never
consulted, so the result does not depend on it in any way). -/
theorem lattice_builder_deterministic (w h ps : ℚ) (inB : Vec2 → Bool) (g1 g2 : Rng) :
    createTownscaperLattice ⟨w, h, ps, inB, g1⟩ = createTownscaperLattice ⟨w, h, ps, inB, g2⟩ :=
  rfl

/-- C3 counterexample: on the concrete lattice `lat114` (18 in-boundary
triangles) and the valid random source that always draws 0, merge
probability 0 does *not* yield one cluster per in-boundary triangle: the
merge test `random() <= mergeChance` succeeds on a zero draw, so the flood
fill produces a single 18-triangle cluster. -/
theorem mergeChance_zero_still_merges :
    ¬ ((∀ cl ∈ (clusterTownscaperLattice ⟨lat114, 0, fun _ => 0⟩).clusters,
          cl.triangleIds.length = 1) ∧
       (clusterTownscaperLattice ⟨lat114, 0, fun _ => 0⟩).clusters.length =
          insideCount lat114.triangles) := by
  decide

/-- C4 counterexample: `latIso` has an odd number (three) of in-boundary
triangles, pairwise non-adjacent, so `pairTownscaperTriangles` (with the
valid always-0 random source) produces three single-triangle pairs, not
exactly one. -/
theorem odd_lattice_not_exactly_one_singleton :
    insideCount latIso.triangles % 2 = 1 ∧
    ¬ (((pairTownscaperTriangles ⟨latIso, fun _ => 0⟩).pairs.filter
          (fun pr => pr.triangleIds.length = 1)).length = 1) := by
  decide

/-- C6 counterexample: in the concrete lattice `lat114` some edge stores
its vertex pair with the larger id first — the canonical (min, max) order
is used only for the deduplication key, while the stored `vertices` field
keeps the traversal order in which the edge was first encountered. -/
theorem edge_vertices_not_canonically_ordered :
    ∃ e ∈ lat114.edges, e.vertices.2 < e.vertices.1 := by
  decide

end Townscaper
